import Mathlib

/-!
# Scaled barcodes (`scaledbarcode.go`)

A shallow embedding of the Go file `scaledbarcode.go` of package `barcode`
and theorems about it.

Modelling conventions.

* An interface value is the record of what its methods return.
* Integer division `/` of Go truncates toward zero: `Int.tdiv`.
* A `float64` is a rational number or one of the IEEE-754 special values
  `+Inf`, `-Inf`, `NaN`; the two zeros are identified, no operation of the file
  tells them apart (every divisor that is zero comes from `float64(0)`, which
  is `+0`).
* `int(f)` for a `NaN` or an infinity is left to the implementation by the Go
  specification; the three results are the fields of `IntConv`, an explicit
  argument of the scaling functions (`IntConv.amd64` gives the values of the
  amd64 port).
* The file is embedded twice.  The definitions `Scale`, `scale1DCode`,
  `scale2DCode` compute with exact arithmetic: `int` is `Int` without
  wrap-around and a `float64` operation returns its exact result.  The
  definitions `machine.Scale`, `machine.scale1DCode`, `machine.scale2DCode`
  compute as a 64-bit port does: `int` operations wrap around modulo `2^64`
  and every `float64` operation rounds to the nearest binary64 number.  The
  theorems about the geometry of the sampling are stated of the first, the
  theorems about the numeric results of the second;
  `machine.factor2D_eq_exact` and `machine.scale2DCode_agrees` relate the two
  below `2^53`.
-/

namespace barcode

/-! ## Standard library: `image/color`, `image`, `math` -/

namespace color

/-- Go `color.Color`, known by what its `RGBA()` method returns. -/
structure Color where
  R : Nat
  G : Nat
  B : Nat
  A : Nat
  deriving DecidableEq, Repr

/-- Go `color.Model`, known by a tag. -/
abbrev Model := String

/-- Go `color.White`, the white `Gray16{0xffff}`. -/
def White : Color := ⟨0xffff, 0xffff, 0xffff, 0xffff⟩

/-- Go `color.Black`, the black `Gray16{0}`. -/
def Black : Color := ⟨0, 0, 0, 0xffff⟩

end color

namespace image

/-- Go `image.Point`. -/
structure Point where
  X : Int
  Y : Int
  deriving DecidableEq, Repr

/-- Go `image.Rectangle`. -/
structure Rectangle where
  Min : Point
  Max : Point
  deriving DecidableEq, Repr

/-- Go `image.Rect`: the rectangle of the two corners, "with minimum and
maximum coordinates swapped if necessary so that it is well-formed". -/
def Rect (x0 y0 x1 y1 : Int) : Rectangle :=
  let (x0, x1) := if x0 > x1 then (x1, x0) else (x0, x1)
  let (y0, y1) := if y0 > y1 then (y1, y0) else (y0, y1)
  { Min := { X := x0, Y := y0 }, Max := { X := x1, Y := y1 } }

end image

/-- Go `float64`: a rational, or one of the special values of IEEE-754. -/
inductive float64 where
  | fin (q : ℚ)
  | posInf
  | negInf
  | nan
  deriving DecidableEq

namespace float64

/-- The conversion `float64(n)` of an `int`, without rounding: it is what Go
computes for `|n| ≤ 2^53`; `machine.ofInt` rounds. -/
def ofInt (n : Int) : float64 := fin (n : ℚ)

/-- The quotient `x / y` of two `float64` values (division by zero gives an
infinity, or `NaN` for `0 / 0`; nothing panics).  The quotient of two finite
values is the exact rational; `machine.div` rounds it to a binary64 number. -/
def div : float64 → float64 → float64
  | nan, _ => nan
  | _, nan => nan
  | posInf, posInf => nan
  | posInf, negInf => nan
  | negInf, posInf => nan
  | negInf, negInf => nan
  | posInf, fin b => if b < 0 then negInf else posInf
  | negInf, fin b => if b < 0 then posInf else negInf
  | fin _, posInf => fin 0
  | fin _, negInf => fin 0
  | fin a, fin b =>
      if b = 0 then (if a = 0 then nan else if 0 < a then posInf else negInf)
      else fin (a / b)

/-- The comparison `x <= y` of two `float64` values; false when either is `NaN`. -/
def le : float64 → float64 → Bool
  | nan, _ => false
  | _, nan => false
  | negInf, _ => true
  | _, posInf => true
  | posInf, _ => false
  | _, negInf => false
  | fin a, fin b => decide (a ≤ b)

/-- Go `math.Min`: `Min(x, -Inf) = Min(-Inf, x) = -Inf`, then
`Min(x, NaN) = Min(NaN, x) = NaN`, else the smaller of the two. -/
def Min : float64 → float64 → float64
  | negInf, _ => negInf
  | _, negInf => negInf
  | nan, _ => nan
  | _, nan => nan
  | posInf, y => y
  | x, posInf => x
  | fin a, fin b => if a < b then fin a else fin b

end float64

/-- The results of `int(f)` for the values `f` that no `int` represents, which
the Go specification leaves to the implementation. -/
structure IntConv where
  ofNaN : Int
  ofPosInf : Int
  ofNegInf : Int

/-- The amd64 port: `CVTTSD2SQ` gives `0x8000000000000000` in the three cases. -/
def IntConv.amd64 : IntConv :=
  { ofNaN := -9223372036854775808
    ofPosInf := -9223372036854775808
    ofNegInf := -9223372036854775808 }

/-- The arm64 port: `FCVTZS` gives 0 for `NaN` and saturates the infinities. -/
def IntConv.arm64 : IntConv :=
  { ofNaN := 0
    ofPosInf := 9223372036854775807
    ofNegInf := -9223372036854775808 }

/-- The conversion `int(f)` of a `float64`: the fraction is discarded
(truncation toward zero).  A finite value is converted whatever its size;
`machine.toInt` converts a finite value outside the range of `int` as the
implementation converts the infinity of its sign. -/
def float64.toInt (impl : IntConv) : float64 → Int
  | fin q => Int.tdiv q.num (q.den : Int)
  | posInf => impl.ofPosInf
  | negInf => impl.ofNegInf
  | nan => impl.ofNaN

/-! ## The package's interface types (declared outside `scaledbarcode.go`) -/

/-- Modelled from the spec: the type `Metadata`, declared outside
`scaledbarcode.go`; `Dimensions` is the only field the file reads, `CodeKind`
stands for the fields it passes through. -/
structure Metadata where
  CodeKind : String
  Dimensions : Int
  deriving DecidableEq, Repr

/-- Modelled from the spec: the interface `Barcode`, declared outside
`scaledbarcode.go`, as the record of its methods.  `CheckSum` is `some k` when
the dynamic type also implements `BarcodeIntCS` and its `CheckSum()` returns
`k`, and `none` when it does not. -/
structure Barcode where
  Content : String
  Metadata : Metadata
  ColorModel : color.Model
  Bounds : image.Rectangle
  At : Int → Int → color.Color
  CheckSum : Option Int

/-! ## `scaledbarcode.go` -/

/-- Go `type wrapFunc func(x, y int) color.Color`. -/
abbrev wrapFunc := Int → Int → color.Color

/-- Go `type scaledBarcode struct`. -/
structure scaledBarcode where
  wrapped : Barcode
  wrapperFunc : wrapFunc
  rect : image.Rectangle

/-- Go `func (bc *scaledBarcode) Content() string`. -/
def scaledBarcode.Content (bc : scaledBarcode) : String :=
  bc.wrapped.Content

/-- Go `func (bc *scaledBarcode) Metadata() Metadata`. -/
def scaledBarcode.Metadata (bc : scaledBarcode) : Metadata :=
  bc.wrapped.Metadata

/-- Go `func (bc *scaledBarcode) ColorModel() color.Model`. -/
def scaledBarcode.ColorModel (bc : scaledBarcode) : color.Model :=
  bc.wrapped.ColorModel

/-- Go `func (bc *scaledBarcode) Bounds() image.Rectangle`. -/
def scaledBarcode.Bounds (bc : scaledBarcode) : image.Rectangle :=
  bc.rect

/-- Go `func (bc *scaledBarcode) At(x, y int) color.Color`. -/
def scaledBarcode.At (bc : scaledBarcode) (x y : Int) : color.Color :=
  bc.wrapperFunc x y

/-- Go `type intCSscaledBC struct { scaledBarcode }`. -/
structure intCSscaledBC where
  toScaled : scaledBarcode

/-- Go `func (bc *intCSscaledBC) CheckSum() int`. -/
def intCSscaledBC.CheckSum (bc : intCSscaledBC) : Int :=
  match bc.toScaled.wrapped.CheckSum with
  | some cs => cs
  | none => 0

/-- The interface value of a `*scaledBarcode`: it has no `CheckSum` method. -/
def scaledBarcode.toBarcode (bc : scaledBarcode) : Barcode :=
  { Content := bc.Content
    Metadata := bc.Metadata
    ColorModel := bc.ColorModel
    Bounds := bc.Bounds
    At := bc.At
    CheckSum := none }

/-- The interface value of a `*intCSscaledBC`: the promoted methods of the
embedded `scaledBarcode`, and `CheckSum`. -/
def intCSscaledBC.toBarcode (bc : intCSscaledBC) : Barcode :=
  { Content := bc.toScaled.Content
    Metadata := bc.toScaled.Metadata
    ColorModel := bc.toScaled.ColorModel
    Bounds := bc.toScaled.Bounds
    At := bc.toScaled.At
    CheckSum := some bc.CheckSum }

/-- Go `func newScaledBC(wrapped Barcode, wrapperFunc wrapFunc, rect image.Rectangle) Barcode`. -/
def newScaledBC (wrapped : Barcode) (wrapperFunc : wrapFunc) (rect : image.Rectangle) : Barcode :=
  let result : scaledBarcode :=
    { wrapped := wrapped, wrapperFunc := wrapperFunc, rect := rect }
  match wrapped.CheckSum with
  | some _ => (intCSscaledBC.mk result).toBarcode
  | none => result.toBarcode

/-- What one call of a `wrap` closure does: return `color.White`, or call the
`At` method of the wrapped barcode at one coordinate and return its result. -/
inductive Sample where
  | white
  | source (x y : Int)
  deriving DecidableEq, Repr

/-- The colour a `wrap` closure returns, given the wrapped barcode. -/
def Sample.color (bc : Barcode) : Sample → color.Color
  | Sample.white => color.White
  | Sample.source x y => bc.At x y

/-- The `factor` of `scale2DCode`, in exact arithmetic; it is the factor of the
code for operands below `2^53` (`machine.factor2D_eq_exact`). -/
def factor2D (impl : IntConv) (width height offset orgWidth orgHeight : Int) : Int :=
  float64.toInt impl
    (float64.Min
      (float64.div (float64.ofInt (width - 2 * offset)) (float64.ofInt orgWidth))
      (float64.div (float64.ofInt (height - 2 * offset)) (float64.ofInt orgHeight)))

/-- The control flow of the closure `wrap` of `scale2DCode`, without
wrap-around of `x - offset` and `y - offset`. -/
def sample2D (offset factor orgWidth orgHeight : Int) (x y : Int) : Sample :=
  if x < offset ∨ y < offset then Sample.white
  else
    let x := Int.tdiv (x - offset) factor
    let y := Int.tdiv (y - offset) factor
    if x ≥ orgWidth ∨ y ≥ orgHeight then Sample.white
    else Sample.source x y

/-- The message of the error `scale2DCode` returns. -/
def tooSmall2D (orgWidth orgHeight : Int) : String :=
  "can not scale barcode to an image smaller than " ++ toString orgWidth ++ "x"
    ++ toString orgHeight

/-- Go `func scale2DCode(bc Barcode, width, height, offset int) (Barcode, error)`,
in exact arithmetic; `machine.scale2DCode_agrees` relates it to the machine
`scale2DCode`. -/
def scale2DCode (impl : IntConv) (bc : Barcode) (width height offset : Int) :
    Except String Barcode :=
  let orgBounds := bc.Bounds
  let orgWidth := orgBounds.Max.X - orgBounds.Min.X
  let orgHeight := orgBounds.Max.Y - orgBounds.Min.Y
  let factor := factor2D impl width height offset orgWidth orgHeight
  if factor ≤ 0 then
    Except.error (tooSmall2D orgWidth orgHeight)
  else
    let wrap : wrapFunc := fun x y =>
      (sample2D offset factor orgWidth orgHeight x y).color bc
    Except.ok (newScaledBC bc wrap (image.Rect 0 0 width height))

/-- The `factor` of `scale1DCode`, in exact arithmetic: the rational
`(width - 2 * offset) / orgWidth`, which the code rounds to a binary64 number
(`machine.factor1D`). -/
def factor1D (width offset orgWidth : Int) : float64 :=
  float64.div (float64.ofInt (width - 2 * offset)) (float64.ofInt orgWidth)

/-- The control flow of the closure `wrap` of `scale1DCode`, in exact
arithmetic; the code rounds the quotient (`machine.sample1D`), which can give
the column before. -/
def sample1D (impl : IntConv) (offset : Int) (factor : float64) (orgWidth : Int)
    (x _y : Int) : Sample :=
  if x < offset then Sample.white
  else
    let x := float64.toInt impl (float64.div (float64.ofInt (x - offset)) factor)
    if x ≥ orgWidth then Sample.white
    else Sample.source x 0

/-- The message of the error `scale1DCode` returns. -/
def tooSmall1D (orgWidth : Int) : String :=
  "can not scale barcode to an image smaller than " ++ toString orgWidth ++ "x1"

/-- Go `func scale1DCode(bc Barcode, width, height, offset int) (Barcode, error)`,
in exact arithmetic. -/
def scale1DCode (impl : IntConv) (bc : Barcode) (width height offset : Int) :
    Except String Barcode :=
  let orgBounds := bc.Bounds
  let orgWidth := orgBounds.Max.X - orgBounds.Min.X
  let factor := factor1D width offset orgWidth
  if float64.le factor (float64.ofInt 0) then
    Except.error (tooSmall1D orgWidth)
  else
    let wrap : wrapFunc := fun x y =>
      (sample1D impl offset factor orgWidth x y).color bc
    Except.ok (newScaledBC bc wrap (image.Rect 0 0 width height))

/-- The message of the error `Scale` returns. -/
def unsupportedFormat : String := "unsupported barcode format"

/-- Go `func Scale(bc Barcode, width, height, offset int) (Barcode, error)`, in
exact arithmetic. -/
def Scale (impl : IntConv) (bc : Barcode) (width height offset : Int) :
    Except String Barcode :=
  if bc.Metadata.Dimensions = 1 then scale1DCode impl bc width height offset
  else if bc.Metadata.Dimensions = 2 then scale2DCode impl bc width height offset
  else Except.error unsupportedFormat

/-! ## Machine arithmetic: `int` of 64 bits and IEEE-754 `float64`

The definitions above compute with unbounded integers and with exact
quotients.  The definitions of this section compute as a 64-bit port does:
`int` arithmetic wraps around modulo `2^64`, and every `float64` operation
returns the exact result rounded to the nearest binary64 number, ties to even.
Both embeddings agree as long as every operand is below `2^53` in absolute
value and, in the 1D sampler, no second rounding intervenes. -/

namespace machine

/-- The least `int` of a 64-bit port. -/
def MinInt64 : Int := -9223372036854775808

/-- The greatest `int` of a 64-bit port. -/
def MaxInt64 : Int := 9223372036854775807

/-- The value an `int` operation of a 64-bit port returns when its exact
result is `n`: the representative of `n` modulo `2^64` in `[-2^63, 2^63)`. -/
def wrap (n : Int) : Int :=
  (n + 9223372036854775808) % 18446744073709551616 - 9223372036854775808

/-- The integer nearest to `s`, the even one when two are equally near. -/
def roundHalfEven (s : ℚ) : Int :=
  if s - (⌊s⌋ : ℚ) < 1 / 2 then ⌊s⌋
  else if 1 / 2 < s - (⌊s⌋ : ℚ) then ⌊s⌋ + 1
  else if ⌊s⌋ % 2 = 0 then ⌊s⌋ else ⌊s⌋ + 1

/-- The exponent `e` of the binary64 grid around `q > 0`: the representable
numbers near `q` are the multiples of `2^e`; 53 significant bits, and
`2^(-1074)` is the step of the subnormal numbers. -/
def ulpExp (q : ℚ) : Int := max (Int.log 2 q - 52) (-1074)

/-- The rounding of IEEE-754 binary64, to nearest and ties to even: the
`float64` that an operation with exact result `q` returns.  A result whose
rounded magnitude reaches `2^1024` is an infinity. -/
def round (q : ℚ) : float64 :=
  if q = 0 then float64.fin 0
  else
    let e := ulpExp |q|
    let r : ℚ := (roundHalfEven (|q| / (2 : ℚ) ^ e) : ℚ) * (2 : ℚ) ^ e
    if (2 : ℚ) ^ (1024 : Int) ≤ r then (if 0 < q then float64.posInf else float64.negInf)
    else float64.fin (if 0 < q then r else -r)

/-- The conversion `float64(n)` of an `int`, rounded. -/
def ofInt (n : Int) : float64 := round (n : ℚ)

/-- The quotient `x / y` of two `float64` values, rounded. -/
def div (x y : float64) : float64 :=
  match float64.div x y with
  | float64.fin q => round q
  | float64.posInf => float64.posInf
  | float64.negInf => float64.negInf
  | float64.nan => float64.nan

/-- The conversion `int(f)` of a `float64`: the fraction is discarded; a value
that no `int` represents is converted as the infinity of its sign is (so do
the amd64 and the arm64 port). -/
def toInt (impl : IntConv) : float64 → Int
  | float64.fin q =>
      if Int.tdiv q.num (q.den : Int) < MinInt64 then impl.ofNegInf
      else if MaxInt64 < Int.tdiv q.num (q.den : Int) then impl.ofPosInf
      else Int.tdiv q.num (q.den : Int)
  | float64.posInf => impl.ofPosInf
  | float64.negInf => impl.ofNegInf
  | float64.nan => impl.ofNaN

/-- The `factor` of `scale2DCode`, in machine arithmetic. -/
def factor2D (impl : IntConv) (width height offset orgWidth orgHeight : Int) : Int :=
  toInt impl
    (float64.Min
      (div (ofInt (wrap (width - wrap (2 * offset)))) (ofInt orgWidth))
      (div (ofInt (wrap (height - wrap (2 * offset)))) (ofInt orgHeight)))

/-- The control flow of the closure `wrap` of `scale2DCode`, in machine
arithmetic. -/
def sample2D (offset factor orgWidth orgHeight : Int) (x y : Int) : Sample :=
  if x < offset ∨ y < offset then Sample.white
  else
    let x := Int.tdiv (wrap (x - offset)) factor
    let y := Int.tdiv (wrap (y - offset)) factor
    if x ≥ orgWidth ∨ y ≥ orgHeight then Sample.white
    else Sample.source x y

/-- Go `func scale2DCode`, in machine arithmetic. -/
def scale2DCode (impl : IntConv) (bc : Barcode) (width height offset : Int) :
    Except String Barcode :=
  let orgBounds := bc.Bounds
  let orgWidth := wrap (orgBounds.Max.X - orgBounds.Min.X)
  let orgHeight := wrap (orgBounds.Max.Y - orgBounds.Min.Y)
  let factor := factor2D impl width height offset orgWidth orgHeight
  if factor ≤ 0 then
    Except.error (tooSmall2D orgWidth orgHeight)
  else
    let wrap : wrapFunc := fun x y =>
      (sample2D offset factor orgWidth orgHeight x y).color bc
    Except.ok (newScaledBC bc wrap (image.Rect 0 0 width height))

/-- The `factor` of `scale1DCode`, in machine arithmetic. -/
def factor1D (width offset orgWidth : Int) : float64 :=
  div (ofInt (wrap (width - wrap (2 * offset)))) (ofInt orgWidth)

/-- The control flow of the closure `wrap` of `scale1DCode`, in machine
arithmetic. -/
def sample1D (impl : IntConv) (offset : Int) (factor : float64) (orgWidth : Int)
    (x _y : Int) : Sample :=
  if x < offset then Sample.white
  else
    let x := toInt impl (div (ofInt (wrap (x - offset))) factor)
    if x ≥ orgWidth then Sample.white
    else Sample.source x 0

/-- Go `func scale1DCode`, in machine arithmetic. -/
def scale1DCode (impl : IntConv) (bc : Barcode) (width height offset : Int) :
    Except String Barcode :=
  let orgBounds := bc.Bounds
  let orgWidth := wrap (orgBounds.Max.X - orgBounds.Min.X)
  let factor := factor1D width offset orgWidth
  if float64.le factor (float64.fin 0) then
    Except.error (tooSmall1D orgWidth)
  else
    let wrap : wrapFunc := fun x y =>
      (sample1D impl offset factor orgWidth x y).color bc
    Except.ok (newScaledBC bc wrap (image.Rect 0 0 width height))

/-- Go `func Scale`, in machine arithmetic. -/
def Scale (impl : IntConv) (bc : Barcode) (width height offset : Int) :
    Except String Barcode :=
  if bc.Metadata.Dimensions = 1 then scale1DCode impl bc width height offset
  else if bc.Metadata.Dimensions = 2 then scale2DCode impl bc width height offset
  else Except.error unsupportedFormat

end machine

/-! ## Example barcodes -/

/-- A barcode of `dims` dimensions with bounds `(0,0)-(w,h)` whose pixel
`(x, y)` is black when `x + y` is even and white otherwise; it has no
`CheckSum` method. -/
def checker (dims w h : Int) : Barcode :=
  { Content := "checker"
    Metadata := { CodeKind := "test", Dimensions := dims }
    ColorModel := "Gray16"
    Bounds := { Min := { X := 0, Y := 0 }, Max := { X := w, Y := h } }
    At := fun x y => if (x + y) % 2 = 0 then color.Black else color.White
    CheckSum := none }

/-- The symbol that `Scale` returns for `checker 2 10 10`, width 44, height 44
and offset 2: the factor is 4. -/
def scaled44 : Barcode :=
  newScaledBC (checker 2 10 10)
    (fun x y => (sample2D 2 4 10 10 x y).color (checker 2 10 10))
    (image.Rect 0 0 44 44)

/-- The symbol that `scale1DCode` returns for `checker 1 10 1`, width 100,
height 50 and offset 0, with the conversions of the amd64 port. -/
def scaledBars : Barcode :=
  newScaledBC (checker 1 10 1)
    (fun x y => (sample1D IntConv.amd64 0 (factor1D 100 0 10) 10 x y).color (checker 1 10 1))
    (image.Rect 0 0 100 50)

/-- The symbol that the machine `scale1DCode` returns for `checker 1 7 1`, width 11,
height 1 and offset 1, with the conversions of the amd64 port. -/
def scaledBars11 : Barcode :=
  newScaledBC (checker 1 7 1)
    (fun x y => (machine.sample1D IntConv.amd64 1 (machine.factor1D 11 1 7) 7 x y).color
      (checker 1 7 1))
    (image.Rect 0 0 11 1)

/-- The 2D checker of bounds `(0,0)-(10,10)` with a `CheckSum` method that
returns `k`. -/
def checkerCS (k : Int) : Barcode :=
  { checker 2 10 10 with CheckSum := some k }

/-! ## Arithmetic of the model -/

theorem tdiv_mul_left_pos (c n d : Int) (hc : 0 < c) (hd : 0 < d) :
    Int.tdiv (c * n) (c * d) = Int.tdiv n d := by
  rcases le_or_lt 0 n with hn | hn
  · rw [Int.tdiv_eq_ediv (mul_nonneg hc.le hn) (mul_nonneg hc.le hd.le),
      Int.tdiv_eq_ediv hn hd.le, Int.mul_ediv_mul_of_pos _ _ hc]
  · have h1 : c * n = -(c * (-n)) := by ring
    have h2 : n = -(-n) := by ring
    rw [h1, Int.neg_tdiv, Int.tdiv_eq_ediv (mul_nonneg hc.le (by omega)) (mul_nonneg hc.le hd.le),
      Int.mul_ediv_mul_of_pos _ _ hc]
    conv_rhs => rw [h2, Int.neg_tdiv, Int.tdiv_eq_ediv (by omega) hd.le]

theorem tdiv_mul_left (c n d : Int) (hc : c ≠ 0) (hd : 0 < d) :
    Int.tdiv (c * n) (c * d) = Int.tdiv n d := by
  rcases lt_or_gt_of_ne hc with hc | hc
  · have h1 : c * n = -((-c) * n) := by ring
    have h2 : c * d = -((-c) * d) := by ring
    rw [h1, h2, Int.neg_tdiv_neg, tdiv_mul_left_pos _ _ _ (by omega) hd]
  · exact tdiv_mul_left_pos c n d hc hd

theorem trunc_intCast_div (a b : Int) (hb : b ≠ 0) :
    Int.tdiv ((a : ℚ) / (b : ℚ)).num (((a : ℚ) / (b : ℚ)).den : Int) = Int.tdiv a b := by
  obtain ⟨c, hn, hd⟩ := Rat.exists_eq_mul_div_num_and_eq_mul_div_den a hb
  have hden : (0 : Int) < (((a : ℚ) / (b : ℚ)).den : Int) := by
    exact_mod_cast Rat.den_pos _
  have hc : c ≠ 0 := by
    rintro rfl
    exact hb (by simpa using hd)
  have key : Int.tdiv a b
      = Int.tdiv (c * ((a : ℚ) / (b : ℚ)).num) (c * (((a : ℚ) / (b : ℚ)).den : Int)) := by
    rw [← hn, ← hd]
  rw [key, tdiv_mul_left _ _ _ hc hden]

theorem tdiv_pos_iff (x d : Int) (hd : 0 < d) : 0 < Int.tdiv x d ↔ d ≤ x := by
  rcases le_or_lt 0 x with hx | hx
  · rw [Int.tdiv_eq_ediv hx hd.le]
    have := Int.le_ediv_iff_mul_le (a := 1) (b := x) hd
    constructor
    · intro h
      have := this.1 (by omega)
      omega
    · intro h
      have := this.2 (by omega)
      omega
  · have h2 : x = -(-x) := by ring
    have : Int.tdiv x d ≤ 0 := by
      rw [h2, Int.neg_tdiv]
      have := Int.tdiv_nonneg (a := -x) (b := d) (by omega) hd.le
      omega
    constructor
    · intro h; omega
    · intro h; omega


theorem toInt_div_ofInt (impl : IntConv) (a b : Int) (hb : b ≠ 0) :
    float64.toInt impl (float64.div (float64.ofInt a) (float64.ofInt b)) = Int.tdiv a b := by
  have hb' : (b : ℚ) ≠ 0 := by exact_mod_cast hb
  simp only [float64.ofInt, float64.div, if_neg hb', float64.toInt]
  exact trunc_intCast_div a b hb

theorem factor2D_eq (impl : IntConv) (width height offset orgWidth orgHeight : Int)
    (hw : orgWidth ≠ 0) (hh : orgHeight ≠ 0) :
    factor2D impl width height offset orgWidth orgHeight
      = if ((width - 2 * offset : Int) : ℚ) / (orgWidth : ℚ)
            < ((height - 2 * offset : Int) : ℚ) / (orgHeight : ℚ)
        then Int.tdiv (width - 2 * offset) orgWidth
        else Int.tdiv (height - 2 * offset) orgHeight := by
  have hw' : (orgWidth : ℚ) ≠ 0 := by exact_mod_cast hw
  have hh' : (orgHeight : ℚ) ≠ 0 := by exact_mod_cast hh
  simp only [factor2D, float64.ofInt, float64.div, if_neg hw', if_neg hh', float64.Min]
  split
  · simp only [float64.toInt]; exact trunc_intCast_div _ _ hw
  · simp only [float64.toInt]; exact trunc_intCast_div _ _ hh

theorem quotient_lt_iff (a b orgWidth orgHeight : Int)
    (hw : 0 < orgWidth) (hh : 0 < orgHeight) :
    (a : ℚ) / (orgWidth : ℚ) < (b : ℚ) / (orgHeight : ℚ)
      ↔ a * orgHeight < b * orgWidth := by
  have hw' : (0 : ℚ) < (orgWidth : ℚ) := by exact_mod_cast hw
  have hh' : (0 : ℚ) < (orgHeight : ℚ) := by exact_mod_cast hh
  rw [div_lt_iff₀ hw', div_mul_eq_mul_div, lt_div_iff₀ hh']
  exact_mod_cast Iff.rfl

theorem factor2D_pos_iff (impl : IntConv) (width height offset orgWidth orgHeight : Int)
    (hw : 0 < orgWidth) (hh : 0 < orgHeight) :
    0 < factor2D impl width height offset orgWidth orgHeight
      ↔ orgWidth ≤ width - 2 * offset ∧ orgHeight ≤ height - 2 * offset := by
  have hw' : (0 : ℚ) < (orgWidth : ℚ) := by exact_mod_cast hw
  have hh' : (0 : ℚ) < (orgHeight : ℚ) := by exact_mod_cast hh
  rw [factor2D_eq impl _ _ _ _ _ hw.ne' hh.ne']
  generalize width - 2 * offset = a
  generalize height - 2 * offset = b
  have hcmp := quotient_lt_iff a b orgWidth orgHeight hw hh
  by_cases hc : (a : ℚ) / (orgWidth : ℚ) < (b : ℚ) / (orgHeight : ℚ)
  · rw [if_pos hc, tdiv_pos_iff _ _ hw]
    have hc' := hcmp.1 hc
    constructor
    · intro h
      refine ⟨h, ?_⟩
      by_contra hb
      push_neg at hb
      nlinarith
    · exact fun h => h.1
  · rw [if_neg hc, tdiv_pos_iff _ _ hh]
    have hc' : ¬ a * orgHeight < b * orgWidth := fun h => hc (hcmp.2 h)
    push_neg at hc'
    constructor
    · intro h
      refine ⟨?_, h⟩
      by_contra ha
      push_neg at ha
      nlinarith
    · exact fun h => h.2

/-! ## The wrapper and the two scaling functions -/

theorem newScaledBC_Bounds (wrapped : Barcode) (f : wrapFunc) (rect : image.Rectangle) :
    (newScaledBC wrapped f rect).Bounds = rect := by
  unfold newScaledBC
  split <;> rfl

theorem newScaledBC_At (wrapped : Barcode) (f : wrapFunc) (rect : image.Rectangle) :
    (newScaledBC wrapped f rect).At = f := by
  unfold newScaledBC
  split <;> rfl

theorem scale2DCode_ok (impl : IntConv) (bc : Barcode) (width height offset : Int)
    (r : Barcode) (h : scale2DCode impl bc width height offset = Except.ok r) :
    0 < factor2D impl width height offset (bc.Bounds.Max.X - bc.Bounds.Min.X)
          (bc.Bounds.Max.Y - bc.Bounds.Min.Y)
    ∧ r = newScaledBC bc
        (fun x y => (sample2D offset
          (factor2D impl width height offset (bc.Bounds.Max.X - bc.Bounds.Min.X)
            (bc.Bounds.Max.Y - bc.Bounds.Min.Y))
          (bc.Bounds.Max.X - bc.Bounds.Min.X) (bc.Bounds.Max.Y - bc.Bounds.Min.Y) x y).color bc)
        (image.Rect 0 0 width height) := by
  simp only [scale2DCode] at h
  split at h
  · exact absurd h (by simp)
  · rename_i hf
    exact ⟨by omega, (Except.ok.inj h).symm⟩

theorem scale2DCode_of_pos (impl : IntConv) (bc : Barcode) (width height offset : Int)
    (h : 0 < factor2D impl width height offset (bc.Bounds.Max.X - bc.Bounds.Min.X)
          (bc.Bounds.Max.Y - bc.Bounds.Min.Y)) :
    scale2DCode impl bc width height offset
      = Except.ok (newScaledBC bc
        (fun x y => (sample2D offset
          (factor2D impl width height offset (bc.Bounds.Max.X - bc.Bounds.Min.X)
            (bc.Bounds.Max.Y - bc.Bounds.Min.Y))
          (bc.Bounds.Max.X - bc.Bounds.Min.X) (bc.Bounds.Max.Y - bc.Bounds.Min.Y) x y).color bc)
        (image.Rect 0 0 width height)) := by
  simp only [scale2DCode]
  rw [if_neg (by omega)]

theorem scale2DCode_of_nonpos (impl : IntConv) (bc : Barcode) (width height offset : Int)
    (h : factor2D impl width height offset (bc.Bounds.Max.X - bc.Bounds.Min.X)
          (bc.Bounds.Max.Y - bc.Bounds.Min.Y) ≤ 0) :
    scale2DCode impl bc width height offset
      = Except.error (tooSmall2D (bc.Bounds.Max.X - bc.Bounds.Min.X)
          (bc.Bounds.Max.Y - bc.Bounds.Min.Y)) := by
  simp only [scale2DCode]
  rw [if_pos h]

theorem scale1DCode_ok (impl : IntConv) (bc : Barcode) (width height offset : Int)
    (r : Barcode) (h : scale1DCode impl bc width height offset = Except.ok r) :
    float64.le (factor1D width offset (bc.Bounds.Max.X - bc.Bounds.Min.X)) (float64.ofInt 0)
        = false
    ∧ r = newScaledBC bc
        (fun x y => (sample1D impl offset
          (factor1D width offset (bc.Bounds.Max.X - bc.Bounds.Min.X))
          (bc.Bounds.Max.X - bc.Bounds.Min.X) x y).color bc)
        (image.Rect 0 0 width height) := by
  simp only [scale1DCode] at h
  split at h
  · exact absurd h (by simp)
  · rename_i hf
    exact ⟨by simpa using hf, (Except.ok.inj h).symm⟩

theorem scale1DCode_of_not_le (impl : IntConv) (bc : Barcode) (width height offset : Int)
    (h : float64.le (factor1D width offset (bc.Bounds.Max.X - bc.Bounds.Min.X))
          (float64.ofInt 0) = false) :
    scale1DCode impl bc width height offset
      = Except.ok (newScaledBC bc
        (fun x y => (sample1D impl offset
          (factor1D width offset (bc.Bounds.Max.X - bc.Bounds.Min.X))
          (bc.Bounds.Max.X - bc.Bounds.Min.X) x y).color bc)
        (image.Rect 0 0 width height)) := by
  simp only [scale1DCode]
  rw [if_neg (by simp [h])]

theorem Rect_of_nonneg (w h : Int) (hw : 0 ≤ w) (hh : 0 ≤ h) :
    image.Rect 0 0 w h = { Min := { X := 0, Y := 0 }, Max := { X := w, Y := h } } := by
  simp only [image.Rect]
  rw [if_neg (by omega), if_neg (by omega)]

theorem Scale_ok_Bounds (impl : IntConv) (bc : Barcode) (width height offset : Int)
    (r : Barcode) (h : Scale impl bc width height offset = Except.ok r) :
    r.Bounds = image.Rect 0 0 width height := by
  simp only [Scale] at h
  split at h
  · rw [(scale1DCode_ok _ _ _ _ _ _ h).2, newScaledBC_Bounds]
  · split at h
    · rw [(scale2DCode_ok _ _ _ _ _ _ h).2, newScaledBC_Bounds]
    · exact absurd h (by simp)

/-- The factor of a 10x10 source scaled into 44x44 with offset 2 is 4. -/
theorem factor2D_checker (impl : IntConv) : factor2D impl 44 44 2 10 10 = 4 := by
  rw [factor2D_eq impl _ _ _ _ _ (by decide) (by decide)]
  norm_num
  decide

theorem Scale_checker_44 (impl : IntConv) :
    Scale impl (checker 2 10 10) 44 44 2 = Except.ok scaled44 := by
  have hf : factor2D impl 44 44 2
      ((checker 2 10 10).Bounds.Max.X - (checker 2 10 10).Bounds.Min.X)
      ((checker 2 10 10).Bounds.Max.Y - (checker 2 10 10).Bounds.Min.Y) = 4 :=
    factor2D_checker impl
  have h2 : Scale impl (checker 2 10 10) 44 44 2 = scale2DCode impl (checker 2 10 10) 44 44 2 := by
    simp [Scale, checker]
  rw [h2, scale2DCode_of_pos impl _ _ _ _ (by rw [hf]; decide), hf]
  rfl

theorem Rect_eq_min_max (w h : Int) :
    image.Rect 0 0 w h = { Min := { X := min 0 w, Y := min 0 h },
                           Max := { X := max 0 w, Y := max 0 h } } := by
  simp only [image.Rect]
  rcases le_or_lt 0 w with hw | hw <;> rcases le_or_lt 0 h with hh | hh
  · rw [if_neg (by omega), if_neg (by omega), min_eq_left hw, min_eq_left hh,
      max_eq_right hw, max_eq_right hh]
  · rw [if_neg (by omega), if_pos (by omega), min_eq_left hw, min_eq_right hh.le,
      max_eq_right hw, max_eq_left hh.le]
  · rw [if_pos (by omega), if_neg (by omega), min_eq_right hw.le, min_eq_left hh,
      max_eq_left hw.le, max_eq_right hh]
  · rw [if_pos (by omega), if_pos (by omega), min_eq_right hw.le, min_eq_right hh.le,
      max_eq_left hw.le, max_eq_left hh.le]

/-! ## C1: bounds of the result -/

/-- C1 (counterexample): `Scale` of a 1D symbol of width 10 to width 100,
height -5 and offset 0 succeeds, and the bounds of the result are
`(0,-5)-(100,0)`, not `(0,0)-(100,-5)`. -/
theorem Scale_Bounds_negative_height :
    ∃ r, Scale IntConv.amd64 (checker 1 10 1) 100 (-5) 0 = Except.ok r
      ∧ r.Bounds = { Min := { X := 0, Y := -5 }, Max := { X := 100, Y := 0 } }
      ∧ r.Bounds ≠ { Min := { X := 0, Y := 0 }, Max := { X := 100, Y := -5 } } := by
  have h1 : Scale IntConv.amd64 (checker 1 10 1) 100 (-5) 0
      = scale1DCode IntConv.amd64 (checker 1 10 1) 100 (-5) 0 := by
    simp [Scale, checker]
  have h2 : float64.le (factor1D 100 0
      ((checker 1 10 1).Bounds.Max.X - (checker 1 10 1).Bounds.Min.X)) (float64.ofInt 0)
      = false := by
    simp [checker, factor1D, float64.ofInt, float64.div, float64.le]
  rw [h1, scale1DCode_of_not_le _ _ _ _ _ h2]
  refine ⟨_, rfl, ?_, ?_⟩
  · rw [newScaledBC_Bounds]; decide
  · rw [newScaledBC_Bounds]; decide

/-- C1 (amended): whenever `Scale` succeeds, the bounds of the result are
`image.Rect(0, 0, width, height)`, that is the rectangle from
`(min 0 width, min 0 height)` to `(max 0 width, max 0 height)`; they are
`(0,0)-(width,height)` when `width` and `height` are not negative. -/
theorem Scale_Bounds_eq_Rect (impl : IntConv) (bc : Barcode) (width height offset : Int)
    (r : Barcode) (h : Scale impl bc width height offset = Except.ok r) :
    r.Bounds = image.Rect 0 0 width height
    ∧ r.Bounds = { Min := { X := min 0 width, Y := min 0 height },
                   Max := { X := max 0 width, Y := max 0 height } }
    ∧ (0 ≤ width → 0 ≤ height →
        r.Bounds = { Min := { X := 0, Y := 0 }, Max := { X := width, Y := height } }) := by
  have hb := Scale_ok_Bounds impl bc width height offset r h
  refine ⟨hb, ?_, ?_⟩
  · rw [hb, Rect_eq_min_max]
  · intro hw hh
    rw [hb, Rect_of_nonneg _ _ hw hh]

/-- C1 (witness): a 10x10 symbol scaled into 44x44 with offset 2 has bounds
`(0,0)-(44,44)`. -/
theorem Scale_Bounds_eq_Rect_witness :
    Scale IntConv.amd64 (checker 2 10 10) 44 44 2 = Except.ok scaled44
    ∧ scaled44.Bounds = { Min := { X := 0, Y := 0 }, Max := { X := 44, Y := 44 } } :=
  ⟨Scale_checker_44 _,
   (Scale_Bounds_eq_Rect IntConv.amd64 (checker 2 10 10) 44 44 2 scaled44
      (Scale_checker_44 _)).2.2 (by decide) (by decide)⟩

/-! ## C2: dispatch by dimensionality -/

/-- C2: `Scale` returns the result of `scale1DCode` when
`Metadata().Dimensions` is 1, the result of `scale2DCode` when it is 2, and for
every other value the unsupported-format error and no symbol, whatever the
width, height and offset are. -/
theorem Scale_dispatch (impl : IntConv) (bc : Barcode) (width height offset : Int) :
    (bc.Metadata.Dimensions = 1 →
      Scale impl bc width height offset = scale1DCode impl bc width height offset)
    ∧ (bc.Metadata.Dimensions = 2 →
      Scale impl bc width height offset = scale2DCode impl bc width height offset)
    ∧ (bc.Metadata.Dimensions ≠ 1 → bc.Metadata.Dimensions ≠ 2 →
      Scale impl bc width height offset = Except.error unsupportedFormat
      ∧ ∀ r, Scale impl bc width height offset ≠ Except.ok r) := by
  refine ⟨?_, ?_, ?_⟩
  · intro h
    simp only [Scale]
    rw [if_pos h]
  · intro h
    simp only [Scale]
    rw [if_neg (by omega), if_pos h]
  · intro h1 h2
    have he : Scale impl bc width height offset = Except.error unsupportedFormat := by
      simp only [Scale]
      rw [if_neg h1, if_neg h2]
    refine ⟨he, ?_⟩
    intro r hr
    rw [he] at hr
    exact absurd hr (by simp)

/-- C2 (witness): a symbol of 3 dimensions is refused with the
unsupported-format error, and one of 2 dimensions goes to `scale2DCode`. -/
theorem Scale_dispatch_witness :
    Scale IntConv.amd64 (checker 3 10 10) 44 44 2 = Except.error unsupportedFormat
    ∧ Scale IntConv.amd64 (checker 2 10 10) 44 44 2
        = scale2DCode IntConv.amd64 (checker 2 10 10) 44 44 2 :=
  ⟨((Scale_dispatch IntConv.amd64 (checker 3 10 10) 44 44 2).2.2
      (by decide) (by decide)).1,
   (Scale_dispatch IntConv.amd64 (checker 2 10 10) 44 44 2).2.1 (by decide)⟩


/-! ## The sampling of `scale1DCode` with a finite factor -/

theorem toInt_div_factor1D (impl : IntConv) (k width offset orgWidth : Int)
    (hw : orgWidth ≠ 0) (hn : width - 2 * offset ≠ 0) :
    float64.toInt impl (float64.div (float64.ofInt k) (factor1D width offset orgWidth))
      = Int.tdiv (k * orgWidth) (width - 2 * offset) := by
  have hw' : (orgWidth : ℚ) ≠ 0 := by exact_mod_cast hw
  have hn' : ((width - 2 * offset : Int) : ℚ) ≠ 0 := by exact_mod_cast hn
  have hq : ((width - 2 * offset : Int) : ℚ) / (orgWidth : ℚ) ≠ 0 := div_ne_zero hn' hw'
  have he : (k : ℚ) / (((width - 2 * offset : Int) : ℚ) / (orgWidth : ℚ))
      = ((k * orgWidth : Int) : ℚ) / ((width - 2 * offset : Int) : ℚ) := by
    rw [Int.cast_mul]
    field_simp
  simp only [factor1D, float64.ofInt, float64.div, if_neg hw', if_neg hq, float64.toInt]
  rw [he]
  exact trunc_intCast_div _ _ hn

theorem sample1D_eq (impl : IntConv) (width offset orgWidth x y : Int)
    (hw : orgWidth ≠ 0) (hn : width - 2 * offset ≠ 0) :
    sample1D impl offset (factor1D width offset orgWidth) orgWidth x y
      = if x < offset then Sample.white
        else if Int.tdiv ((x - offset) * orgWidth) (width - 2 * offset) ≥ orgWidth
        then Sample.white
        else Sample.source (Int.tdiv ((x - offset) * orgWidth) (width - 2 * offset)) 0 := by
  simp only [sample1D, toInt_div_factor1D impl _ _ _ _ hw hn]

theorem factor1D_le_zero (width offset orgWidth : Int) (hw : 0 < orgWidth) :
    float64.le (factor1D width offset orgWidth) (float64.ofInt 0)
      = decide (width - 2 * offset ≤ 0) := by
  have hw' : (0 : ℚ) < (orgWidth : ℚ) := by exact_mod_cast hw
  simp only [factor1D, float64.ofInt, float64.div, if_neg hw'.ne', float64.le]
  have : ((width - 2 * offset : Int) : ℚ) / (orgWidth : ℚ) ≤ ((0 : Int) : ℚ)
      ↔ width - 2 * offset ≤ 0 := by
    rw [Int.cast_zero, div_le_iff₀ hw', zero_mul]
    exact_mod_cast Iff.rfl
  simp only [this]

/-! ## C4: `scale1DCode` and shrinking -/

/-- C4 (the code at the failing input): `scale1DCode` of a 1D symbol of width 10
to width 5 with offset 0 does not fail, although `5 - 2 * 0 < 10`: the factor
is 1/2, and the column `x` of the result shows the source column `2 * x`, so
the odd source columns are lost. -/
theorem scale1DCode_accepts_shrinking :
    5 - 2 * 0 < (checker 1 10 1).Bounds.Max.X - (checker 1 10 1).Bounds.Min.X
    ∧ factor1D 5 0 10 = float64.fin (1 / 2)
    ∧ ∃ r, scale1DCode IntConv.amd64 (checker 1 10 1) 5 1 0 = Except.ok r
        ∧ r.At 0 0 = (checker 1 10 1).At 0 0
        ∧ r.At 1 0 = (checker 1 10 1).At 2 0
        ∧ r.At 4 0 = (checker 1 10 1).At 8 0 := by
  have hf : factor1D 5 0 10 = float64.fin (1 / 2) := by
    simp [factor1D, float64.ofInt, float64.div]
    norm_num
  have hten : (checker 1 10 1).Bounds.Max.X - (checker 1 10 1).Bounds.Min.X = 10 := by decide
  have h2 : float64.le (factor1D 5 0
      ((checker 1 10 1).Bounds.Max.X - (checker 1 10 1).Bounds.Min.X)) (float64.ofInt 0)
      = false := by
    rw [hten, factor1D_le_zero _ _ _ (by decide)]
    decide
  refine ⟨by decide, hf, ?_⟩
  rw [scale1DCode_of_not_le _ _ _ _ _ h2]
  refine ⟨_, rfl, ?_, ?_, ?_⟩ <;>
  · rw [newScaledBC_At, hten]
    simp only [sample1D_eq IntConv.amd64 5 0 10 _ _ (by decide) (by decide)]
    decide

/-! ## The sampling of `scale2DCode` -/

theorem scale2DCode_ok_At (impl : IntConv) (bc : Barcode) (width height offset : Int)
    (r : Barcode) (h : scale2DCode impl bc width height offset = Except.ok r) (x y : Int) :
    r.At x y = (sample2D offset
        (factor2D impl width height offset (bc.Bounds.Max.X - bc.Bounds.Min.X)
          (bc.Bounds.Max.Y - bc.Bounds.Min.Y))
        (bc.Bounds.Max.X - bc.Bounds.Min.X) (bc.Bounds.Max.Y - bc.Bounds.Min.Y) x y).color bc := by
  rw [(scale2DCode_ok impl bc width height offset r h).2, newScaledBC_At]

theorem sample2D_border (offset factor orgWidth orgHeight x y : Int)
    (h : x < offset ∨ y < offset) :
    sample2D offset factor orgWidth orgHeight x y = Sample.white := by
  simp only [sample2D]
  rw [if_pos h]

theorem sample2D_inside (offset factor orgWidth orgHeight x y : Int)
    (hx : offset ≤ x) (hy : offset ≤ y)
    (hsx : Int.tdiv (x - offset) factor < orgWidth)
    (hsy : Int.tdiv (y - offset) factor < orgHeight) :
    sample2D offset factor orgWidth orgHeight x y
      = Sample.source (Int.tdiv (x - offset) factor) (Int.tdiv (y - offset) factor) := by
  simp only [sample2D]
  rw [if_neg (by omega), if_neg (by omega)]

theorem sample2D_overflow (offset factor orgWidth orgHeight x y : Int)
    (h : orgWidth ≤ Int.tdiv (x - offset) factor ∨ orgHeight ≤ Int.tdiv (y - offset) factor) :
    sample2D offset factor orgWidth orgHeight x y = Sample.white := by
  simp only [sample2D]
  by_cases hb : x < offset ∨ y < offset
  · rw [if_pos hb]
  · rw [if_neg hb, if_pos h]

theorem tdiv_block (s f d : Int) (hf : 0 < f) (hs : 0 ≤ s) (hd0 : 0 ≤ d) (hd : d < f) :
    Int.tdiv (s * f + d) f = s := by
  have hnn : 0 ≤ s * f + d := by positivity
  rw [Int.tdiv_eq_ediv hnn hf.le]
  rw [Int.add_comm, Int.add_mul_ediv_right _ _ hf.ne', Int.ediv_eq_zero_of_lt hd0 hd]
  simp

theorem factor2D_checker_Bounds (impl : IntConv) :
    factor2D impl 44 44 2
      ((checker 2 10 10).Bounds.Max.X - (checker 2 10 10).Bounds.Min.X)
      ((checker 2 10 10).Bounds.Max.Y - (checker 2 10 10).Bounds.Min.Y) = 4 :=
  factor2D_checker impl

theorem scale2DCode_checker_44 (impl : IntConv) :
    scale2DCode impl (checker 2 10 10) 44 44 2 = Except.ok scaled44 := by
  rw [scale2DCode_of_pos impl _ _ _ _ (by rw [factor2D_checker_Bounds]; decide),
    factor2D_checker_Bounds]
  rfl

/-! ## C5: module replication (2D) -/

/-- C5 (counterexample): for the 10x10 checker scaled into 44x44 with offset 2
(factor 4), the pixel (1,1) has the quotients `(1 - 2) / 4 = 0` of Go's
truncating division, and `(0,0)` is a source pixel, yet `At(1,1)` is white
while the source's `At(0,0)` is black. -/
theorem replication_fails_left_of_symbol :
    ∃ r, Scale IntConv.amd64 (checker 2 10 10) 44 44 2 = Except.ok r
      ∧ factor2D IntConv.amd64 44 44 2 10 10 = 4
      ∧ Int.tdiv (1 - 2) 4 = 0
      ∧ r.At 1 1 = color.White
      ∧ (checker 2 10 10).At 0 0 = color.Black
      ∧ r.At 1 1 ≠ (checker 2 10 10).At 0 0 := by
  refine ⟨scaled44, Scale_checker_44 _, factor2D_checker _, by decide, ?_, by decide, ?_⟩
  · simp only [scaled44, newScaledBC_At]
    decide
  · simp only [scaled44, newScaledBC_At]
    decide

/-- C5 (amended): for every successful 2D scale with factor `f`, and every
source pixel `(sx, sy)` with `0 ≤ sx < orgWidth`, `0 ≤ sy < orgHeight`, every
destination pixel `(x, y)` with `offset ≤ x`, `offset ≤ y` whose quotients are
`(x - offset) / f = sx` and `(y - offset) / f = sy` returns `source.At(sx, sy)`;
in particular each of the `f * f` pixels
`(offset + sx * f + dx, offset + sy * f + dy)` with `0 ≤ dx, dy < f` does. -/
theorem scale2DCode_replicates (impl : IntConv) (bc : Barcode) (width height offset : Int)
    (r : Barcode) (h : scale2DCode impl bc width height offset = Except.ok r)
    (sx sy : Int)
    (hsx0 : 0 ≤ sx) (hsx : sx < bc.Bounds.Max.X - bc.Bounds.Min.X)
    (hsy0 : 0 ≤ sy) (hsy : sy < bc.Bounds.Max.Y - bc.Bounds.Min.Y) :
    (∀ x y : Int, offset ≤ x → offset ≤ y →
      Int.tdiv (x - offset)
        (factor2D impl width height offset (bc.Bounds.Max.X - bc.Bounds.Min.X)
          (bc.Bounds.Max.Y - bc.Bounds.Min.Y)) = sx →
      Int.tdiv (y - offset)
        (factor2D impl width height offset (bc.Bounds.Max.X - bc.Bounds.Min.X)
          (bc.Bounds.Max.Y - bc.Bounds.Min.Y)) = sy →
      r.At x y = bc.At sx sy)
    ∧ (∀ dx dy : Int,
      0 ≤ dx → dx < factor2D impl width height offset (bc.Bounds.Max.X - bc.Bounds.Min.X)
          (bc.Bounds.Max.Y - bc.Bounds.Min.Y) →
      0 ≤ dy → dy < factor2D impl width height offset (bc.Bounds.Max.X - bc.Bounds.Min.X)
          (bc.Bounds.Max.Y - bc.Bounds.Min.Y) →
      r.At
        (offset + sx * factor2D impl width height offset (bc.Bounds.Max.X - bc.Bounds.Min.X)
          (bc.Bounds.Max.Y - bc.Bounds.Min.Y) + dx)
        (offset + sy * factor2D impl width height offset (bc.Bounds.Max.X - bc.Bounds.Min.X)
          (bc.Bounds.Max.Y - bc.Bounds.Min.Y) + dy)
        = bc.At sx sy) := by
  have hf := (scale2DCode_ok impl bc width height offset r h).1
  have hAt := scale2DCode_ok_At impl bc width height offset r h
  generalize factor2D impl width height offset (bc.Bounds.Max.X - bc.Bounds.Min.X)
          (bc.Bounds.Max.Y - bc.Bounds.Min.Y) = f at hf hAt ⊢
  have main : ∀ x y : Int, offset ≤ x → offset ≤ y →
      Int.tdiv (x - offset) f = sx → Int.tdiv (y - offset) f = sy →
      r.At x y = bc.At sx sy := by
    intro x y hx hy hqx hqy
    rw [hAt, sample2D_inside _ _ _ _ _ _ hx hy (by omega) (by omega), hqx, hqy]
    rfl
  refine ⟨main, ?_⟩
  intro dx dy hdx0 hdx hdy0 hdy
  have hx0 : 0 ≤ sx * f := mul_nonneg hsx0 hf.le
  have hy0 : 0 ≤ sy * f := mul_nonneg hsy0 hf.le
  apply main
  · omega
  · omega
  · have : offset + sx * f + dx - offset = sx * f + dx := by ring
    rw [this, tdiv_block _ _ _ hf hsx0 hdx0 hdx]
  · have : offset + sy * f + dy - offset = sy * f + dy := by ring
    rw [this, tdiv_block _ _ _ hf hsy0 hdy0 hdy]

/-- C5 (witness): 10x10 source, `Scale(symbol, 44, 44, 2)`: `At(3,3)` is the
source's `At(0,0)` and `At(41,41)` is the source's `At(9,9)`. -/
theorem scale2DCode_replicates_witness :
    scaled44.At 3 3 = (checker 2 10 10).At 0 0
    ∧ scaled44.At 41 41 = (checker 2 10 10).At 9 9 :=
  ⟨(scale2DCode_replicates IntConv.amd64 (checker 2 10 10) 44 44 2 scaled44
      (scale2DCode_checker_44 _) 0 0
      (by decide) (by decide) (by decide) (by decide)).1 3 3 (by decide) (by decide)
      (by rw [factor2D_checker_Bounds]; decide) (by rw [factor2D_checker_Bounds]; decide),
   (scale2DCode_replicates IntConv.amd64 (checker 2 10 10) 44 44 2 scaled44
      (scale2DCode_checker_44 _) 9 9
      (by decide) (by decide) (by decide) (by decide)).1 41 41 (by decide) (by decide)
      (by rw [factor2D_checker_Bounds]; decide) (by rw [factor2D_checker_Bounds]; decide)⟩
/-! ## C6: the pixel (2,2) of the concrete scenario -/

/-- C6 (counterexample): for the 10x10 checker, whose pixel (0,0) is black,
`Scale(symbol, 44, 44, 2)` succeeds and `At(2,2)` of the result is black, not
white: `2 < 2` is false, so the pixel is not in the border. -/
theorem At_2_2_not_white :
    ∃ r, Scale IntConv.amd64 (checker 2 10 10) 44 44 2 = Except.ok r
      ∧ r.At 2 2 = color.Black
      ∧ r.At 2 2 ≠ color.White := by
  refine ⟨scaled44, Scale_checker_44 _, ?_, ?_⟩
  · simp only [scaled44, newScaledBC_At]
    decide
  · simp only [scaled44, newScaledBC_At]
    decide

/-- C6 (amended): for every 2D source symbol with bounds (0,0)-(10,10),
`Scale(symbol, 44, 44, 2)` succeeds and the result returns the source's
`At(0,0)` at `At(2,2)`: the border is the pixels with `x < 2` or `y < 2`, and
`At(1,1)` is white whatever the source's colours are. -/
theorem scenario_At_2_2 (impl : IntConv) (bc : Barcode)
    (hd : bc.Metadata.Dimensions = 2)
    (hb : bc.Bounds = { Min := { X := 0, Y := 0 }, Max := { X := 10, Y := 10 } }) :
    ∃ r, Scale impl bc 44 44 2 = Except.ok r
      ∧ r.At 2 2 = bc.At 0 0
      ∧ r.At 1 1 = color.White
      ∧ ∀ x y : Int, (x < 2 ∨ y < 2) → r.At x y = color.White := by
  have hf : factor2D impl 44 44 2 (bc.Bounds.Max.X - bc.Bounds.Min.X)
      (bc.Bounds.Max.Y - bc.Bounds.Min.Y) = 4 := by
    rw [hb]
    exact factor2D_checker impl
  have h2 : Scale impl bc 44 44 2 = scale2DCode impl bc 44 44 2 := by
    simp only [Scale]
    rw [if_neg (by omega), if_pos hd]
  have hok := scale2DCode_of_pos impl bc 44 44 2 (by rw [hf]; decide)
  rw [h2]
  refine ⟨_, hok, ?_, ?_, ?_⟩
  · rw [scale2DCode_ok_At impl bc 44 44 2 _ hok, hf, hb]
    rfl
  · rw [scale2DCode_ok_At impl bc 44 44 2 _ hok, hf, hb]
    rfl
  · intro x y hxy
    rw [scale2DCode_ok_At impl bc 44 44 2 _ hok, sample2D_border _ _ _ _ _ _ hxy]
    rfl

/-- C6 (witness): the 10x10 checker is a 2D symbol with bounds (0,0)-(10,10). -/
theorem scenario_At_2_2_witness :
    ∃ r, Scale IntConv.amd64 (checker 2 10 10) 44 44 2 = Except.ok r
      ∧ r.At 2 2 = (checker 2 10 10).At 0 0
      ∧ r.At 1 1 = color.White
      ∧ ∀ x y : Int, (x < 2 ∨ y < 2) → r.At x y = color.White :=
  scenario_At_2_2 IntConv.amd64 (checker 2 10 10) (by decide) (by decide)

/-! ## C7: border painting (2D) -/

/-- C7: for every successful 2D scale and every pixel `(x, y)` with
`x < offset` or `y < offset` (negative coordinates included), `At(x, y)` is
white whatever the source is, and the closure returns `color.White` without
calling the source's `At`. -/
theorem scale2DCode_border_white (impl : IntConv) (bc : Barcode)
    (width height offset : Int) (r : Barcode)
    (h : scale2DCode impl bc width height offset = Except.ok r)
    (x y : Int) (hxy : x < offset ∨ y < offset) :
    r.At x y = color.White
    ∧ sample2D offset
        (factor2D impl width height offset (bc.Bounds.Max.X - bc.Bounds.Min.X)
          (bc.Bounds.Max.Y - bc.Bounds.Min.Y))
        (bc.Bounds.Max.X - bc.Bounds.Min.X) (bc.Bounds.Max.Y - bc.Bounds.Min.Y) x y
      = Sample.white := by
  have hs := sample2D_border offset
    (factor2D impl width height offset (bc.Bounds.Max.X - bc.Bounds.Min.X)
      (bc.Bounds.Max.Y - bc.Bounds.Min.Y))
    (bc.Bounds.Max.X - bc.Bounds.Min.X) (bc.Bounds.Max.Y - bc.Bounds.Min.Y) x y hxy
  refine ⟨?_, hs⟩
  rw [scale2DCode_ok_At impl bc width height offset r h, hs]
  rfl

/-- C7 (witness): in the 10x10 checker scaled into 44x44 with offset 2, the
pixels (1,30) and (-7,-7) are white. -/
theorem scale2DCode_border_white_witness :
    scaled44.At 1 30 = color.White ∧ scaled44.At (-7) (-7) = color.White :=
  ⟨(scale2DCode_border_white IntConv.amd64 (checker 2 10 10) 44 44 2 scaled44
      (scale2DCode_checker_44 _) 1 30 (Or.inl (by decide))).1,
   (scale2DCode_border_white IntConv.amd64 (checker 2 10 10) 44 44 2 scaled44
      (scale2DCode_checker_44 _) (-7) (-7) (Or.inl (by decide))).1⟩

/-! ## C8: which source pixels are read -/

theorem toInt_fin_nonneg (impl : IntConv) (q : ℚ) (hq : 0 ≤ q) :
    0 ≤ float64.toInt impl (float64.fin q) := by
  simp only [float64.toInt]
  exact Int.tdiv_nonneg (Rat.num_nonneg.2 hq) (by exact_mod_cast (Nat.zero_le _))

theorem toInt_div_nonneg (impl : IntConv) (k : Int) (hk : 0 ≤ k) (factor : float64)
    (hle : float64.le factor (float64.ofInt 0) = false) (hnan : factor ≠ float64.nan) :
    0 ≤ float64.toInt impl (float64.div (float64.ofInt k) factor) := by
  have hk' : (0 : ℚ) ≤ (k : ℚ) := by exact_mod_cast hk
  cases factor with
  | nan => exact absurd rfl hnan
  | negInf => simp [float64.le, float64.ofInt] at hle
  | posInf =>
    simp only [float64.ofInt, float64.div]
    exact toInt_fin_nonneg impl 0 le_rfl
  | fin q =>
    have hq : 0 < q := by
      simpa [float64.le, float64.ofInt] using hle
    simp only [float64.ofInt, float64.div, if_neg hq.ne']
    exact toInt_fin_nonneg impl _ (div_nonneg hk' hq.le)

/-- The closure of `scale2DCode`, with a positive factor, returns white or
reads a source pixel of `[0, orgWidth) x [0, orgHeight)`. -/
theorem sample2D_in_range (offset factor orgWidth orgHeight x y : Int) (hf : 0 < factor) :
    sample2D offset factor orgWidth orgHeight x y = Sample.white
    ∨ ∃ sx sy, 0 ≤ sx ∧ sx < orgWidth ∧ 0 ≤ sy ∧ sy < orgHeight
        ∧ sample2D offset factor orgWidth orgHeight x y = Sample.source sx sy := by
  by_cases hb : x < offset ∨ y < offset
  · exact Or.inl (sample2D_border _ _ _ _ _ _ hb)
  · by_cases ho : orgWidth ≤ Int.tdiv (x - offset) factor
        ∨ orgHeight ≤ Int.tdiv (y - offset) factor
    · exact Or.inl (sample2D_overflow _ _ _ _ _ _ ho)
    · refine Or.inr ⟨Int.tdiv (x - offset) factor, Int.tdiv (y - offset) factor,
        Int.tdiv_nonneg (by omega) hf.le, by omega, Int.tdiv_nonneg (by omega) hf.le, by omega,
        sample2D_inside _ _ _ _ _ _ (by omega) (by omega) (by omega) (by omega)⟩

/-- The closure of `scale1DCode`, with a factor that is not `NaN`, returns white
or reads a source pixel `(sx, 0)` with `sx` in `[0, orgWidth)`. -/
theorem sample1D_in_range (impl : IntConv) (offset : Int) (factor : float64)
    (orgWidth x y : Int)
    (hle : float64.le factor (float64.ofInt 0) = false) (hnan : factor ≠ float64.nan) :
    sample1D impl offset factor orgWidth x y = Sample.white
    ∨ ∃ sx, 0 ≤ sx ∧ sx < orgWidth
        ∧ sample1D impl offset factor orgWidth x y = Sample.source sx 0 := by
  simp only [sample1D]
  by_cases hb : x < offset
  · rw [if_pos hb]; exact Or.inl rfl
  · rw [if_neg hb]
    by_cases ho : float64.toInt impl (float64.div (float64.ofInt (x - offset)) factor) ≥ orgWidth
    · rw [if_pos ho]; exact Or.inl rfl
    · rw [if_neg ho]
      exact Or.inr ⟨_, toInt_div_nonneg impl _ (by omega) factor hle hnan, by omega, rfl⟩

/-- C8 (the code at the failing input): a 1D symbol with bounds (0,0)-(0,1) has
`orgWidth = 0`; `Scale(symbol, 0, 1, 0)` computes the factor `0/0 = NaN`,
`NaN <= 0` is false and the call succeeds.  `At(0,0)` of the result converts
`0/NaN = NaN` to an `int`, on amd64 `-9223372036854775808`, which is below
`orgWidth`, and calls the source's `At` there: the colour returned is the
source's black at that address, not white, and no `sx` with `0 ≤ sx < 0` exists. -/
theorem scale1DCode_NaN_reads_outside :
    factor1D 0 0 ((checker 1 0 1).Bounds.Max.X - (checker 1 0 1).Bounds.Min.X) = float64.nan
    ∧ ∃ r, Scale IntConv.amd64 (checker 1 0 1) 0 1 0 = Except.ok r
      ∧ sample1D IntConv.amd64 0 float64.nan 0 0 0
          = Sample.source (-9223372036854775808) 0
      ∧ r.At 0 0 = (checker 1 0 1).At (-9223372036854775808) 0
      ∧ r.At 0 0 = color.Black
      ∧ r.At 0 0 ≠ color.White := by
  have hzero : (checker 1 0 1).Bounds.Max.X - (checker 1 0 1).Bounds.Min.X = 0 := by decide
  have hf : factor1D 0 0 0 = float64.nan := by
    simp [factor1D, float64.ofInt, float64.div]
  have h1 : Scale IntConv.amd64 (checker 1 0 1) 0 1 0
      = scale1DCode IntConv.amd64 (checker 1 0 1) 0 1 0 := by
    simp [Scale, checker]
  have h2 : float64.le (factor1D 0 0
      ((checker 1 0 1).Bounds.Max.X - (checker 1 0 1).Bounds.Min.X)) (float64.ofInt 0)
      = false := by
    rw [hzero, hf]
    rfl
  have hs : sample1D IntConv.amd64 0 float64.nan 0 0 0
      = Sample.source (-9223372036854775808) 0 := by
    simp [sample1D, float64.ofInt, float64.div, float64.toInt, IntConv.amd64]
  refine ⟨by rw [hzero, hf], ?_⟩
  rw [h1, scale1DCode_of_not_le _ _ _ _ _ h2]
  refine ⟨_, rfl, hs, ?_, ?_, ?_⟩
  · rw [newScaledBC_At, hzero, hf, hs]
    rfl
  · rw [newScaledBC_At, hzero, hf, hs]
    decide
  · rw [newScaledBC_At, hzero, hf, hs]
    decide

/-- Whenever `Scale` succeeds and, for a 1D symbol, the factor is not `NaN`,
every pixel of the result is white or a source pixel of
`[0, orgWidth) x [0, orgHeight)` (2D), of `[0, orgWidth) x {0}` (1D). -/
theorem Scale_in_range (impl : IntConv) (bc : Barcode) (width height offset : Int)
    (r : Barcode) (h : Scale impl bc width height offset = Except.ok r)
    (hnan : bc.Metadata.Dimensions = 1 →
      factor1D width offset (bc.Bounds.Max.X - bc.Bounds.Min.X) ≠ float64.nan)
    (x y : Int) :
    r.At x y = color.White
    ∨ ∃ sx sy, 0 ≤ sx ∧ sx < bc.Bounds.Max.X - bc.Bounds.Min.X ∧ 0 ≤ sy
        ∧ (bc.Metadata.Dimensions = 2 → sy < bc.Bounds.Max.Y - bc.Bounds.Min.Y)
        ∧ (bc.Metadata.Dimensions = 1 → sy = 0)
        ∧ r.At x y = bc.At sx sy := by
  simp only [Scale] at h
  split at h
  · rename_i hd
    obtain ⟨hle, hr⟩ := scale1DCode_ok _ _ _ _ _ _ h
    rw [hr, newScaledBC_At]
    rcases sample1D_in_range impl offset _ (bc.Bounds.Max.X - bc.Bounds.Min.X) x y hle (hnan hd)
      with hs | ⟨sx, h0, h1, hs⟩
    · left; simp only [hs]; rfl
    · right
      refine ⟨sx, 0, h0, h1, le_rfl, fun h2 => by omega, fun _ => rfl, ?_⟩
      simp only [hs]; rfl
  · split at h
    · rename_i hd1 hd
      obtain ⟨hf, hr⟩ := scale2DCode_ok _ _ _ _ _ _ h
      rw [hr, newScaledBC_At]
      rcases sample2D_in_range offset _ (bc.Bounds.Max.X - bc.Bounds.Min.X)
        (bc.Bounds.Max.Y - bc.Bounds.Min.Y) x y hf with hs | ⟨sx, sy, h0, h1, h2, h3, hs⟩
      · left; simp only [hs]; rfl
      · right
        refine ⟨sx, sy, h0, h1, h2, fun _ => h3, fun h2 => by omega, ?_⟩
        simp only [hs]; rfl
    · exact absurd h (by simp)
/-! ## C9: column replication (1D) -/

theorem scale1DCode_checker_100 :
    scale1DCode IntConv.amd64 (checker 1 10 1) 100 50 0 = Except.ok scaledBars := by
  have hten : (checker 1 10 1).Bounds.Max.X - (checker 1 10 1).Bounds.Min.X = 10 := by decide
  have h2 : float64.le (factor1D 100 0
      ((checker 1 10 1).Bounds.Max.X - (checker 1 10 1).Bounds.Min.X)) (float64.ofInt 0)
      = false := by
    rw [hten, factor1D_le_zero _ _ _ (by decide)]
    decide
  rw [scale1DCode_of_not_le _ _ _ _ _ h2]
  rfl

/-- C9: for every successful 1D scale, `At(x, y1) = At(x, y2)` for every `x`,
`y1`, `y2`; and the same call with any other height succeeds too and gives the
same colour at every pixel. -/
theorem scale1DCode_column_uniform (impl : IntConv) (bc : Barcode)
    (width height offset : Int) (r : Barcode)
    (h : scale1DCode impl bc width height offset = Except.ok r) :
    (∀ x y1 y2 : Int, r.At x y1 = r.At x y2)
    ∧ (∀ height2 : Int, ∃ r2, scale1DCode impl bc width height2 offset = Except.ok r2
        ∧ ∀ x y y2 : Int, r2.At x y2 = r.At x y) := by
  obtain ⟨hle, hr⟩ := scale1DCode_ok _ _ _ _ _ _ h
  constructor
  · intro x y1 y2
    rw [hr, newScaledBC_At]
    rfl
  · intro height2
    refine ⟨_, scale1DCode_of_not_le impl bc width height2 offset hle, ?_⟩
    intro x y y2
    rw [hr, newScaledBC_At, newScaledBC_At]
    rfl

/-- C9 (witness): the 1D checker of width 10 scaled to 100x50: the pixels
(37,0) and (37,49) have the same colour. -/
theorem scale1DCode_column_uniform_witness :
    scale1DCode IntConv.amd64 (checker 1 10 1) 100 50 0 = Except.ok scaledBars
    ∧ scaledBars.At 37 0 = scaledBars.At 37 49 :=
  ⟨scale1DCode_checker_100,
   (scale1DCode_column_uniform IntConv.amd64 (checker 1 10 1) 100 50 0 scaledBars
      scale1DCode_checker_100).1 37 0 49⟩

/-! ## C10: the extent of the rendered symbol (2D) -/

theorem factor2D_mul_le (impl : IntConv) (width height offset orgWidth orgHeight : Int)
    (hw : 0 < orgWidth) (hh : 0 < orgHeight)
    (hf : 0 < factor2D impl width height offset orgWidth orgHeight) :
    factor2D impl width height offset orgWidth orgHeight * orgWidth ≤ width - 2 * offset
    ∧ factor2D impl width height offset orgWidth orgHeight * orgHeight
        ≤ height - 2 * offset := by
  have hw' : (0 : ℚ) < (orgWidth : ℚ) := by exact_mod_cast hw
  have hh' : (0 : ℚ) < (orgHeight : ℚ) := by exact_mod_cast hh
  obtain ⟨ha, hb⟩ := (factor2D_pos_iff impl width height offset _ _ hw hh).1 hf
  rw [factor2D_eq impl _ _ _ _ _ hw.ne' hh.ne'] at hf ⊢
  generalize width - 2 * offset = a at *
  generalize height - 2 * offset = b at *
  have hcmp := quotient_lt_iff a b orgWidth orgHeight hw hh
  have h1 : Int.tdiv a orgWidth * orgWidth ≤ a := by
    rw [Int.tdiv_eq_ediv (by omega) hw.le]
    exact Int.ediv_mul_le a hw.ne'
  have h2 : Int.tdiv b orgHeight * orgHeight ≤ b := by
    rw [Int.tdiv_eq_ediv (by omega) hh.le]
    exact Int.ediv_mul_le b hh.ne'
  by_cases hc : (a : ℚ) / (orgWidth : ℚ) < (b : ℚ) / (orgHeight : ℚ)
  · rw [if_pos hc] at hf ⊢
    have hc' := hcmp.1 hc
    refine ⟨h1, ?_⟩
    by_contra hlt
    push_neg at hlt
    nlinarith
  · rw [if_neg hc] at hf ⊢
    have hc' : ¬ a * orgHeight < b * orgWidth := fun h => hc (hcmp.2 h)
    push_neg at hc'
    refine ⟨?_, h2⟩
    by_contra hlt
    push_neg at hlt
    nlinarith

theorem tdiv_lt_iff (k f n : Int) (hk : 0 ≤ k) (hf : 0 < f) :
    Int.tdiv k f < n ↔ k < n * f := by
  rw [Int.tdiv_eq_ediv hk hf.le]
  exact Int.ediv_lt_iff_lt_mul hf

/-- C10 (counterexample): for the 10x10 checker, `Scale(symbol, 45, 45, 2)`
succeeds with factor 4, so the symbol ends at column and row 41; the pixel
`(45 - 2 - 1, 45 - 2 - 1) = (42, 42)` is white while the source's `At(9,9)`
is black: the right and bottom margins are 3 pixels wide, not 2. -/
theorem border_not_symmetric :
    ∃ r, Scale IntConv.amd64 (checker 2 10 10) 45 45 2 = Except.ok r
      ∧ factor2D IntConv.amd64 45 45 2 10 10 = 4
      ∧ r.At (45 - 2 - 1) (45 - 2 - 1) = color.White
      ∧ (checker 2 10 10).At (10 - 1) (10 - 1) = color.Black
      ∧ r.At (45 - 2 - 1) (45 - 2 - 1) ≠ (checker 2 10 10).At (10 - 1) (10 - 1) := by
  have hf : factor2D IntConv.amd64 45 45 2 10 10 = 4 := by
    rw [factor2D_eq _ _ _ _ _ _ (by decide) (by decide)]
    norm_num
    decide
  have hf' : factor2D IntConv.amd64 45 45 2
      ((checker 2 10 10).Bounds.Max.X - (checker 2 10 10).Bounds.Min.X)
      ((checker 2 10 10).Bounds.Max.Y - (checker 2 10 10).Bounds.Min.Y) = 4 := hf
  have h2 : Scale IntConv.amd64 (checker 2 10 10) 45 45 2
      = scale2DCode IntConv.amd64 (checker 2 10 10) 45 45 2 := by
    simp [Scale, checker]
  have hok := scale2DCode_of_pos IntConv.amd64 (checker 2 10 10) 45 45 2 (by rw [hf']; decide)
  rw [h2]
  refine ⟨_, hok, hf, ?_, by decide, ?_⟩
  · rw [scale2DCode_ok_At _ _ _ _ _ _ hok, hf']
    decide
  · rw [scale2DCode_ok_At _ _ _ _ _ _ hok, hf']
    decide

/-- C10 (amended): for every successful 2D scale of a source of extent
`orgWidth > 0` by `orgHeight > 0`, with factor `f`, the rendered symbol occupies
exactly the columns `offset ≤ x < offset + f * orgWidth` and the rows
`offset ≤ y < offset + f * orgHeight`; the white border is exactly `offset`
pixels wide at the left and at the top, and at least `offset` pixels wide at
the right and at the bottom (`offset + f * orgWidth ≤ width - offset`, and the
same for the rows).  `At(offset, offset)` is the source's `At(0,0)` and
`At(offset + f * orgWidth - 1, offset + f * orgHeight - 1)` is the source's
`At(orgWidth - 1, orgHeight - 1)`; the latter pixel is
`(width - offset - 1, height - offset - 1)` when `f * orgWidth` and
`f * orgHeight` are exactly `width - 2 * offset` and `height - 2 * offset`. -/
theorem scale2DCode_symbol_extent (impl : IntConv) (bc : Barcode)
    (width height offset : Int) (r : Barcode)
    (h : scale2DCode impl bc width height offset = Except.ok r)
    (hw : 0 < bc.Bounds.Max.X - bc.Bounds.Min.X)
    (hh : 0 < bc.Bounds.Max.Y - bc.Bounds.Min.Y)
    (f : Int)
    (hf : f = factor2D impl width height offset (bc.Bounds.Max.X - bc.Bounds.Min.X)
          (bc.Bounds.Max.Y - bc.Bounds.Min.Y)) :
    (∀ x y : Int,
      sample2D offset f (bc.Bounds.Max.X - bc.Bounds.Min.X)
          (bc.Bounds.Max.Y - bc.Bounds.Min.Y) x y ≠ Sample.white
        ↔ (offset ≤ x ∧ x < offset + f * (bc.Bounds.Max.X - bc.Bounds.Min.X)
            ∧ offset ≤ y ∧ y < offset + f * (bc.Bounds.Max.Y - bc.Bounds.Min.Y)))
    ∧ (∀ x y : Int,
        ¬ (offset ≤ x ∧ x < offset + f * (bc.Bounds.Max.X - bc.Bounds.Min.X)
            ∧ offset ≤ y ∧ y < offset + f * (bc.Bounds.Max.Y - bc.Bounds.Min.Y))
        → r.At x y = color.White)
    ∧ offset + f * (bc.Bounds.Max.X - bc.Bounds.Min.X) ≤ width - offset
    ∧ offset + f * (bc.Bounds.Max.Y - bc.Bounds.Min.Y) ≤ height - offset
    ∧ r.At offset offset = bc.At 0 0
    ∧ r.At (offset + f * (bc.Bounds.Max.X - bc.Bounds.Min.X) - 1)
          (offset + f * (bc.Bounds.Max.Y - bc.Bounds.Min.Y) - 1)
        = bc.At (bc.Bounds.Max.X - bc.Bounds.Min.X - 1) (bc.Bounds.Max.Y - bc.Bounds.Min.Y - 1)
    ∧ (f * (bc.Bounds.Max.X - bc.Bounds.Min.X) = width - 2 * offset →
        f * (bc.Bounds.Max.Y - bc.Bounds.Min.Y) = height - 2 * offset →
        r.At (width - offset - 1) (height - offset - 1)
          = bc.At (bc.Bounds.Max.X - bc.Bounds.Min.X - 1)
              (bc.Bounds.Max.Y - bc.Bounds.Min.Y - 1)) := by
  have hpos := (scale2DCode_ok impl bc width height offset r h).1
  have hAt := scale2DCode_ok_At impl bc width height offset r h
  have hle := factor2D_mul_le impl width height offset _ _ hw hh hpos
  rw [← hf] at hpos hAt hle
  generalize bc.Bounds.Max.X - bc.Bounds.Min.X = ow at *
  generalize bc.Bounds.Max.Y - bc.Bounds.Min.Y = oh at *
  have hocc : ∀ x y : Int,
      sample2D offset f ow oh x y ≠ Sample.white
        ↔ (offset ≤ x ∧ x < offset + f * ow ∧ offset ≤ y ∧ y < offset + f * oh) := by
    intro x y
    constructor
    · intro hne
      have hx : offset ≤ x := by
        by_contra hc
        exact hne (sample2D_border _ _ _ _ _ _ (Or.inl (by omega)))
      have hy : offset ≤ y := by
        by_contra hc
        exact hne (sample2D_border _ _ _ _ _ _ (Or.inr (by omega)))
      have hsx : Int.tdiv (x - offset) f < ow := by
        by_contra hc
        exact hne (sample2D_overflow _ _ _ _ _ _ (Or.inl (by omega)))
      have hsy : Int.tdiv (y - offset) f < oh := by
        by_contra hc
        exact hne (sample2D_overflow _ _ _ _ _ _ (Or.inr (by omega)))
      rw [tdiv_lt_iff _ _ _ (by omega) hpos] at hsx hsy
      refine ⟨hx, ?_, hy, ?_⟩
      · nlinarith
      · nlinarith
    · rintro ⟨hx, hx2, hy, hy2⟩
      have hsx : Int.tdiv (x - offset) f < ow := by
        rw [tdiv_lt_iff _ _ _ (by omega) hpos]; nlinarith
      have hsy : Int.tdiv (y - offset) f < oh := by
        rw [tdiv_lt_iff _ _ _ (by omega) hpos]; nlinarith
      rw [sample2D_inside _ _ _ _ _ _ hx hy hsx hsy]
      simp
  have hcorner : r.At (offset + f * ow - 1) (offset + f * oh - 1)
      = bc.At (ow - 1) (oh - 1) := by
    have e1 : offset + f * ow - 1 - offset = (ow - 1) * f + (f - 1) := by ring
    have e2 : offset + f * oh - 1 - offset = (oh - 1) * f + (f - 1) := by ring
    have q1 : Int.tdiv (offset + f * ow - 1 - offset) f = ow - 1 := by
      rw [e1, tdiv_block _ _ _ hpos (by omega) (by omega) (by omega)]
    have q2 : Int.tdiv (offset + f * oh - 1 - offset) f = oh - 1 := by
      rw [e2, tdiv_block _ _ _ hpos (by omega) (by omega) (by omega)]
    have p1 : 0 < f * ow := mul_pos hpos hw
    have p2 : 0 < f * oh := mul_pos hpos hh
    rw [hAt, sample2D_inside _ _ _ _ _ _ (by omega) (by omega) (by omega) (by omega), q1, q2]
    rfl
  refine ⟨hocc, ?_, ?_, ?_, ?_, hcorner, ?_⟩
  · intro x y hout
    have : sample2D offset f ow oh x y = Sample.white := by
      by_contra hne
      exact hout ((hocc x y).1 hne)
    rw [hAt, this]
    rfl
  · linarith [hle.1]
  · linarith [hle.2]
  · have q0 : Int.tdiv (offset - offset) f = 0 := by simp
    rw [hAt, sample2D_inside _ _ _ _ _ _ le_rfl le_rfl (by omega) (by omega), q0]
    rfl
  · intro e1 e2
    have x1 : width - offset - 1 = offset + f * ow - 1 := by omega
    have y1 : height - offset - 1 = offset + f * oh - 1 := by omega
    rw [x1, y1]
    exact hcorner

/-- C10 (witness): the 10x10 checker scaled into 44x44 with offset 2 (factor 4,
an exact fit): `At(2,2)` is the source's `At(0,0)` and `At(41,41)` is the
source's `At(9,9)`. -/
theorem scale2DCode_symbol_extent_witness :
    scaled44.At 2 2 = (checker 2 10 10).At 0 0
    ∧ scaled44.At (44 - 2 - 1) (44 - 2 - 1) = (checker 2 10 10).At (10 - 0 - 1) (10 - 0 - 1) :=
  ⟨(scale2DCode_symbol_extent IntConv.amd64 (checker 2 10 10) 44 44 2 scaled44
      (scale2DCode_checker_44 _) (by decide) (by decide) 4
      (factor2D_checker_Bounds _).symm).2.2.2.2.1,
   (scale2DCode_symbol_extent IntConv.amd64 (checker 2 10 10) 44 44 2 scaled44
      (scale2DCode_checker_44 _) (by decide) (by decide) 4
      (factor2D_checker_Bounds _).symm).2.2.2.2.2.2 (by decide) (by decide)⟩

/-! ## The methods the wrapper forwards -/

theorem newScaledBC_Content (wrapped : Barcode) (f : wrapFunc) (rect : image.Rectangle) :
    (newScaledBC wrapped f rect).Content = wrapped.Content := by
  unfold newScaledBC
  split <;> rfl

theorem newScaledBC_Metadata (wrapped : Barcode) (f : wrapFunc) (rect : image.Rectangle) :
    (newScaledBC wrapped f rect).Metadata = wrapped.Metadata := by
  unfold newScaledBC
  split <;> rfl

theorem newScaledBC_ColorModel (wrapped : Barcode) (f : wrapFunc) (rect : image.Rectangle) :
    (newScaledBC wrapped f rect).ColorModel = wrapped.ColorModel := by
  unfold newScaledBC
  split <;> rfl

theorem newScaledBC_CheckSum (wrapped : Barcode) (f : wrapFunc) (rect : image.Rectangle) :
    (newScaledBC wrapped f rect).CheckSum = wrapped.CheckSum := by
  unfold newScaledBC
  split
  · rename_i k hk
    simp only [intCSscaledBC.toBarcode, intCSscaledBC.CheckSum, hk]
  · rename_i hk
    simp only [scaledBarcode.toBarcode, hk]

/-- A symbol that `Scale` returns is `newScaledBC` of the source, of some
closure and of some rectangle. -/
theorem Scale_ok_wrapper (impl : IntConv) (bc : Barcode) (width height offset : Int)
    (r : Barcode) (h : Scale impl bc width height offset = Except.ok r) :
    ∃ (f : wrapFunc) (rect : image.Rectangle), r = newScaledBC bc f rect := by
  simp only [Scale] at h
  split at h
  · exact ⟨_, _, (scale1DCode_ok _ _ _ _ _ _ h).2⟩
  · split at h
    · exact ⟨_, _, (scale2DCode_ok _ _ _ _ _ _ h).2⟩
    · exact absurd h (by simp)

theorem Scale_checkerCS_44 (impl : IntConv) (k : Int) :
    Scale impl (checkerCS k) 44 44 2
      = Except.ok (newScaledBC (checkerCS k)
          (fun x y => (sample2D 2 4 10 10 x y).color (checkerCS k))
          (image.Rect 0 0 44 44)) := by
  have hf : factor2D impl 44 44 2
      ((checkerCS k).Bounds.Max.X - (checkerCS k).Bounds.Min.X)
      ((checkerCS k).Bounds.Max.Y - (checkerCS k).Bounds.Min.Y) = 4 :=
    factor2D_checker impl
  have h2 : Scale impl (checkerCS k) 44 44 2 = scale2DCode impl (checkerCS k) 44 44 2 := by
    simp [Scale, checkerCS, checker]
  rw [h2, scale2DCode_of_pos impl _ _ _ _ (by rw [hf]; decide), hf]
  rfl

/-! ## C11: delegation -/

/-- C11: for every successful `Scale`, the result's `Content()`, `Metadata()`
and `ColorModel()` are those of the source symbol; in particular the result has
the source's `Dimensions`, so `Scale` of the result goes to the same variant
as `Scale` of the source. -/
theorem Scale_delegates (impl : IntConv) (bc : Barcode) (width height offset : Int)
    (r : Barcode) (h : Scale impl bc width height offset = Except.ok r) :
    r.Content = bc.Content
    ∧ r.Metadata = bc.Metadata
    ∧ r.ColorModel = bc.ColorModel
    ∧ r.Metadata.Dimensions = bc.Metadata.Dimensions
    ∧ (∀ w2 h2 o2 : Int,
        (bc.Metadata.Dimensions = 1 →
          Scale impl r w2 h2 o2 = scale1DCode impl r w2 h2 o2)
        ∧ (bc.Metadata.Dimensions = 2 →
          Scale impl r w2 h2 o2 = scale2DCode impl r w2 h2 o2)) := by
  obtain ⟨f, rect, hr⟩ := Scale_ok_wrapper impl bc width height offset r h
  have hm : r.Metadata = bc.Metadata := by rw [hr, newScaledBC_Metadata]
  refine ⟨by rw [hr, newScaledBC_Content], hm, by rw [hr, newScaledBC_ColorModel],
    by rw [hm], ?_⟩
  intro w2 h2 o2
  constructor
  · intro hd
    simp only [Scale]
    rw [if_pos (by rw [hm]; exact hd)]
  · intro hd
    simp only [Scale]
    rw [if_neg (by rw [hm]; omega), if_pos (by rw [hm]; exact hd)]

/-- C11 (witness): the 10x10 checker scaled into 44x44 keeps its content, its
metadata and its colour model. -/
theorem Scale_delegates_witness :
    scaled44.Content = "checker"
    ∧ scaled44.Metadata = { CodeKind := "test", Dimensions := 2 }
    ∧ scaled44.ColorModel = "Gray16" :=
  ⟨(Scale_delegates IntConv.amd64 (checker 2 10 10) 44 44 2 scaled44
      (Scale_checker_44 _)).1,
   (Scale_delegates IntConv.amd64 (checker 2 10 10) 44 44 2 scaled44
      (Scale_checker_44 _)).2.1,
   (Scale_delegates IntConv.amd64 (checker 2 10 10) 44 44 2 scaled44
      (Scale_checker_44 _)).2.2.1⟩

/-! ## C12: checksum passthrough -/

/-- C12: for every source symbol that has the checksum capability with value
`K` and every successful `Scale`, the result has the checksum capability too
and its `CheckSum()` returns `K`. -/
theorem Scale_CheckSum_passthrough (impl : IntConv) (bc : Barcode)
    (width height offset : Int) (r : Barcode) (K : Int)
    (hK : bc.CheckSum = some K)
    (h : Scale impl bc width height offset = Except.ok r) :
    r.CheckSum = some K := by
  obtain ⟨f, rect, hr⟩ := Scale_ok_wrapper impl bc width height offset r h
  rw [hr, newScaledBC_CheckSum, hK]

/-- C12 (witness): the 10x10 checker with checksum 7, scaled into 44x44 with
offset 2, has checksum 7. -/
theorem Scale_CheckSum_passthrough_witness :
    ∃ r, Scale IntConv.amd64 (checkerCS 7) 44 44 2 = Except.ok r ∧ r.CheckSum = some 7 :=
  ⟨_, Scale_checkerCS_44 _ 7,
    Scale_CheckSum_passthrough IntConv.amd64 (checkerCS 7) 44 44 2 _ 7 rfl
      (Scale_checkerCS_44 _ 7)⟩

/-! ## C13: the size the error reports -/

theorem scale2DCode_error (impl : IntConv) (bc : Barcode) (width height offset : Int)
    (e : String) (h : scale2DCode impl bc width height offset = Except.error e) :
    e = tooSmall2D (bc.Bounds.Max.X - bc.Bounds.Min.X) (bc.Bounds.Max.Y - bc.Bounds.Min.Y) := by
  simp only [scale2DCode] at h
  split at h
  · exact (Except.error.inj h).symm
  · exact absurd h (by simp)

theorem scale1DCode_error (impl : IntConv) (bc : Barcode) (width height offset : Int)
    (e : String) (h : scale1DCode impl bc width height offset = Except.error e) :
    e = tooSmall1D (bc.Bounds.Max.X - bc.Bounds.Min.X) := by
  simp only [scale1DCode] at h
  split at h
  · exact (Except.error.inj h).symm
  · exact absurd h (by simp)

/-- C13: whenever `scale2DCode` fails, the message of the error is "can not
scale barcode to an image smaller than WxH" with `W` and `H` the decimal
numerals of `orgWidth = Max.X - Min.X` and `orgHeight = Max.Y - Min.Y` of the
source bounds; whenever `scale1DCode` fails the message ends in "Wx1" with the
numeral of `orgWidth`.  Two failing calls on the same source report the same,
whatever their widths, heights and offsets are. -/
theorem tooSmall_reports_source_extent (impl : IntConv) (bc : Barcode) :
    (∀ (width height offset : Int) (e : String),
      scale2DCode impl bc width height offset = Except.error e →
      e = "can not scale barcode to an image smaller than "
            ++ toString (bc.Bounds.Max.X - bc.Bounds.Min.X) ++ "x"
            ++ toString (bc.Bounds.Max.Y - bc.Bounds.Min.Y))
    ∧ (∀ (width height offset : Int) (e : String),
      scale1DCode impl bc width height offset = Except.error e →
      e = "can not scale barcode to an image smaller than "
            ++ toString (bc.Bounds.Max.X - bc.Bounds.Min.X) ++ "x1")
    ∧ (∀ (w1 h1 o1 w2 h2 o2 : Int) (e1 e2 : String),
      scale2DCode impl bc w1 h1 o1 = Except.error e1 →
      scale2DCode impl bc w2 h2 o2 = Except.error e2 → e1 = e2)
    ∧ (∀ (w1 h1 o1 w2 h2 o2 : Int) (e1 e2 : String),
      scale1DCode impl bc w1 h1 o1 = Except.error e1 →
      scale1DCode impl bc w2 h2 o2 = Except.error e2 → e1 = e2) := by
  refine ⟨?_, ?_, ?_, ?_⟩
  · intro width height offset e h
    rw [scale2DCode_error impl bc width height offset e h]
    rfl
  · intro width height offset e h
    rw [scale1DCode_error impl bc width height offset e h]
    rfl
  · intro w1 h1 o1 w2 h2 o2 e1 e2 he1 he2
    rw [scale2DCode_error impl bc w1 h1 o1 e1 he1, scale2DCode_error impl bc w2 h2 o2 e2 he2]
  · intro w1 h1 o1 w2 h2 o2 e1 e2 he1 he2
    rw [scale1DCode_error impl bc w1 h1 o1 e1 he1, scale1DCode_error impl bc w2 h2 o2 e2 he2]

/-- C13 (witness): the 10x10 checker fails for the box 4x4 with offset 2 and
for the box 9x100 with offset 0, both times naming 10x10; the 1D checker of
width 10 fails for width 0 and names 10x1. -/
theorem tooSmall_reports_source_extent_witness :
    scale2DCode IntConv.amd64 (checker 2 10 10) 4 4 2
      = Except.error "can not scale barcode to an image smaller than 10x10"
    ∧ scale2DCode IntConv.amd64 (checker 2 10 10) 9 100 0
      = Except.error "can not scale barcode to an image smaller than 10x10"
    ∧ scale1DCode IntConv.amd64 (checker 1 10 1) 0 5 0
      = Except.error "can not scale barcode to an image smaller than 10x1" := by
  have h1 : ∃ e, scale2DCode IntConv.amd64 (checker 2 10 10) 4 4 2 = Except.error e :=
    ⟨_, scale2DCode_of_nonpos _ _ _ _ _ (by
      have := (factor2D_pos_iff IntConv.amd64 4 4 2 10 10 (by decide) (by decide)).not.2
        (by decide)
      exact not_lt.1 this)⟩
  have h2 : ∃ e, scale2DCode IntConv.amd64 (checker 2 10 10) 9 100 0 = Except.error e :=
    ⟨_, scale2DCode_of_nonpos _ _ _ _ _ (by
      have := (factor2D_pos_iff IntConv.amd64 9 100 0 10 10 (by decide) (by decide)).not.2
        (by decide)
      exact not_lt.1 this)⟩
  have h3 : ∃ e, scale1DCode IntConv.amd64 (checker 1 10 1) 0 5 0 = Except.error e := by
    refine ⟨tooSmall1D 10, ?_⟩
    have hle : float64.le (factor1D 0 0
        ((checker 1 10 1).Bounds.Max.X - (checker 1 10 1).Bounds.Min.X)) (float64.ofInt 0)
        = true := by
      rw [show (checker 1 10 1).Bounds.Max.X - (checker 1 10 1).Bounds.Min.X = 10 from by decide,
        factor1D_le_zero _ _ _ (by decide)]
      decide
    simp only [scale1DCode]
    rw [if_pos hle]
    rfl
  obtain ⟨e1, he1⟩ := h1
  obtain ⟨e2, he2⟩ := h2
  obtain ⟨e3, he3⟩ := h3
  have t := tooSmall_reports_source_extent IntConv.amd64
  refine ⟨?_, ?_, ?_⟩
  · rw [he1, (t (checker 2 10 10)).1 4 4 2 e1 he1]; rfl
  · rw [he2, (t (checker 2 10 10)).1 9 100 0 e2 he2]; rfl
  · rw [he3, (t (checker 1 10 1)).2.1 0 5 0 e3 he3]; rfl

/-! ## C14: the fallback of `CheckSum` -/

/-- C14: the value `newScaledBC` builds has the checksum capability if and only
if the wrapped source has it, and then its `CheckSum()` is the source's: the
type assertion inside `CheckSum` succeeds and `return 0` is not reached.  So
for every symbol `Scale` returns, a `CheckSum()` it has returns the source's
`CheckSum()`, and a source without the capability gives a result without it. -/
theorem CheckSum_fallback_unreachable :
    (∀ (wrapped : Barcode) (f : wrapFunc) (rect : image.Rectangle),
      ((newScaledBC wrapped f rect).CheckSum.isSome ↔ wrapped.CheckSum.isSome)
      ∧ (∀ v, (newScaledBC wrapped f rect).CheckSum = some v →
          wrapped.CheckSum = some v
          ∧ newScaledBC wrapped f rect
              = (intCSscaledBC.mk
                  { wrapped := wrapped, wrapperFunc := f, rect := rect }).toBarcode
          ∧ (intCSscaledBC.mk
              { wrapped := wrapped, wrapperFunc := f, rect := rect }).toScaled.wrapped.CheckSum
              ≠ none))
    ∧ (∀ (impl : IntConv) (bc : Barcode) (width height offset : Int) (r : Barcode),
      Scale impl bc width height offset = Except.ok r →
      (∀ v, r.CheckSum = some v → bc.CheckSum = some v)
      ∧ (bc.CheckSum = none → r.CheckSum = none)) := by
  constructor
  · intro wrapped f rect
    constructor
    · rw [newScaledBC_CheckSum]
    · intro v hv
      rw [newScaledBC_CheckSum] at hv
      refine ⟨hv, ?_, ?_⟩
      · simp only [newScaledBC, hv]
      · simp only [hv]
        exact fun hc => absurd hc (by simp)
  · intro impl bc width height offset r h
    obtain ⟨f, rect, hr⟩ := Scale_ok_wrapper impl bc width height offset r h
    constructor
    · intro v hv
      rw [hr, newScaledBC_CheckSum] at hv
      exact hv
    · intro hn
      rw [hr, newScaledBC_CheckSum, hn]

/-- C14 (witness): the scaled checker without checksum has none, and a
checksum of the scaled checker with checksum 5 can only be 5. -/
theorem CheckSum_fallback_unreachable_witness :
    scaled44.CheckSum = none
    ∧ ∃ r, Scale IntConv.amd64 (checkerCS 5) 44 44 2 = Except.ok r
        ∧ ∀ v, r.CheckSum = some v → v = 5 :=
  ⟨(CheckSum_fallback_unreachable.2 IntConv.amd64 (checker 2 10 10) 44 44 2 scaled44
      (Scale_checker_44 _)).2 rfl,
   _, Scale_checkerCS_44 _ 5, fun v hv =>
    (Option.some.inj ((CheckSum_fallback_unreachable.2 IntConv.amd64 (checkerCS 5) 44 44 2 _
      (Scale_checkerCS_44 _ 5)).1 v hv)).symm⟩

/-! ## C15: the right and the bottom border (2D) -/

/-- C15: for every successful 2D scale with `orgWidth > 0` and `orgHeight > 0`,
every pixel `(x, y)` with `x ≥ width - offset` or `y ≥ height - offset` is
white; where the explicit test `x < offset || y < offset` does not fire, it is
the overflow test that does (the mapped source coordinate is at least
`orgWidth`, or at least `orgHeight`). -/
theorem scale2DCode_right_bottom_white (impl : IntConv) (bc : Barcode)
    (width height offset : Int) (r : Barcode)
    (h : scale2DCode impl bc width height offset = Except.ok r)
    (hw : 0 < bc.Bounds.Max.X - bc.Bounds.Min.X)
    (hh : 0 < bc.Bounds.Max.Y - bc.Bounds.Min.Y)
    (x y : Int) (hxy : width - offset ≤ x ∨ height - offset ≤ y) :
    r.At x y = color.White
    ∧ (offset ≤ x → offset ≤ y →
        bc.Bounds.Max.X - bc.Bounds.Min.X
            ≤ Int.tdiv (x - offset)
                (factor2D impl width height offset (bc.Bounds.Max.X - bc.Bounds.Min.X)
                  (bc.Bounds.Max.Y - bc.Bounds.Min.Y))
        ∨ bc.Bounds.Max.Y - bc.Bounds.Min.Y
            ≤ Int.tdiv (y - offset)
                (factor2D impl width height offset (bc.Bounds.Max.X - bc.Bounds.Min.X)
                  (bc.Bounds.Max.Y - bc.Bounds.Min.Y))) := by
  have hpos := (scale2DCode_ok impl bc width height offset r h).1
  have hAt := scale2DCode_ok_At impl bc width height offset r h
  have hle := factor2D_mul_le impl width height offset _ _ hw hh hpos
  generalize factor2D impl width height offset (bc.Bounds.Max.X - bc.Bounds.Min.X)
    (bc.Bounds.Max.Y - bc.Bounds.Min.Y) = f at hpos hAt hle ⊢
  generalize bc.Bounds.Max.X - bc.Bounds.Min.X = ow at *
  generalize bc.Bounds.Max.Y - bc.Bounds.Min.Y = oh at *
  have hover : offset ≤ x → offset ≤ y →
      ow ≤ Int.tdiv (x - offset) f ∨ oh ≤ Int.tdiv (y - offset) f := by
    intro hx hy
    rcases hxy with hx2 | hy2
    · left
      by_contra hc
      have := (tdiv_lt_iff (x - offset) f ow (by omega) hpos).1 (by omega)
      nlinarith [hle.1]
    · right
      by_contra hc
      have := (tdiv_lt_iff (y - offset) f oh (by omega) hpos).1 (by omega)
      nlinarith [hle.2]
  refine ⟨?_, hover⟩
  rw [hAt]
  by_cases hb : x < offset ∨ y < offset
  · rw [sample2D_border _ _ _ _ _ _ hb]; rfl
  · rw [sample2D_overflow _ _ _ _ _ _ (hover (by omega) (by omega))]; rfl

/-- C15 (witness): in the 10x10 checker scaled into 44x44 with offset 2, the
pixel (42,3) is white, and so is (5,43). -/
theorem scale2DCode_right_bottom_white_witness :
    scaled44.At 42 3 = color.White ∧ scaled44.At 5 43 = color.White :=
  ⟨(scale2DCode_right_bottom_white IntConv.amd64 (checker 2 10 10) 44 44 2 scaled44
      (scale2DCode_checker_44 _) (by decide) (by decide) 42 3 (Or.inl (by decide))).1,
   (scale2DCode_right_bottom_white IntConv.amd64 (checker 2 10 10) 44 44 2 scaled44
      (scale2DCode_checker_44 _) (by decide) (by decide) 5 43 (Or.inr (by decide))).1⟩

/-! ## Floors and ceilings of quotients -/

theorem floor_intCast_div (n d : Int) (hd : 0 < d) : ⌊(n : ℚ) / (d : ℚ)⌋ = n / d := by
  obtain ⟨m, rfl⟩ := Int.eq_ofNat_of_zero_le hd.le
  have := Rat.floor_intCast_div_natCast n m
  simpa using this

theorem ceil_mul_quotient_le_iff (s k a orgWidth : Int) (hw : 0 < orgWidth) :
    ⌈(s : ℚ) * ((a : ℚ) / (orgWidth : ℚ))⌉ ≤ k ↔ s * a ≤ k * orgWidth := by
  have hw' : (0 : ℚ) < (orgWidth : ℚ) := by exact_mod_cast hw
  rw [Int.ceil_le, ← mul_div_assoc, div_le_iff₀ hw']
  exact_mod_cast Iff.rfl

theorem ceil_step (q p : ℚ) :
    ⌈q + p⌉ - ⌈q⌉ = ⌊p⌋ ∨ ⌈q + p⌉ - ⌈q⌉ = ⌈p⌉ := by
  have h1 : ⌈q⌉ + ⌊p⌋ ≤ ⌈q + p⌉ := by
    rw [← Int.ceil_add_int]
    exact Int.ceil_mono (by linarith [Int.floor_le p])
  have h2 : ⌈q + p⌉ ≤ ⌈q⌉ + ⌈p⌉ := Int.ceil_add_le q p
  have h3 : ⌈p⌉ ≤ ⌊p⌋ + 1 := Int.ceil_le_floor_add_one p
  omega

/-! ## Scaling by an integer -/

/-- The factor of a source of extent `W x H` scaled into `a * W` by `a * H`
with offset 0 is `a`. -/
theorem factor2D_multiple (impl : IntConv) (a W H : Int) (hW : 0 < W) (hH : 0 < H) :
    factor2D impl (a * W) (a * H) 0 W H = a := by
  rw [factor2D_eq impl _ _ _ _ _ hW.ne' hH.ne']
  have e1 : a * W - 2 * 0 = a * W := by ring
  have e2 : a * H - 2 * 0 = a * H := by ring
  rw [e1, e2, Int.mul_tdiv_cancel a hW.ne', Int.mul_tdiv_cancel a hH.ne']
  split <;> rfl

/-! ## C20: scaling twice -/

theorem ediv_ediv_eq (x a b : Int) (ha : 0 < a) (hb : 0 < b) : x / b / a = x / (a * b) := by
  have hab : 0 < a * b := mul_pos ha hb
  have u1 := Int.ediv_mul_le x hb.ne'
  have u2 := Int.lt_ediv_add_one_mul_self x hb
  have q1 := Int.ediv_mul_le (x / b) ha.ne'
  have q2 := Int.lt_ediv_add_one_mul_self (x / b) ha
  apply le_antisymm
  · rw [Int.le_ediv_iff_mul_le hab]
    nlinarith [mul_le_mul_of_nonneg_right q1 hb.le]
  · have h1 : x / b + 1 ≤ (x / b / a + 1) * a := by omega
    have : x / (a * b) < x / b / a + 1 := by
      rw [Int.ediv_lt_iff_lt_mul hab]
      nlinarith [mul_le_mul_of_nonneg_right h1 hb.le]
    omega

/-- Sampling with factor `b` a symbol of extent `a * W` by `a * H` that itself
samples `s` with factor `a` is sampling `s` with factor `a * b`. -/
theorem sample2D_compose (s s1 : Barcode) (a b W H : Int) (ha : 0 < a) (hb : 0 < b)
    (hs1 : ∀ u v : Int, s1.At u v = (sample2D 0 a W H u v).color s) (x y : Int) :
    (sample2D 0 b (a * W) (a * H) x y).color s1
      = (sample2D 0 (a * b) W H x y).color s := by
  have hab : 0 < a * b := mul_pos ha hb
  by_cases hneg : x < 0 ∨ y < 0
  · rw [sample2D_border _ _ _ _ _ _ hneg, sample2D_border _ _ _ _ _ _ hneg]
    rfl
  · have hx : 0 ≤ x := by omega
    have hy : 0 ≤ y := by omega
    have qx : Int.tdiv (x - 0) b = x / b := by rw [sub_zero, Int.tdiv_eq_ediv hx hb.le]
    have qy : Int.tdiv (y - 0) b = y / b := by rw [sub_zero, Int.tdiv_eq_ediv hy hb.le]
    have px : Int.tdiv (x - 0) (a * b) = x / b / a := by
      rw [sub_zero, Int.tdiv_eq_ediv hx hab.le, ediv_ediv_eq x a b ha hb]
    have py : Int.tdiv (y - 0) (a * b) = y / b / a := by
      rw [sub_zero, Int.tdiv_eq_ediv hy hab.le, ediv_ediv_eq y a b ha hb]
    have ux : 0 ≤ x / b := Int.ediv_nonneg hx hb.le
    have uy : 0 ≤ y / b := Int.ediv_nonneg hy hb.le
    have cx : W ≤ x / b / a ↔ a * W ≤ x / b := by
      rw [Int.le_ediv_iff_mul_le ha, mul_comm]
    have cy : H ≤ y / b / a ↔ a * H ≤ y / b := by
      rw [Int.le_ediv_iff_mul_le ha, mul_comm]
    by_cases hover : a * W ≤ x / b ∨ a * H ≤ y / b
    · have h1 : a * W ≤ Int.tdiv (x - 0) b ∨ a * H ≤ Int.tdiv (y - 0) b := by
        rw [qx, qy]; exact hover
      have h2 : W ≤ Int.tdiv (x - 0) (a * b) ∨ H ≤ Int.tdiv (y - 0) (a * b) := by
        rw [px, py, cx, cy]; exact hover
      rw [sample2D_overflow _ _ _ _ _ _ h1, sample2D_overflow _ _ _ _ _ _ h2]
      rfl
    · have h1x : Int.tdiv (x - 0) b < a * W := by rw [qx]; omega
      have h1y : Int.tdiv (y - 0) b < a * H := by rw [qy]; omega
      have h2x : Int.tdiv (x - 0) (a * b) < W := by
        rw [px]
        by_contra hc
        exact hover (Or.inl (cx.1 (by omega)))
      have h2y : Int.tdiv (y - 0) (a * b) < H := by
        rw [py]
        by_contra hc
        exact hover (Or.inr (cy.1 (by omega)))
      have h3x : Int.tdiv (x / b - 0) a < W := by
        rw [sub_zero, Int.tdiv_eq_ediv ux ha.le, ← px]; exact h2x
      have h3y : Int.tdiv (y / b - 0) a < H := by
        rw [sub_zero, Int.tdiv_eq_ediv uy ha.le, ← py]; exact h2y
      rw [sample2D_inside _ _ _ _ _ _ hx hy h1x h1y, sample2D_inside _ _ _ _ _ _ hx hy h2x h2y]
      simp only [Sample.color]
      rw [hs1, qx, qy, sample2D_inside _ _ _ _ _ _ ux uy h3x h3y, px, py]
      simp only [Sample.color, sub_zero, Int.tdiv_eq_ediv ux ha.le, Int.tdiv_eq_ediv uy ha.le]

/-- C20: for every 2D symbol `s` with bounds `(0,0)-(W,H)`, `W > 0`, `H > 0`,
and all `a ≥ 1`, `b ≥ 1`: `Scale(s, a*W, a*H, 0)` succeeds, `Scale` of its
result to `(a*b*W, a*b*H, 0)` succeeds, `Scale(s, a*b*W, a*b*H, 0)` succeeds,
and the twice-scaled symbol and the once-scaled one have the same colour at
every integer pixel. -/
theorem Scale_composes (impl : IntConv) (s : Barcode) (W H a b : Int)
    (hd : s.Metadata.Dimensions = 2)
    (hbnd : s.Bounds = { Min := { X := 0, Y := 0 }, Max := { X := W, Y := H } })
    (hW : 0 < W) (hH : 0 < H) (ha : 1 ≤ a) (hb : 1 ≤ b) :
    ∃ s1 s2 t : Barcode,
      Scale impl s (a * W) (a * H) 0 = Except.ok s1
      ∧ Scale impl s1 (a * b * W) (a * b * H) 0 = Except.ok s2
      ∧ Scale impl s (a * b * W) (a * b * H) 0 = Except.ok t
      ∧ ∀ x y : Int, s2.At x y = t.At x y := by
  have hX : s.Bounds.Max.X - s.Bounds.Min.X = W := by rw [hbnd]; simp
  have hY : s.Bounds.Max.Y - s.Bounds.Min.Y = H := by rw [hbnd]; simp
  have hS : ∀ (c : Barcode) (w h : Int), c.Metadata.Dimensions = 2 →
      Scale impl c w h 0 = scale2DCode impl c w h 0 := by
    intro c w h hc
    simp only [Scale]
    rw [if_neg (by omega), if_pos hc]
  have haW : 0 < a * W := mul_pos (by omega) hW
  have haH : 0 < a * H := mul_pos (by omega) hH
  -- the first scale
  have hf1 : factor2D impl (a * W) (a * H) 0 (s.Bounds.Max.X - s.Bounds.Min.X)
      (s.Bounds.Max.Y - s.Bounds.Min.Y) = a := by
    rw [hX, hY]; exact factor2D_multiple impl a W H hW hH
  have hok1 := scale2DCode_of_pos impl s (a * W) (a * H) 0 (by rw [hf1]; omega)
  obtain ⟨s1, hs1def⟩ : ∃ s1, s1 = newScaledBC s
      (fun x y => (sample2D 0
        (factor2D impl (a * W) (a * H) 0 (s.Bounds.Max.X - s.Bounds.Min.X)
          (s.Bounds.Max.Y - s.Bounds.Min.Y))
        (s.Bounds.Max.X - s.Bounds.Min.X) (s.Bounds.Max.Y - s.Bounds.Min.Y) x y).color s)
      (image.Rect 0 0 (a * W) (a * H)) := ⟨_, rfl⟩
  rw [← hs1def] at hok1
  have hs1At : ∀ u v : Int, s1.At u v = (sample2D 0 a W H u v).color s := by
    intro u v
    rw [scale2DCode_ok_At impl s (a * W) (a * H) 0 s1 hok1, hf1, hX, hY]
  have hs1B : s1.Bounds = { Min := { X := 0, Y := 0 }, Max := { X := a * W, Y := a * H } } := by
    rw [hs1def, newScaledBC_Bounds, Rect_of_nonneg _ _ haW.le haH.le]
  have hs1D : s1.Metadata.Dimensions = 2 := by
    rw [hs1def, newScaledBC_Metadata]; exact hd
  have hX1 : s1.Bounds.Max.X - s1.Bounds.Min.X = a * W := by rw [hs1B]; simp
  have hY1 : s1.Bounds.Max.Y - s1.Bounds.Min.Y = a * H := by rw [hs1B]; simp
  -- the second scale
  have eW : a * b * W = b * (a * W) := by ring
  have eH : a * b * H = b * (a * H) := by ring
  have hf2 : factor2D impl (a * b * W) (a * b * H) 0 (s1.Bounds.Max.X - s1.Bounds.Min.X)
      (s1.Bounds.Max.Y - s1.Bounds.Min.Y) = b := by
    rw [hX1, hY1, eW, eH]; exact factor2D_multiple impl b (a * W) (a * H) haW haH
  have hok2 := scale2DCode_of_pos impl s1 (a * b * W) (a * b * H) 0 (by rw [hf2]; omega)
  -- the direct scale
  have hf3 : factor2D impl (a * b * W) (a * b * H) 0 (s.Bounds.Max.X - s.Bounds.Min.X)
      (s.Bounds.Max.Y - s.Bounds.Min.Y) = a * b := by
    rw [hX, hY]; exact factor2D_multiple impl (a * b) W H hW hH
  have hab : 0 < a * b := mul_pos (by omega) (by omega)
  have hok3 := scale2DCode_of_pos impl s (a * b * W) (a * b * H) 0 (by rw [hf3]; exact hab)
  refine ⟨s1, _, _, (hS s _ _ hd).trans hok1, (hS s1 _ _ hs1D).trans hok2,
    (hS s _ _ hd).trans hok3, ?_⟩
  · intro x y
    rw [scale2DCode_ok_At impl s1 _ _ 0 _ hok2, hf2, hX1, hY1,
      scale2DCode_ok_At impl s _ _ 0 _ hok3, hf3, hX, hY]
    exact sample2D_compose s s1 a b W H (by omega) (by omega) hs1At x y

/-- C20 (witness): the 10x10 checker scaled by 2 and then by 3 is the checker
scaled by 6. -/
theorem Scale_composes_witness :
    ∃ s1 s2 t : Barcode,
      Scale IntConv.amd64 (checker 2 10 10) (2 * 10) (2 * 10) 0 = Except.ok s1
      ∧ Scale IntConv.amd64 s1 (2 * 3 * 10) (2 * 3 * 10) 0 = Except.ok s2
      ∧ Scale IntConv.amd64 (checker 2 10 10) (2 * 3 * 10) (2 * 3 * 10) 0 = Except.ok t
      ∧ ∀ x y : Int, s2.At x y = t.At x y :=
  Scale_composes IntConv.amd64 (checker 2 10 10) 10 10 2 3 (by decide) rfl
    (by decide) (by decide) (by decide) (by decide)

/-! # Machine arithmetic -/

namespace machine

/-! ### Wrap-around -/

theorem wrap_of_range (n : Int) (h1 : MinInt64 ≤ n) (h2 : n ≤ MaxInt64) : wrap n = n := by
  unfold wrap
  unfold MinInt64 at h1
  unfold MaxInt64 at h2
  omega

theorem wrap_sub_wrap (a b : Int) : wrap (a - wrap b) = wrap (a - b) := by
  unfold wrap
  omega

/-! ### Rounding to the nearest integer -/

theorem floor_le_roundHalfEven (s : ℚ) : ⌊s⌋ ≤ roundHalfEven s := by
  unfold roundHalfEven
  split_ifs <;> omega

theorem roundHalfEven_le (s : ℚ) : roundHalfEven s ≤ ⌊s⌋ + 1 := by
  unfold roundHalfEven
  split_ifs <;> omega

theorem roundHalfEven_intCast (k : Int) : roundHalfEven (k : ℚ) = k := by
  unfold roundHalfEven
  rw [Int.floor_intCast, sub_self, if_pos (by norm_num)]

theorem le_roundHalfEven (s : ℚ) (k : Int) (h : (k : ℚ) ≤ s) : k ≤ roundHalfEven s :=
  le_trans (Int.le_floor.2 h) (floor_le_roundHalfEven s)

theorem roundHalfEven_lt (s : ℚ) (k : Int) (h : s < (k : ℚ) - 1 / 2) :
    roundHalfEven s < k := by
  have hfl : ⌊s⌋ < k := Int.floor_lt.2 (by linarith)
  rcases lt_or_eq_of_le (Int.lt_iff_add_one_le.1 hfl) with h1 | h1
  · have := roundHalfEven_le s
    omega
  · have hk : (k : ℚ) = (⌊s⌋ : ℚ) + 1 := by rw [← h1]; push_cast; ring
    unfold roundHalfEven
    rw [if_pos (by linarith)]
    omega

theorem abs_roundHalfEven_sub_le (s : ℚ) : |(roundHalfEven s : ℚ) - s| ≤ 1 / 2 := by
  have h1 := Int.floor_le s
  have h2 := Int.lt_floor_add_one s
  unfold roundHalfEven
  rw [abs_le]
  split_ifs with c1 c2 c3
  · constructor <;> linarith
  · push_cast; constructor <;> linarith
  · push_neg at c1 c2; constructor <;> linarith
  · push_neg at c1 c2; push_cast; constructor <;> linarith

/-! ### The binary64 grid -/

theorem ulpExp_eq (q : ℚ) (L : Int) (hq : 0 < q) (h1 : (2 : ℚ) ^ L ≤ q)
    (h2 : q < (2 : ℚ) ^ (L + 1)) (hL : -1022 ≤ L) : ulpExp q = L - 52 := by
  have e1 : L ≤ Int.log 2 q := by
    rw [← Int.zpow_le_iff_le_log (by norm_num) hq]
    simpa using h1
  have e2 : Int.log 2 q < L + 1 := by
    rw [← Int.lt_zpow_iff_log_lt (by norm_num) hq]
    simpa using h2
  unfold ulpExp
  rw [max_eq_left (by omega)]
  omega

theorem log_bounds (q : ℚ) (hq : 0 < q) :
    (2 : ℚ) ^ (Int.log 2 q) ≤ q ∧ q < (2 : ℚ) ^ (Int.log 2 q + 1) := by
  constructor
  · simpa using Int.zpow_log_le_self (b := 2) (r := q) (by norm_num) hq
  · simpa using Int.lt_zpow_succ_log_self (b := 2) (by norm_num) q

/-- Below `2^53` and at or above `2^(-1022)` the grid step is `1 / 2^t` for a natural `t`, and
`q * 2^t` has 53 bits. -/
theorem ulp_small (q : ℚ) (h1 : (2 : ℚ) ^ (-1022 : Int) ≤ q) (h2 : q < (2 : ℚ) ^ (53 : Int)) :
    ∃ t : ℕ, (2 : ℚ) ^ (ulpExp q) = 1 / (2 : ℚ) ^ t ∧ (2 : ℚ) ^ (52 : ℕ) ≤ q * (2 : ℚ) ^ t
      ∧ q * (2 : ℚ) ^ t < (2 : ℚ) ^ (53 : ℕ) := by
  have hq : 0 < q := lt_of_lt_of_le (by positivity) h1
  obtain ⟨b1, b2⟩ := log_bounds q hq
  have e1 : (-1022 : Int) ≤ Int.log 2 q := by
    rw [← Int.zpow_le_iff_le_log (by norm_num) hq]
    simpa using h1
  have e2 : Int.log 2 q < 53 := by
    rw [← Int.lt_zpow_iff_log_lt (by norm_num) hq]
    simpa using h2
  have hu := ulpExp_eq q (Int.log 2 q) hq b1 b2 e1
  obtain ⟨t, ht⟩ : ∃ t : ℕ, (t : Int) = 52 - Int.log 2 q := ⟨(52 - Int.log 2 q).toNat, by omega⟩
  have hL : Int.log 2 q = 52 - (t : Int) := by omega
  have hpow : (2 : ℚ) ^ (t : Int) = (2 : ℚ) ^ t := zpow_natCast 2 t
  have ht0 : (0 : ℚ) < (2 : ℚ) ^ t := by positivity
  refine ⟨t, ?_, ?_, ?_⟩
  · rw [hu, hL]
    have : (52 : Int) - (t : Int) - 52 = -(t : Int) := by ring
    rw [this, zpow_neg, hpow, one_div]
  · rw [hL, zpow_sub₀ (by norm_num), hpow] at b1
    rw [div_le_iff₀ ht0] at b1
    exact_mod_cast b1
  · have : (52 : Int) - (t : Int) + 1 = 53 - (t : Int) := by ring
    rw [hL, this, zpow_sub₀ (by norm_num), hpow, lt_div_iff₀ ht0] at b2
    exact_mod_cast b2

/-! ### The rounding of a `float64` operation -/

theorem round_zero : round 0 = float64.fin 0 := by
  simp [round]

/-- The unfolding of `round` at a number of magnitude in `[2^(-1022), 2^53)`. -/
theorem round_small (q : ℚ) (h1 : (2 : ℚ) ^ (-1022 : Int) ≤ q) (h2 : q < (2 : ℚ) ^ (53 : Int)) :
    ∃ t : ℕ, (2 : ℚ) ^ (52 : ℕ) ≤ q * (2 : ℚ) ^ t ∧ q * (2 : ℚ) ^ t < (2 : ℚ) ^ (53 : ℕ)
      ∧ round q = float64.fin ((roundHalfEven (q * (2 : ℚ) ^ t) : ℚ) / (2 : ℚ) ^ t)
      ∧ round (-q) = float64.fin (-((roundHalfEven (q * (2 : ℚ) ^ t) : ℚ) / (2 : ℚ) ^ t)) := by
  have hq : 0 < q := lt_of_lt_of_le (by positivity) h1
  obtain ⟨t, hP, b1, b2⟩ := ulp_small q h1 h2
  have ht0 : (0 : ℚ) < (2 : ℚ) ^ t := by positivity
  have ht1 : (1 : ℚ) ≤ (2 : ℚ) ^ t := one_le_pow₀ (by norm_num)
  have hs : q / (1 / (2 : ℚ) ^ t) = q * (2 : ℚ) ^ t := by
    field_simp
  have hm : (roundHalfEven (q * (2 : ℚ) ^ t) : ℚ) ≤ (2 : ℚ) ^ (53 : ℕ) := by
    have hle := roundHalfEven_le (q * (2 : ℚ) ^ t)
    have hfl : ⌊q * (2 : ℚ) ^ t⌋ < (2 : Int) ^ (53 : ℕ) := by
      rw [Int.floor_lt]
      exact_mod_cast b2
    have : roundHalfEven (q * (2 : ℚ) ^ t) ≤ (2 : Int) ^ (53 : ℕ) := by omega
    exact_mod_cast this
  have hfin : ¬ ((2 : ℚ) ^ (1024 : Int)
      ≤ (roundHalfEven (q * (2 : ℚ) ^ t) : ℚ) * (1 / (2 : ℚ) ^ t)) := by
    rw [not_le]
    have h3 : (roundHalfEven (q * (2 : ℚ) ^ t) : ℚ) * (1 / (2 : ℚ) ^ t)
        ≤ (2 : ℚ) ^ (53 : ℕ) := by
      rw [mul_one_div, div_le_iff₀ ht0]
      calc (roundHalfEven (q * (2 : ℚ) ^ t) : ℚ) ≤ (2 : ℚ) ^ (53 : ℕ) := hm
        _ ≤ (2 : ℚ) ^ (53 : ℕ) * (2 : ℚ) ^ t := le_mul_of_one_le_right (by positivity) ht1
    have h4 : (2 : ℚ) ^ (53 : ℕ) < (2 : ℚ) ^ (1024 : Int) := by
      have : (2 : ℚ) ^ (1024 : Int) = (2 : ℚ) ^ (1024 : ℕ) := by
        rw [← zpow_natCast]; rfl
      rw [this]
      exact pow_lt_pow_right₀ (by norm_num) (by norm_num)
    linarith
  refine ⟨t, b1, b2, ?_, ?_⟩
  · unfold round
    rw [if_neg hq.ne']
    simp only [abs_of_pos hq, hP, hs]
    rw [if_neg hfin, if_pos hq, mul_one_div]
  · have hneg : -q ≠ 0 := by linarith [hq]
    unfold round
    rw [if_neg hneg]
    simp only [abs_neg, abs_of_pos hq, hP, hs]
    rw [if_neg hfin, if_neg (by linarith), mul_one_div]

/-- An `int` below `2^53` in absolute value converts to `float64` without
rounding. -/
theorem ofInt_exact (n : Int) (h1 : -9007199254740992 < n) (h2 : n < 9007199254740992) :
    ofInt n = float64.fin (n : ℚ) := by
  unfold ofInt
  have key : ∀ k : Int, 0 < k → k < 9007199254740992 →
      round (k : ℚ) = float64.fin (k : ℚ) ∧ round (-(k : ℚ)) = float64.fin (-(k : ℚ)) := by
    intro k hk0 hk
    have hk1 : (1 : ℚ) ≤ (k : ℚ) := by exact_mod_cast (show (1 : Int) ≤ k by omega)
    have a1 : (2 : ℚ) ^ (-1022 : Int) ≤ (k : ℚ) := by
      have : (2 : ℚ) ^ (-1022 : Int) ≤ 1 := zpow_le_one_of_nonpos₀ (by norm_num) (by norm_num)
      linarith
    have a2 : (k : ℚ) < (2 : ℚ) ^ (53 : Int) := by
      have : (2 : ℚ) ^ (53 : Int) = 9007199254740992 := by norm_num
      rw [this]
      exact_mod_cast hk
    obtain ⟨t, -, -, r1, r2⟩ := round_small (k : ℚ) a1 a2
    have hs : (k : ℚ) * (2 : ℚ) ^ t = ((k * 2 ^ t : Int) : ℚ) := by push_cast; ring
    have ht0 : (2 : ℚ) ^ t ≠ 0 := by positivity
    rw [hs, roundHalfEven_intCast] at r1 r2
    have hv : ((k * 2 ^ t : Int) : ℚ) / (2 : ℚ) ^ t = (k : ℚ) := by
      push_cast
      field_simp
    rw [hv] at r1 r2
    exact ⟨r1, r2⟩
  rcases lt_trichotomy n 0 with hn | hn | hn
  · have := (key (-n) (by omega) (by omega)).2
    simpa using this
  · subst hn
    simpa using round_zero
  · exact (key n hn h2).1

/-! ### Discarding the fraction -/

theorem trunc_eq_floor (r : ℚ) (hr : 0 ≤ r) : Int.tdiv r.num (r.den : Int) = ⌊r⌋ := by
  rw [Rat.floor_def, Int.tdiv_eq_ediv (Rat.num_nonneg.2 hr) (by positivity)]

theorem trunc_neg (r : ℚ) :
    Int.tdiv (-r).num ((-r).den : Int) = -Int.tdiv r.num (r.den : Int) := by
  rw [Rat.neg_num, Rat.neg_den, Int.neg_tdiv]

theorem trunc_of_mem (r : ℚ) (n : Int) (h0 : 0 ≤ n) (h1 : (n : ℚ) ≤ r) (h2 : r < (n : ℚ) + 1) :
    Int.tdiv r.num (r.den : Int) = n := by
  have hr : (0 : ℚ) ≤ r := le_trans (by exact_mod_cast h0) h1
  rw [trunc_eq_floor r hr, Int.floor_eq_iff]
  exact ⟨h1, h2⟩

/-! ### A rounded quotient of two integers has the integer part of the exact one -/

theorem round_div_pos (a b : Int) (ha : 0 < a) (hb : 0 < b)
    (ha2 : a < 9007199254740992) (hb2 : b < 9007199254740992) :
    ∃ r : ℚ, round ((a : ℚ) / (b : ℚ)) = float64.fin r
      ∧ round (-((a : ℚ) / (b : ℚ))) = float64.fin (-r)
      ∧ ((a / b : Int) : ℚ) ≤ r ∧ r < ((a / b : Int) : ℚ) + 1 := by
  have ha' : (0 : ℚ) < (a : ℚ) := by exact_mod_cast ha
  have hb' : (0 : ℚ) < (b : ℚ) := by exact_mod_cast hb
  have ha1 : (1 : ℚ) ≤ (a : ℚ) := by exact_mod_cast (show (1 : Int) ≤ a by omega)
  have hb1 : (1 : ℚ) ≤ (b : ℚ) := by exact_mod_cast (show (1 : Int) ≤ b by omega)
  have ha2' : (a : ℚ) < 9007199254740992 := by exact_mod_cast ha2
  have hb2' : (b : ℚ) < 9007199254740992 := by exact_mod_cast hb2
  have hq : 0 < (a : ℚ) / (b : ℚ) := div_pos ha' hb'
  have hqb : (a : ℚ) / (b : ℚ) * (b : ℚ) = (a : ℚ) := div_mul_cancel₀ _ hb'.ne'
  have p53 : (2 : ℚ) ^ (53 : Int) = 9007199254740992 := by norm_num
  have p53n : (2 : ℚ) ^ (53 : ℕ) = 9007199254740992 := by norm_num
  have p52n : (2 : ℚ) ^ (52 : ℕ) = 4503599627370496 := by norm_num
  -- the quotient is in the range of `round_small`
  have a1 : (2 : ℚ) ^ (-1022 : Int) ≤ (a : ℚ) / (b : ℚ) := by
    have h53 : (2 : ℚ) ^ (-1022 : Int) ≤ (2 : ℚ) ^ (-53 : Int) :=
      zpow_le_zpow_right₀ (by norm_num) (by norm_num)
    have h53' : (2 : ℚ) ^ (-53 : Int) = 1 / 9007199254740992 := by norm_num
    rw [h53'] at h53
    have : (1 : ℚ) / 9007199254740992 ≤ (a : ℚ) / (b : ℚ) := by
      rw [le_div_iff₀ hb']
      nlinarith
    linarith
  have a2 : (a : ℚ) / (b : ℚ) < (2 : ℚ) ^ (53 : Int) := by
    rw [p53, div_lt_iff₀ hb']
    nlinarith
  obtain ⟨t, b1, b2, r1, r2⟩ := round_small _ a1 a2
  rw [p52n] at b1
  have hT : (0 : ℚ) < (2 : ℚ) ^ t := by positivity
  have hn1 : ((a / b : Int) : ℚ) * (b : ℚ) ≤ (a : ℚ) := by
    exact_mod_cast Int.ediv_mul_le a hb.ne'
  have hn2 : (a : ℚ) + 1 ≤ (((a / b : Int) : ℚ) + 1) * (b : ℚ) := by
    have := Int.lt_ediv_add_one_mul_self a hb
    exact_mod_cast (show a + 1 ≤ (a / b + 1) * b by omega)
  have c1 : (((a / b) * 2 ^ t : Int) : ℚ) = ((a / b : Int) : ℚ) * (2 : ℚ) ^ t := by
    push_cast; ring
  have c2 : (((a / b + 1) * 2 ^ t : Int) : ℚ) = (((a / b : Int) : ℚ) + 1) * (2 : ℚ) ^ t := by
    push_cast; ring
  generalize hmdef : roundHalfEven ((a : ℚ) / (b : ℚ) * (2 : ℚ) ^ t) = m at *
  have key : ((a / b) * 2 ^ t : Int) ≤ m ∧ m < ((a / b + 1) * 2 ^ t : Int) := by
    rw [← hmdef]
    generalize ((a / b : Int) : ℚ) = n at *
    generalize (2 : ℚ) ^ t = T at *
    generalize (a : ℚ) / (b : ℚ) = q at *
    have hnq : n ≤ q := by
      by_contra hc
      push_neg at hc
      nlinarith
    have hbT : (b : ℚ) < 2 * T := by
      have : 4503599627370496 * (b : ℚ) ≤ (a : ℚ) * T := by
        have := mul_le_mul_of_nonneg_right b1 hb'.le
        nlinarith
      nlinarith
    constructor
    · apply le_roundHalfEven
      rw [c1]
      exact mul_le_mul_of_nonneg_right hnq hT.le
    · apply roundHalfEven_lt
      rw [c2]
      have h3 : q * T * (b : ℚ) ≤ (n + 1) * T * (b : ℚ) - T := by nlinarith
      by_contra hc
      push_neg at hc
      have := mul_le_mul_of_nonneg_right hc hb'.le
      nlinarith
  obtain ⟨k1, k2⟩ := key
  have k1' : ((a / b : Int) : ℚ) * (2 : ℚ) ^ t ≤ (m : ℚ) := by
    rw [← c1]; exact_mod_cast k1
  have k2' : (m : ℚ) < (((a / b : Int) : ℚ) + 1) * (2 : ℚ) ^ t := by
    rw [← c2]; exact_mod_cast k2
  refine ⟨(m : ℚ) / (2 : ℚ) ^ t, r1, r2, ?_, ?_⟩
  · rw [le_div_iff₀ hT]; exact k1'
  · rw [div_lt_iff₀ hT]; exact k2'

theorem trunc_mono (p q : ℚ) (h : p ≤ q) :
    Int.tdiv p.num (p.den : Int) ≤ Int.tdiv q.num (q.den : Int) := by
  have hneg : ∀ r : ℚ, r ≤ 0 → Int.tdiv r.num (r.den : Int) = -⌊-r⌋ := by
    intro r hr
    have := trunc_neg (-r)
    rw [neg_neg] at this
    rw [this, trunc_eq_floor (-r) (by linarith)]
  rcases le_or_lt 0 p with hp | hp
  · rw [trunc_eq_floor p hp, trunc_eq_floor q (le_trans hp h)]
    exact Int.floor_mono h
  · rcases le_or_lt 0 q with hq | hq
    · rw [hneg p hp.le, trunc_eq_floor q hq]
      have h1 : 0 ≤ ⌊-p⌋ := Int.floor_nonneg.2 (by linarith)
      have h2 : 0 ≤ ⌊q⌋ := Int.floor_nonneg.2 hq
      omega
    · rw [hneg p hp.le, hneg q hq.le]
      have : ⌊-q⌋ ≤ ⌊-p⌋ := Int.floor_mono (by linarith)
      omega

theorem ite_eq_min (c : Prop) [Decidable c] (t1 t2 : Int) (h1 : c → t1 ≤ t2)
    (h2 : ¬ c → t2 ≤ t1) : (if c then t1 else t2) = min t1 t2 := by
  by_cases hc : c
  · rw [if_pos hc, min_eq_left (h1 hc)]
  · rw [if_neg hc, min_eq_right (h2 hc)]

/-- The rounded quotient of two `int`s below `2^53`, the divisor positive, is
finite and has the integer part that Go's integer division gives. -/
theorem div_ofInt (a b : Int) (ha1 : -9007199254740992 < a) (ha2 : a < 9007199254740992)
    (hb : 0 < b) (hb2 : b < 9007199254740992) :
    ∃ r : ℚ, div (ofInt a) (ofInt b) = float64.fin r
      ∧ Int.tdiv r.num (r.den : Int) = Int.tdiv a b := by
  have hb' : (b : ℚ) ≠ 0 := by exact_mod_cast hb.ne'
  rw [ofInt_exact a ha1 ha2, ofInt_exact b (by omega) hb2]
  simp only [div, float64.div, if_neg hb']
  rcases lt_trichotomy a 0 with hn | hn | hn
  · obtain ⟨r, -, h2, h3, h4⟩ := round_div_pos (-a) b (by omega) hb (by omega) hb2
    have e : (a : ℚ) / (b : ℚ) = -(((-a : Int) : ℚ) / (b : ℚ)) := by
      push_cast; ring
    rw [e, h2]
    refine ⟨-r, rfl, ?_⟩
    rw [trunc_neg, trunc_of_mem r (-a / b) (Int.ediv_nonneg (by omega) hb.le) h3 h4,
      ← Int.tdiv_eq_ediv (by omega) hb.le, ← Int.neg_tdiv, neg_neg]
  · subst hn
    refine ⟨0, by simp [round_zero], by simp⟩
  · obtain ⟨r, h1, -, h3, h4⟩ := round_div_pos a b hn hb ha2 hb2
    rw [h1]
    refine ⟨r, rfl, ?_⟩
    rw [trunc_of_mem r (a / b) (Int.ediv_nonneg hn.le hb.le) h3 h4,
      Int.tdiv_eq_ediv hn.le hb.le]

theorem abs_tdiv_le (a b : Int) (hb : 0 < b) : |Int.tdiv a b| ≤ |a| := by
  rcases le_or_lt 0 a with h | h
  · rw [Int.tdiv_eq_ediv h hb.le, abs_of_nonneg (Int.ediv_nonneg h hb.le), abs_of_nonneg h]
    exact Int.ediv_le_self b h
  · have e : a = -(-a) := by ring
    rw [e, Int.neg_tdiv, abs_neg, abs_neg, Int.tdiv_eq_ediv (by omega) hb.le,
      abs_of_nonneg (Int.ediv_nonneg (by omega) hb.le), abs_of_nonneg (by omega)]
    exact Int.ediv_le_self b (by omega)

theorem toInt_of_trunc (impl : IntConv) (r : ℚ) (t : Int)
    (h : Int.tdiv r.num (r.den : Int) = t) (h1 : MinInt64 ≤ t) (h2 : t ≤ MaxInt64) :
    toInt impl (float64.fin r) = t := by
  simp only [toInt, h]
  rw [if_neg (by omega), if_neg (by omega)]

/-- With operands below `2^53` and positive source extents, the truncated
minimum of the two rounded quotients is the minimum of the two integer
quotients. -/
theorem toInt_Min_div (impl : IntConv) (a b orgWidth orgHeight : Int)
    (hw : 0 < orgWidth) (hw2 : orgWidth < 9007199254740992)
    (hh : 0 < orgHeight) (hh2 : orgHeight < 9007199254740992)
    (ha1 : -9007199254740992 < a) (ha2 : a < 9007199254740992)
    (hb1 : -9007199254740992 < b) (hb2 : b < 9007199254740992) :
    toInt impl (float64.Min (div (ofInt a) (ofInt orgWidth)) (div (ofInt b) (ofInt orgHeight)))
      = min (Int.tdiv a orgWidth) (Int.tdiv b orgHeight) := by
  obtain ⟨r1, e1, t1⟩ := div_ofInt a orgWidth ha1 ha2 hw hw2
  obtain ⟨r2, e2, t2⟩ := div_ofInt b orgHeight hb1 hb2 hh hh2
  have q1 := abs_tdiv_le a orgWidth hw
  have q2 := abs_tdiv_le b orgHeight hh
  rw [abs_le] at q1 q2
  have r1' : |a| < 9007199254740992 := abs_lt.2 ⟨ha1, ha2⟩
  have r2' : |b| < 9007199254740992 := abs_lt.2 ⟨hb1, hb2⟩
  rw [e1, e2]
  simp only [float64.Min]
  rw [← ite_eq_min (r1 < r2) _ _
    (fun hc => by rw [← t1, ← t2]; exact trunc_mono r1 r2 hc.le)
    (fun hc => by rw [← t1, ← t2]; exact trunc_mono r2 r1 (not_lt.1 hc))]
  split
  · exact toInt_of_trunc impl r1 _ t1 (by unfold MinInt64; omega) (by unfold MaxInt64; omega)
  · exact toInt_of_trunc impl r2 _ t2 (by unfold MinInt64; omega) (by unfold MaxInt64; omega)

/-- The factor computed with exact quotients is the minimum of the two
integer quotients. -/
theorem factor2D_exact_eq_min (impl : IntConv) (width height offset orgWidth orgHeight : Int)
    (hw : 0 < orgWidth) (hh : 0 < orgHeight) :
    barcode.factor2D impl width height offset orgWidth orgHeight
      = min (Int.tdiv (width - 2 * offset) orgWidth)
          (Int.tdiv (height - 2 * offset) orgHeight) := by
  rw [barcode.factor2D_eq impl _ _ _ _ _ hw.ne' hh.ne']
  apply ite_eq_min
  · intro hc
    rw [← trunc_intCast_div _ _ hw.ne', ← trunc_intCast_div _ _ hh.ne']
    exact trunc_mono _ _ hc.le
  · intro hc
    rw [← trunc_intCast_div _ _ hw.ne', ← trunc_intCast_div _ _ hh.ne']
    exact trunc_mono _ _ (not_lt.1 hc)

/-- With operands below `2^53` and positive source extents the machine factor
is the factor computed with exact quotients. -/
theorem factor2D_eq_exact (impl : IntConv) (width height offset orgWidth orgHeight : Int)
    (hw : 0 < orgWidth) (hw2 : orgWidth < 9007199254740992)
    (hh : 0 < orgHeight) (hh2 : orgHeight < 9007199254740992)
    (ha1 : -9007199254740992 < width - 2 * offset)
    (ha2 : width - 2 * offset < 9007199254740992)
    (hb1 : -9007199254740992 < height - 2 * offset)
    (hb2 : height - 2 * offset < 9007199254740992) :
    factor2D impl width height offset orgWidth orgHeight
      = barcode.factor2D impl width height offset orgWidth orgHeight := by
  have wa : wrap (width - wrap (2 * offset)) = width - 2 * offset := by
    rw [wrap_sub_wrap, wrap_of_range _ (by unfold MinInt64; omega) (by unfold MaxInt64; omega)]
  have wb : wrap (height - wrap (2 * offset)) = height - 2 * offset := by
    rw [wrap_sub_wrap, wrap_of_range _ (by unfold MinInt64; omega) (by unfold MaxInt64; omega)]
  rw [factor2D_exact_eq_min impl _ _ _ _ _ hw hh]
  unfold factor2D
  rw [wa, wb]
  exact toInt_Min_div impl _ _ _ _ hw hw2 hh hh2 ha1 ha2 hb1 hb2

/-! ### The machine `scale2DCode` -/

theorem scale2DCode_machine_of_pos (impl : IntConv) (bc : Barcode) (width height offset : Int)
    (h : 0 < factor2D impl width height offset
          (wrap (bc.Bounds.Max.X - bc.Bounds.Min.X)) (wrap (bc.Bounds.Max.Y - bc.Bounds.Min.Y))) :
    scale2DCode impl bc width height offset
      = Except.ok (newScaledBC bc
        (fun x y => (sample2D offset
          (factor2D impl width height offset
            (wrap (bc.Bounds.Max.X - bc.Bounds.Min.X)) (wrap (bc.Bounds.Max.Y - bc.Bounds.Min.Y)))
          (wrap (bc.Bounds.Max.X - bc.Bounds.Min.X)) (wrap (bc.Bounds.Max.Y - bc.Bounds.Min.Y))
          x y).color bc)
        (image.Rect 0 0 width height)) := by
  simp only [scale2DCode]
  rw [if_neg (by omega)]

theorem scale2DCode_machine_of_nonpos (impl : IntConv) (bc : Barcode)
    (width height offset : Int)
    (h : factor2D impl width height offset
          (wrap (bc.Bounds.Max.X - bc.Bounds.Min.X)) (wrap (bc.Bounds.Max.Y - bc.Bounds.Min.Y))
          ≤ 0) :
    scale2DCode impl bc width height offset
      = Except.error (tooSmall2D (wrap (bc.Bounds.Max.X - bc.Bounds.Min.X))
          (wrap (bc.Bounds.Max.Y - bc.Bounds.Min.Y))) := by
  simp only [scale2DCode]
  rw [if_pos h]

theorem scale2DCode_machine_ok (impl : IntConv) (bc : Barcode) (width height offset : Int)
    (r : Barcode) (h : scale2DCode impl bc width height offset = Except.ok r) :
    0 < factor2D impl width height offset
          (wrap (bc.Bounds.Max.X - bc.Bounds.Min.X)) (wrap (bc.Bounds.Max.Y - bc.Bounds.Min.Y))
    ∧ r = newScaledBC bc
        (fun x y => (sample2D offset
          (factor2D impl width height offset
            (wrap (bc.Bounds.Max.X - bc.Bounds.Min.X)) (wrap (bc.Bounds.Max.Y - bc.Bounds.Min.Y)))
          (wrap (bc.Bounds.Max.X - bc.Bounds.Min.X)) (wrap (bc.Bounds.Max.Y - bc.Bounds.Min.Y))
          x y).color bc)
        (image.Rect 0 0 width height) := by
  simp only [scale2DCode] at h
  split at h
  · exact absurd h (by simp)
  · rename_i hf
    exact ⟨by omega, (Except.ok.inj h).symm⟩

/-! ### Evaluating a rounding -/

theorem roundHalfEven_down (s : ℚ) (f : Int) (h1 : (f : ℚ) ≤ s) (h2 : s < (f : ℚ) + 1 / 2) :
    roundHalfEven s = f := by
  have hf : ⌊s⌋ = f := Int.floor_eq_iff.2 ⟨h1, by linarith⟩
  unfold roundHalfEven
  rw [hf, if_pos (by linarith)]

theorem roundHalfEven_up (s : ℚ) (f : Int) (h1 : (f : ℚ) + 1 / 2 < s) (h2 : s < (f : ℚ) + 1) :
    roundHalfEven s = f + 1 := by
  have hf : ⌊s⌋ = f := Int.floor_eq_iff.2 ⟨by linarith, h2⟩
  unfold roundHalfEven
  rw [hf, if_neg (by linarith), if_pos (by linarith)]

theorem roundHalfEven_tie (s : ℚ) (f : Int) (h : s = (f : ℚ) + 1 / 2) :
    roundHalfEven s = if f % 2 = 0 then f else f + 1 := by
  have hf : ⌊s⌋ = f := Int.floor_eq_iff.2 ⟨by linarith, by linarith⟩
  unfold roundHalfEven
  rw [hf, if_neg (by linarith), if_neg (by linarith)]

/-- The rounding of `q > 0` from its binary exponent `L` and the rounded
53-bit integer `m`. -/
theorem round_eval (q : ℚ) (L m : Int) (hq : 0 < q) (h1 : (2 : ℚ) ^ L ≤ q)
    (h2 : q < (2 : ℚ) ^ (L + 1)) (hL : -1022 ≤ L)
    (hm : roundHalfEven (q / (2 : ℚ) ^ (L - 52)) = m)
    (hfin : (m : ℚ) * (2 : ℚ) ^ (L - 52) < (2 : ℚ) ^ (1024 : Int)) :
    round q = float64.fin ((m : ℚ) * (2 : ℚ) ^ (L - 52)) := by
  unfold round
  rw [if_neg hq.ne']
  simp only [abs_of_pos hq, ulpExp_eq q L hq h1 h2 hL, hm]
  rw [if_neg (not_le.2 hfin), if_pos hq]

/-! ### Two roundings at `2^53` -/

theorem round_2_53 : round (9007199254740992 : ℚ) = float64.fin 9007199254740992 := by
  have h := round_eval 9007199254740992 53 4503599627370496 (by norm_num) (by norm_num)
    (by norm_num) (by norm_num)
    (roundHalfEven_down _ 4503599627370496 (by norm_num) (by norm_num))
    (by norm_num)
  rw [h]
  norm_num

theorem ofInt_2_53 : ofInt 9007199254740992 = float64.fin 9007199254740992 := by
  unfold ofInt
  have e : ((9007199254740992 : Int) : ℚ) = 9007199254740992 := by norm_num
  rw [e, round_2_53]

/-- The conversion `float64(2^53 + 1)` gives `2^53`: the two nearest binary64
numbers are `2^53` and `2^53 + 2`, and `2^53` has the even significand. -/
theorem ofInt_2_53_add_one : ofInt 9007199254740993 = float64.fin 9007199254740992 := by
  unfold ofInt
  have h := round_eval 9007199254740993 53 4503599627370496 (by norm_num) (by norm_num)
    (by norm_num) (by norm_num)
    (by
      rw [roundHalfEven_tie _ 4503599627370496 (by norm_num)]
      decide)
    (by norm_num)
  have e : ((9007199254740993 : Int) : ℚ) = 9007199254740993 := by norm_num
  rw [e, h]
  norm_num

theorem ofInt_one : ofInt 1 = float64.fin 1 := by
  have := ofInt_exact 1 (by decide) (by decide)
  simpa using this

theorem div_self_2_53 :
    div (float64.fin 9007199254740992) (float64.fin 9007199254740992) = float64.fin 1 := by
  simp only [div, float64.div]
  rw [if_neg (by norm_num)]
  have e : (9007199254740992 : ℚ) / 9007199254740992 = ((1 : Int) : ℚ) := by norm_num
  rw [e]
  have := ofInt_exact 1 (by decide) (by decide)
  unfold ofInt at this
  show round ((1 : Int) : ℚ) = float64.fin 1
  rw [this]
  norm_num

theorem div_one_one : div (float64.fin 1) (float64.fin 1) = float64.fin 1 := by
  simp only [div, float64.div]
  rw [if_neg (by norm_num)]
  have e : (1 : ℚ) / 1 = ((1 : Int) : ℚ) := by norm_num
  rw [e]
  have := ofInt_exact 1 (by decide) (by decide)
  unfold ofInt at this
  show round ((1 : Int) : ℚ) = float64.fin 1
  rw [this]
  norm_num

theorem toInt_one (impl : IntConv) : toInt impl (float64.fin 1) = 1 :=
  toInt_of_trunc impl 1 1 (by decide) (by decide) (by decide)

/-! ## C3: when `scale2DCode` refuses -/

/-- C3 (counterexample): two calls that the claim says fail and the code
accepts.  For the 10x10 checker, width 44, height 44 and offset
`9223372036854775807`, `width - 2 * offset < orgWidth` holds; in the code
`2 * offset` wraps around to `-2`, `width - 2 * offset` is `46`, the factor is
4 and the call succeeds.  For a source of extent `2^53 + 1` by 1, width `2^53`,
height 1 and offset 0, `width - 2 * offset < orgWidth` holds; in the code
`float64(orgWidth)` is rounded to `2^53`, the factor is 1 and the call
succeeds. -/
theorem scale2DCode_accepts_after_wrap :
    (44 - 2 * 9223372036854775807
        < (checker 2 10 10).Bounds.Max.X - (checker 2 10 10).Bounds.Min.X
      ∧ wrap (44 - wrap (2 * 9223372036854775807)) = 46
      ∧ factor2D IntConv.amd64 44 44 9223372036854775807 10 10 = 4
      ∧ ∃ r, scale2DCode IntConv.amd64 (checker 2 10 10) 44 44 9223372036854775807
          = Except.ok r)
    ∧ (9007199254740992 - 2 * 0
        < (checker 2 9007199254740993 1).Bounds.Max.X
            - (checker 2 9007199254740993 1).Bounds.Min.X
      ∧ factor2D IntConv.amd64 9007199254740992 1 0 9007199254740993 1 = 1
      ∧ ∃ r, scale2DCode IntConv.amd64 (checker 2 9007199254740993 1) 9007199254740992 1 0
          = Except.ok r) := by
  have hwr : wrap (44 - wrap (2 * 9223372036854775807)) = 46 := by decide
  have hf : factor2D IntConv.amd64 44 44 9223372036854775807 10 10 = 4 := by
    unfold factor2D
    rw [hwr, toInt_Min_div IntConv.amd64 46 46 10 10 (by decide) (by decide) (by decide)
      (by decide) (by decide) (by decide) (by decide) (by decide)]
    decide
  have hX : wrap ((checker 2 10 10).Bounds.Max.X - (checker 2 10 10).Bounds.Min.X) = 10 := by
    decide
  have hY : wrap ((checker 2 10 10).Bounds.Max.Y - (checker 2 10 10).Bounds.Min.Y) = 10 := by
    decide
  have hf2 : factor2D IntConv.amd64 9007199254740992 1 0 9007199254740993 1 = 1 := by
    unfold factor2D
    rw [show wrap (9007199254740992 - wrap (2 * 0)) = 9007199254740992 from by decide,
      show wrap (1 - wrap (2 * 0)) = 1 from by decide,
      ofInt_2_53, ofInt_2_53_add_one, ofInt_one, div_self_2_53, div_one_one]
    simp only [float64.Min, lt_self_iff_false, if_false]
    exact toInt_one _
  have hX2 : wrap ((checker 2 9007199254740993 1).Bounds.Max.X
      - (checker 2 9007199254740993 1).Bounds.Min.X) = 9007199254740993 := by decide
  have hY2 : wrap ((checker 2 9007199254740993 1).Bounds.Max.Y
      - (checker 2 9007199254740993 1).Bounds.Min.Y) = 1 := by decide
  refine ⟨⟨by decide, hwr, hf, _, scale2DCode_machine_of_pos _ _ _ _ _ ?_⟩,
    ⟨by decide, hf2, _, scale2DCode_machine_of_pos _ _ _ _ _ ?_⟩⟩
  · rw [hX, hY, hf]
    decide
  · rw [hX2, hY2, hf2]
    decide

/-- C3 (amended): for a 2D symbol of extent `0 < orgWidth < 2^53` by
`0 < orgHeight < 2^53` and all `width`, `height`, `offset` with
`width - 2 * offset` and `height - 2 * offset` between `-2^53` and `2^53`,
`scale2DCode` fails with the too-small error (and returns no symbol) if and
only if `width - 2 * offset < orgWidth` or `height - 2 * offset < orgHeight`;
otherwise it returns a symbol and no error. -/
theorem scale2DCode_refuses_iff (impl : IntConv) (bc : Barcode) (width height offset : Int)
    (hw : 0 < bc.Bounds.Max.X - bc.Bounds.Min.X)
    (hw2 : bc.Bounds.Max.X - bc.Bounds.Min.X < 9007199254740992)
    (hh : 0 < bc.Bounds.Max.Y - bc.Bounds.Min.Y)
    (hh2 : bc.Bounds.Max.Y - bc.Bounds.Min.Y < 9007199254740992)
    (ha1 : -9007199254740992 < width - 2 * offset)
    (ha2 : width - 2 * offset < 9007199254740992)
    (hb1 : -9007199254740992 < height - 2 * offset)
    (hb2 : height - 2 * offset < 9007199254740992) :
    (scale2DCode impl bc width height offset
        = Except.error (tooSmall2D (bc.Bounds.Max.X - bc.Bounds.Min.X)
            (bc.Bounds.Max.Y - bc.Bounds.Min.Y))
      ↔ (width - 2 * offset < bc.Bounds.Max.X - bc.Bounds.Min.X
          ∨ height - 2 * offset < bc.Bounds.Max.Y - bc.Bounds.Min.Y))
    ∧ ((width - 2 * offset < bc.Bounds.Max.X - bc.Bounds.Min.X
          ∨ height - 2 * offset < bc.Bounds.Max.Y - bc.Bounds.Min.Y)
        → ∀ r, scale2DCode impl bc width height offset ≠ Except.ok r)
    ∧ (¬ (width - 2 * offset < bc.Bounds.Max.X - bc.Bounds.Min.X
          ∨ height - 2 * offset < bc.Bounds.Max.Y - bc.Bounds.Min.Y)
        → ∃ r, scale2DCode impl bc width height offset = Except.ok r) := by
  have hX : wrap (bc.Bounds.Max.X - bc.Bounds.Min.X) = bc.Bounds.Max.X - bc.Bounds.Min.X :=
    wrap_of_range _ (by unfold MinInt64; omega) (by unfold MaxInt64; omega)
  have hY : wrap (bc.Bounds.Max.Y - bc.Bounds.Min.Y) = bc.Bounds.Max.Y - bc.Bounds.Min.Y :=
    wrap_of_range _ (by unfold MinInt64; omega) (by unfold MaxInt64; omega)
  have hfe := factor2D_eq_exact impl width height offset _ _ hw hw2 hh hh2 ha1 ha2 hb1 hb2
  have hpos := barcode.factor2D_pos_iff impl width height offset _ _ hw hh
  rw [← hfe] at hpos
  have hfail : (width - 2 * offset < bc.Bounds.Max.X - bc.Bounds.Min.X
        ∨ height - 2 * offset < bc.Bounds.Max.Y - bc.Bounds.Min.Y) →
      scale2DCode impl bc width height offset
        = Except.error (tooSmall2D (bc.Bounds.Max.X - bc.Bounds.Min.X)
            (bc.Bounds.Max.Y - bc.Bounds.Min.Y)) := by
    intro hs
    have := scale2DCode_machine_of_nonpos impl bc width height offset (by
      rw [hX, hY]
      by_contra hc
      have := hpos.1 (by omega)
      omega)
    rw [hX, hY] at this
    exact this
  have hsucc : ¬ (width - 2 * offset < bc.Bounds.Max.X - bc.Bounds.Min.X
        ∨ height - 2 * offset < bc.Bounds.Max.Y - bc.Bounds.Min.Y) →
      ∃ r, scale2DCode impl bc width height offset = Except.ok r := by
    intro hs
    exact ⟨_, scale2DCode_machine_of_pos impl bc width height offset (by
      rw [hX, hY]; exact hpos.2 (by omega))⟩
  refine ⟨⟨?_, hfail⟩, ?_, hsucc⟩
  · intro he
    by_contra hs
    obtain ⟨r, hr⟩ := hsucc hs
    rw [he] at hr
    exact absurd hr (by simp)
  · intro hs r hr
    rw [hfail hs] at hr
    exact absurd hr (by simp)

/-- C3 (witness): a 10x10 symbol with `Scale(symbol, 4, 4, 2)` fails with the
too-small error, which names 10x10. -/
theorem scale2DCode_refuses_iff_witness :
    scale2DCode IntConv.amd64 (checker 2 10 10) 4 4 2
      = Except.error "can not scale barcode to an image smaller than 10x10" :=
  ((scale2DCode_refuses_iff IntConv.amd64 (checker 2 10 10) 4 4 2
      (by decide) (by decide) (by decide) (by decide) (by decide) (by decide) (by decide)
      (by decide)).1).2 (Or.inl (by decide))


/-! ## C16: the 2D factor and the largest integer that fits -/

/-- C16 (counterexample): for a 1x1 source, width and height
`9007199254740993 = 2^53 + 1` and offset 0, `float64(width)` is rounded to
`2^53`, so `scale2DCode` succeeds with the factor `2^53`, which is not
`min ⌊width / 1⌋ ⌊height / 1⌋ = 2^53 + 1`, and the factor plus 1 still fits. -/
theorem factor2D_rounds_down :
    ofInt 9007199254740993 = float64.fin 9007199254740992
    ∧ factor2D IntConv.amd64 9007199254740993 9007199254740993 0 1 1 = 9007199254740992
    ∧ (∃ r, scale2DCode IntConv.amd64 (checker 2 1 1) 9007199254740993 9007199254740993 0
        = Except.ok r)
    ∧ (9007199254740992 : Int)
        ≠ min ((9007199254740993 - 2 * 0) / 1) ((9007199254740993 - 2 * 0) / 1)
    ∧ ((9007199254740992 : Int) + 1) * 1 ≤ 9007199254740993 - 2 * 0 := by
  have h1 := ofInt_2_53_add_one
  have h2 := round_2_53
  have h3 := ofInt_one
  have hw : wrap (9007199254740993 - wrap (2 * 0)) = 9007199254740993 := by decide
  have hf : factor2D IntConv.amd64 9007199254740993 9007199254740993 0 1 1
      = 9007199254740992 := by
    unfold factor2D
    rw [hw, h1, h3]
    have hd : div (float64.fin 9007199254740992) (float64.fin 1)
        = float64.fin 9007199254740992 := by
      simp only [div, float64.div]
      rw [if_neg (by norm_num)]
      simp only [div_one]
      exact h2
    rw [hd]
    simp only [float64.Min, lt_self_iff_false, if_false, toInt]
    have hn : (9007199254740992 : ℚ).num = 9007199254740992 := rfl
    have hden : (9007199254740992 : ℚ).den = 1 := rfl
    rw [hn, hden]
    decide
  have hX : wrap ((checker 2 1 1).Bounds.Max.X - (checker 2 1 1).Bounds.Min.X) = 1 := by decide
  have hY : wrap ((checker 2 1 1).Bounds.Max.Y - (checker 2 1 1).Bounds.Min.Y) = 1 := by decide
  refine ⟨h1, hf, ⟨_, scale2DCode_machine_of_pos _ _ _ _ _ ?_⟩, by decide, by decide⟩
  rw [hX, hY, hf]
  decide


/-- The factor computed with exact quotients, when positive, is the largest
integer that fits both ways. -/
theorem factor2D_exact_largest (impl : IntConv) (width height offset ow oh : Int)
    (hw : 0 < ow) (hh : 0 < oh) (f : Int)
    (hf : f = barcode.factor2D impl width height offset ow oh) (hpos : 0 < f) :
    f = min ⌊((width - 2 * offset : Int) : ℚ) / ((ow : Int) : ℚ)⌋
          ⌊((height - 2 * offset : Int) : ℚ) / ((oh : Int) : ℚ)⌋
    ∧ f = min ((width - 2 * offset) / ow) ((height - 2 * offset) / oh)
    ∧ 1 ≤ f
    ∧ f * ow ≤ width - 2 * offset
    ∧ f * oh ≤ height - 2 * offset
    ∧ (width - 2 * offset < (f + 1) * ow ∨ height - 2 * offset < (f + 1) * oh)
    ∧ (∀ g : Int, g * ow ≤ width - 2 * offset → g * oh ≤ height - 2 * offset → g ≤ f) := by
  rw [hf] at hpos
  have hle := barcode.factor2D_mul_le impl width height offset _ _ hw hh hpos
  obtain ⟨ha, hb⟩ := (barcode.factor2D_pos_iff impl width height offset _ _ hw hh).1 hpos
  have heq := barcode.factor2D_eq impl width height offset _ _ hw.ne' hh.ne'
  rw [← hf] at hpos hle heq
  rw [floor_intCast_div _ _ hw, floor_intCast_div _ _ hh]
  generalize width - 2 * offset = a at *
  generalize height - 2 * offset = b at *
  have hfa : f ≤ a / ow := (Int.le_ediv_iff_mul_le hw).2 hle.1
  have hfb : f ≤ b / oh := (Int.le_ediv_iff_mul_le hh).2 hle.2
  have hmax : a / ow ≤ f ∨ b / oh ≤ f := by
    by_cases hc : (a : ℚ) / (ow : ℚ) < (b : ℚ) / (oh : ℚ)
    · rw [if_pos hc, Int.tdiv_eq_ediv (by omega) hw.le] at heq
      left; omega
    · rw [if_neg hc, Int.tdiv_eq_ediv (by omega) hh.le] at heq
      right; omega
  have hmin : f = min (a / ow) (b / oh) := by
    rcases hmax with h1 | h1
    · rw [min_eq_left (by omega)]; omega
    · rw [min_eq_right (by omega)]; omega
  have hsucc : a < (f + 1) * ow ∨ b < (f + 1) * oh := by
    rcases hmax with h1 | h1
    · left
      have := Int.lt_ediv_add_one_mul_self a hw
      have e : f = a / ow := by omega
      rw [e]; exact this
    · right
      have := Int.lt_ediv_add_one_mul_self b hh
      have e : f = b / oh := by omega
      rw [e]; exact this
  refine ⟨hmin, hmin, by omega, hle.1, hle.2, hsucc, ?_⟩
  intro g hg1 hg2
  have g1 : g ≤ a / ow := (Int.le_ediv_iff_mul_le hw).2 hg1
  have g2 : g ≤ b / oh := (Int.le_ediv_iff_mul_le hh).2 hg2
  rcases hmax with h1 | h1 <;> omega

/-- C16 (amended): for every successful 2D scale with `0 < orgWidth < 2^53`,
`0 < orgHeight < 2^53` and `width - 2 * offset`, `height - 2 * offset`
between `-2^53` and `2^53`, the factor `f` used for sampling is
`min ⌊(width - 2 * offset) / orgWidth⌋ ⌊(height - 2 * offset) / orgHeight⌋`;
it is at least 1, `f * orgWidth ≤ width - 2 * offset` and
`f * orgHeight ≤ height - 2 * offset`, `f + 1` violates one of the two
inequalities, and every integer that satisfies both is at most `f`. -/
theorem factor2D_largest_below_2_53 (impl : IntConv) (bc : Barcode)
    (width height offset : Int) (r : Barcode)
    (h : scale2DCode impl bc width height offset = Except.ok r)
    (hw : 0 < bc.Bounds.Max.X - bc.Bounds.Min.X)
    (hw2 : bc.Bounds.Max.X - bc.Bounds.Min.X < 9007199254740992)
    (hh : 0 < bc.Bounds.Max.Y - bc.Bounds.Min.Y)
    (hh2 : bc.Bounds.Max.Y - bc.Bounds.Min.Y < 9007199254740992)
    (ha1 : -9007199254740992 < width - 2 * offset)
    (ha2 : width - 2 * offset < 9007199254740992)
    (hb1 : -9007199254740992 < height - 2 * offset)
    (hb2 : height - 2 * offset < 9007199254740992)
    (f : Int)
    (hf : f = factor2D impl width height offset (wrap (bc.Bounds.Max.X - bc.Bounds.Min.X))
          (wrap (bc.Bounds.Max.Y - bc.Bounds.Min.Y))) :
    f = min ⌊((width - 2 * offset : Int) : ℚ) / ((bc.Bounds.Max.X - bc.Bounds.Min.X : Int) : ℚ)⌋
          ⌊((height - 2 * offset : Int) : ℚ) / ((bc.Bounds.Max.Y - bc.Bounds.Min.Y : Int) : ℚ)⌋
    ∧ f = min ((width - 2 * offset) / (bc.Bounds.Max.X - bc.Bounds.Min.X))
          ((height - 2 * offset) / (bc.Bounds.Max.Y - bc.Bounds.Min.Y))
    ∧ 1 ≤ f
    ∧ f * (bc.Bounds.Max.X - bc.Bounds.Min.X) ≤ width - 2 * offset
    ∧ f * (bc.Bounds.Max.Y - bc.Bounds.Min.Y) ≤ height - 2 * offset
    ∧ (width - 2 * offset < (f + 1) * (bc.Bounds.Max.X - bc.Bounds.Min.X)
        ∨ height - 2 * offset < (f + 1) * (bc.Bounds.Max.Y - bc.Bounds.Min.Y))
    ∧ (∀ g : Int, g * (bc.Bounds.Max.X - bc.Bounds.Min.X) ≤ width - 2 * offset →
        g * (bc.Bounds.Max.Y - bc.Bounds.Min.Y) ≤ height - 2 * offset → g ≤ f)
    ∧ (∀ x y : Int, r.At x y
        = (sample2D offset f (bc.Bounds.Max.X - bc.Bounds.Min.X)
            (bc.Bounds.Max.Y - bc.Bounds.Min.Y) x y).color bc) := by
  have hX : wrap (bc.Bounds.Max.X - bc.Bounds.Min.X) = bc.Bounds.Max.X - bc.Bounds.Min.X :=
    wrap_of_range _ (by unfold MinInt64; omega) (by unfold MaxInt64; omega)
  have hY : wrap (bc.Bounds.Max.Y - bc.Bounds.Min.Y) = bc.Bounds.Max.Y - bc.Bounds.Min.Y :=
    wrap_of_range _ (by unfold MinInt64; omega) (by unfold MaxInt64; omega)
  obtain ⟨hpos, hr⟩ := scale2DCode_machine_ok impl bc width height offset r h
  rw [← hf] at hpos hr
  rw [hX, hY] at hf hr
  rw [factor2D_eq_exact impl width height offset _ _ hw hw2 hh hh2 ha1 ha2 hb1 hb2] at hf
  obtain ⟨c1, c2, c3, c4, c5, c6, c7⟩ :=
    factor2D_exact_largest impl width height offset _ _ hw hh f hf hpos
  refine ⟨c1, c2, c3, c4, c5, c6, c7, ?_⟩
  intro x y
  rw [hr, newScaledBC_At]

/-- C16 (witness): 10x10 source, width = height = 44, offset 2 gives `f = 4`. -/
theorem factor2D_largest_below_2_53_witness :
    (∃ r, scale2DCode IntConv.amd64 (checker 2 10 10) 44 44 2 = Except.ok r)
    ∧ factor2D IntConv.amd64 44 44 2 10 10 = 4
    ∧ (4 : Int) = min ((44 - 2 * 2) / (10 - 0)) ((44 - 2 * 2) / (10 - 0)) := by
  have hf : factor2D IntConv.amd64 44 44 2 10 10 = 4 := by
    rw [factor2D_eq_exact IntConv.amd64 44 44 2 10 10 (by decide) (by decide) (by decide)
      (by decide) (by decide) (by decide) (by decide) (by decide)]
    exact factor2D_checker _
  have hok := scale2DCode_machine_of_pos IntConv.amd64 (checker 2 10 10) 44 44 2 (by
    rw [show wrap ((checker 2 10 10).Bounds.Max.X - (checker 2 10 10).Bounds.Min.X) = 10
          from by decide,
      show wrap ((checker 2 10 10).Bounds.Max.Y - (checker 2 10 10).Bounds.Min.Y) = 10
          from by decide, hf]
    decide)
  exact ⟨⟨_, hok⟩, hf,
    (factor2D_largest_below_2_53 IntConv.amd64 (checker 2 10 10) 44 44 2 _ hok
      (by decide) (by decide) (by decide) (by decide) (by decide) (by decide) (by decide)
      (by decide) 4 hf.symm).2.1⟩


/-! ### The machine `scale1DCode` -/

theorem scale1DCode_machine_of_not_le (impl : IntConv) (bc : Barcode)
    (width height offset : Int)
    (h : float64.le (factor1D width offset (wrap (bc.Bounds.Max.X - bc.Bounds.Min.X)))
          (float64.fin 0) = false) :
    scale1DCode impl bc width height offset
      = Except.ok (newScaledBC bc
        (fun x y => (sample1D impl offset
          (factor1D width offset (wrap (bc.Bounds.Max.X - bc.Bounds.Min.X)))
          (wrap (bc.Bounds.Max.X - bc.Bounds.Min.X)) x y).color bc)
        (image.Rect 0 0 width height)) := by
  simp only [scale1DCode]
  rw [if_neg (by simp [h])]

theorem scale1DCode_machine_ok (impl : IntConv) (bc : Barcode) (width height offset : Int)
    (r : Barcode) (h : scale1DCode impl bc width height offset = Except.ok r) :
    float64.le (factor1D width offset (wrap (bc.Bounds.Max.X - bc.Bounds.Min.X)))
        (float64.fin 0) = false
    ∧ r = newScaledBC bc
        (fun x y => (sample1D impl offset
          (factor1D width offset (wrap (bc.Bounds.Max.X - bc.Bounds.Min.X)))
          (wrap (bc.Bounds.Max.X - bc.Bounds.Min.X)) x y).color bc)
        (image.Rect 0 0 width height) := by
  simp only [scale1DCode] at h
  split at h
  · exact absurd h (by simp)
  · rename_i hf
    exact ⟨by simpa using hf, (Except.ok.inj h).symm⟩

/-! ### An integer factor is exact -/

/-- When `width - 2 * offset` is `c * orgWidth`, all below `2^53`, the 1D
factor is the integer `c`, without rounding. -/
theorem factor1D_integer (width offset orgWidth c : Int)
    (hw : 0 < orgWidth) (hw2 : orgWidth < 9007199254740992)
    (hc1 : -9007199254740992 < c) (hc2 : c < 9007199254740992)
    (ha : width - 2 * offset = c * orgWidth)
    (ha1 : -9007199254740992 < c * orgWidth) (ha2 : c * orgWidth < 9007199254740992) :
    factor1D width offset orgWidth = float64.fin (c : ℚ) := by
  have hw' : (orgWidth : ℚ) ≠ 0 := by exact_mod_cast hw.ne'
  have wa : wrap (width - wrap (2 * offset)) = c * orgWidth := by
    rw [wrap_sub_wrap, ha, wrap_of_range _ (by unfold MinInt64; omega) (by unfold MaxInt64; omega)]
  unfold factor1D
  rw [wa, ofInt_exact _ ha1 ha2, ofInt_exact _ (by omega) hw2]
  simp only [div, float64.div, if_neg hw']
  have e : ((c * orgWidth : Int) : ℚ) / (orgWidth : ℚ) = (c : ℚ) := by
    push_cast
    field_simp
  rw [e]
  have := ofInt_exact c hc1 hc2
  unfold ofInt at this
  exact this

/-- With an integer factor `c > 0`, the source column of the destination
column `x` is `(x - offset) / c`, as long as `x - offset` is below `2^53`. -/
theorem toInt_div_integer (impl : IntConv) (k c : Int)
    (hk1 : -9007199254740992 < k) (hk2 : k < 9007199254740992)
    (hc : 0 < c) (hc2 : c < 9007199254740992) :
    toInt impl (div (ofInt (wrap k)) (float64.fin (c : ℚ))) = Int.tdiv k c := by
  rw [wrap_of_range k (by unfold MinInt64; omega) (by unfold MaxInt64; omega)]
  obtain ⟨r, e, t⟩ := div_ofInt k c hk1 hk2 hc hc2
  rw [ofInt_exact c (by omega) hc2] at e
  rw [e]
  have q := abs_tdiv_le k c hc
  rw [abs_le] at q
  have hk : |k| < 9007199254740992 := abs_lt.2 ⟨hk1, hk2⟩
  exact toInt_of_trunc impl r _ t (by unfold MinInt64; omega) (by unfold MaxInt64; omega)

theorem sample1D_integer (impl : IntConv) (offset c orgWidth x y : Int)
    (hc : 0 < c) (hc2 : c < 9007199254740992)
    (hx : offset ≤ x) (hx2 : x - offset < 9007199254740992) :
    sample1D impl offset (float64.fin (c : ℚ)) orgWidth x y
      = if orgWidth ≤ (x - offset) / c then Sample.white
        else Sample.source ((x - offset) / c) 0 := by
  simp only [sample1D]
  rw [if_neg (by omega), toInt_div_integer impl (x - offset) c (by omega) hx2 hc hc2,
    Int.tdiv_eq_ediv (by omega) hc.le]

/-! ### The machine `sample2D` without overflow -/

theorem sample2D_machine_eq (offset factor orgWidth orgHeight x y : Int)
    (hx1 : MinInt64 ≤ x - offset) (hx2 : x - offset ≤ MaxInt64)
    (hy1 : MinInt64 ≤ y - offset) (hy2 : y - offset ≤ MaxInt64) :
    sample2D offset factor orgWidth orgHeight x y
      = barcode.sample2D offset factor orgWidth orgHeight x y := by
  simp only [sample2D, barcode.sample2D, wrap_of_range _ hx1 hx2, wrap_of_range _ hy1 hy2]

/-! ### Two roundings at `2^63` -/

/-- The conversion `float64(2^63 - 1)` gives `2^63`. -/
theorem ofInt_MaxInt64 : ofInt 9223372036854775807 = float64.fin 9223372036854775808 := by
  unfold ofInt
  have h := round_eval 9223372036854775807 62 9007199254740992 (by norm_num) (by norm_num)
    (by norm_num) (by norm_num)
    (by
      rw [roundHalfEven_up _ 9007199254740991 (by norm_num) (by norm_num)]
      decide)
    (by norm_num)
  have e : ((9223372036854775807 : Int) : ℚ) = 9223372036854775807 := by norm_num
  rw [e, h]
  norm_num

theorem round_2_63 : round (9223372036854775808 : ℚ) = float64.fin 9223372036854775808 := by
  have h := round_eval 9223372036854775808 63 4503599627370496 (by norm_num) (by norm_num)
    (by norm_num) (by norm_num)
    (roundHalfEven_down _ 4503599627370496 (by norm_num) (by norm_num))
    (by norm_num)
  rw [h]
  norm_num

/-- On the amd64 port `int(2^63)` is `-2^63`. -/
theorem toInt_2_63_amd64 :
    toInt IntConv.amd64 (float64.fin 9223372036854775808) = -9223372036854775808 := by
  simp only [toInt]
  have hn : (9223372036854775808 : ℚ).num = 9223372036854775808 := rfl
  have hden : (9223372036854775808 : ℚ).den = 1 := rfl
  rw [hn, hden]
  decide

/-! ## C19: identity scaling -/

/-- C19 (counterexample): `Scale` of a symbol of 3 dimensions with bounds
(0,0)-(10,10) to width 10, height 10 and offset 0 fails.  And `Scale` of the
1D checker with bounds (0,0)-(10,1) to width 10, height 1, offset 0 succeeds,
but at `x = 9223372036854775807 ≥ 10` the result is not white: `float64(x)` is
`2^63`, which no `int` represents, the amd64 port converts it to
`-9223372036854775808 < orgWidth` and the source is read there. -/
theorem identity_fails :
    Scale IntConv.amd64 (checker 3 10 10) 10 10 0 = Except.error unsupportedFormat
    ∧ ∃ r, Scale IntConv.amd64 (checker 1 10 1) 10 1 0 = Except.ok r
        ∧ r.At 9223372036854775807 0 = (checker 1 10 1).At (-9223372036854775808) 0
        ∧ r.At 9223372036854775807 0 ≠ color.White := by
  have hX : wrap ((checker 1 10 1).Bounds.Max.X - (checker 1 10 1).Bounds.Min.X) = 10 := by
    decide
  have hf : factor1D 10 0 10 = float64.fin 1 := by
    have := factor1D_integer 10 0 10 1 (by decide) (by decide) (by decide) (by decide)
      (by decide) (by decide) (by decide)
    simpa using this
  have hle : float64.le (factor1D 10 0
      (wrap ((checker 1 10 1).Bounds.Max.X - (checker 1 10 1).Bounds.Min.X)))
      (float64.fin 0) = false := by
    rw [hX, hf]
    simp [float64.le]
  have hs : sample1D IntConv.amd64 0 (float64.fin 1) 10 9223372036854775807 0
      = Sample.source (-9223372036854775808) 0 := by
    have hd : div (float64.fin 9223372036854775808) (float64.fin 1)
        = float64.fin 9223372036854775808 := by
      simp only [div, float64.div]
      rw [if_neg (by norm_num)]
      simp only [div_one]
      exact round_2_63
    simp only [sample1D]
    rw [if_neg (by decide),
      show wrap (9223372036854775807 - 0) = 9223372036854775807 from by decide,
      ofInt_MaxInt64, hd, toInt_2_63_amd64, if_neg (by decide)]
  constructor
  · unfold Scale
    rw [if_neg (by decide), if_neg (by decide)]
  · have hS : Scale IntConv.amd64 (checker 1 10 1) 10 1 0
        = scale1DCode IntConv.amd64 (checker 1 10 1) 10 1 0 := by
      unfold Scale
      rw [if_pos (by decide)]
    rw [hS, scale1DCode_machine_of_not_le _ _ _ _ _ hle]
    refine ⟨_, rfl, ?_, ?_⟩
    · rw [newScaledBC_At, hX, hf, hs]
      rfl
    · rw [newScaledBC_At, hX, hf, hs]
      decide

/-- C19 (amended): for every 2D symbol whose bounds are `(0,0)-(W,H)` with
`0 < W < 2^53` and `0 < H < 2^53`, `Scale(symbol, W, H, 0)` succeeds, the
result has the bounds of the symbol, `At(x, y)` of the result is the symbol's
`At(x, y)` for `0 ≤ x < W`, `0 ≤ y < H`, and white for every `int`
`x ≥ W`.  For every 1D symbol whose bounds are `(0,0)-(W,H)` with
`0 < W < 2^53` and `0 < H`, `Scale(symbol, W, H, 0)` succeeds, the result has
the bounds of the symbol, `At(x, y)` of the result is the symbol's `At(x, 0)`
for `0 ≤ x < W` and every `y`, and white for every `x` with `W ≤ x < 2^53`. -/
theorem Scale_identity_below_2_53 (impl : IntConv) (bc : Barcode) (W H : Int)
    (hb : bc.Bounds = { Min := { X := 0, Y := 0 }, Max := { X := W, Y := H } })
    (hW : 0 < W) (hW2 : W < 9007199254740992) (hH : 0 < H) :
    (bc.Metadata.Dimensions = 2 → H < 9007199254740992 →
      ∃ r, Scale impl bc W H 0 = Except.ok r
        ∧ r.Bounds = bc.Bounds
        ∧ (∀ x y : Int, 0 ≤ x → x < W → 0 ≤ y → y < H → r.At x y = bc.At x y)
        ∧ (∀ x y : Int, W ≤ x → x ≤ MaxInt64 → r.At x y = color.White))
    ∧ (bc.Metadata.Dimensions = 1 →
      ∃ r, Scale impl bc W H 0 = Except.ok r
        ∧ r.Bounds = bc.Bounds
        ∧ (∀ x y : Int, 0 ≤ x → x < W → r.At x y = bc.At x 0)
        ∧ (∀ x y : Int, W ≤ x → x < 9007199254740992 → r.At x y = color.White)) := by
  have hX0 : bc.Bounds.Max.X - bc.Bounds.Min.X = W := by rw [hb]; simp
  have hY0 : bc.Bounds.Max.Y - bc.Bounds.Min.Y = H := by rw [hb]; simp
  have hX : wrap (bc.Bounds.Max.X - bc.Bounds.Min.X) = W := by
    rw [hX0, wrap_of_range _ (by unfold MinInt64; omega) (by unfold MaxInt64; omega)]
  have hrect : image.Rect 0 0 W H = bc.Bounds := by
    rw [hb, Rect_of_nonneg _ _ hW.le hH.le]
  constructor
  · intro hd hH2
    have hY : wrap (bc.Bounds.Max.Y - bc.Bounds.Min.Y) = H := by
      rw [hY0, wrap_of_range _ (by unfold MinInt64; omega) (by unfold MaxInt64; omega)]
    have hS : Scale impl bc W H 0 = scale2DCode impl bc W H 0 := by
      unfold Scale
      rw [if_neg (by omega), if_pos hd]
    have hf : factor2D impl W H 0 (wrap (bc.Bounds.Max.X - bc.Bounds.Min.X))
        (wrap (bc.Bounds.Max.Y - bc.Bounds.Min.Y)) = 1 := by
      rw [hX, hY, factor2D_eq_exact impl W H 0 W H hW hW2 hH hH2 (by omega) (by omega)
        (by omega) (by omega)]
      simpa using barcode.factor2D_multiple impl 1 W H hW hH
    have hok := scale2DCode_machine_of_pos impl bc W H 0 (by rw [hf]; decide)
    rw [hS]
    refine ⟨_, hok, by rw [newScaledBC_Bounds, hrect], ?_, ?_⟩
    · intro x y hx0 hx hy0 hy
      rw [newScaledBC_At, hf, hX, hY]
      simp only [sample2D, sub_zero,
        wrap_of_range x (by unfold MinInt64; omega) (by unfold MaxInt64; omega),
        wrap_of_range y (by unfold MinInt64; omega) (by unfold MaxInt64; omega), Int.tdiv_one]
      rw [if_neg (by omega), if_neg (by omega)]
      rfl
    · intro x y hx hx2
      rw [newScaledBC_At, hf, hX, hY]
      simp only [sample2D, sub_zero,
        wrap_of_range x (by unfold MinInt64; omega) hx2, Int.tdiv_one]
      by_cases hneg : x < 0 ∨ y < 0
      · rw [if_pos hneg]; rfl
      · rw [if_neg hneg, if_pos (Or.inl hx)]; rfl
  · intro hd
    have hS : Scale impl bc W H 0 = scale1DCode impl bc W H 0 := by
      unfold Scale
      rw [if_pos hd]
    have hf : factor1D W 0 (wrap (bc.Bounds.Max.X - bc.Bounds.Min.X)) = float64.fin 1 := by
      rw [hX]
      have := factor1D_integer W 0 W 1 hW hW2 (by decide) (by decide) (by ring) (by omega)
        (by omega)
      simpa using this
    have hle : float64.le (factor1D W 0 (wrap (bc.Bounds.Max.X - bc.Bounds.Min.X)))
        (float64.fin 0) = false := by
      rw [hf]
      simp [float64.le]
    have hok := scale1DCode_machine_of_not_le impl bc W H 0 hle
    have hs : ∀ x y : Int, 0 ≤ x → x < 9007199254740992 →
        sample1D impl 0 (float64.fin 1) W x y
          = if W ≤ x then Sample.white else Sample.source x 0 := by
      intro x y hx0 hx2
      have := sample1D_integer impl 0 1 W x y (by decide) (by decide) hx0 (by omega)
      simpa using this
    rw [hS]
    refine ⟨_, hok, by rw [newScaledBC_Bounds, hrect], ?_, ?_⟩
    · intro x y hx0 hx
      rw [newScaledBC_At, hf, hX, hs x y hx0 (by omega), if_neg (by omega)]
      rfl
    · intro x y hx hx2
      rw [newScaledBC_At, hf, hX, hs x y (by omega) hx2, if_pos hx]
      rfl

/-- C19 (witness): the 2D checker 10x10 scaled to 10x10 with offset 0, and the
1D checker of width 10 scaled to 10x1. -/
theorem Scale_identity_below_2_53_witness :
    (∃ r, Scale IntConv.amd64 (checker 2 10 10) 10 10 0 = Except.ok r
        ∧ r.Bounds = (checker 2 10 10).Bounds
        ∧ (∀ x y : Int, 0 ≤ x → x < 10 → 0 ≤ y → y < 10 →
            r.At x y = (checker 2 10 10).At x y)
        ∧ (∀ x y : Int, 10 ≤ x → x ≤ MaxInt64 → r.At x y = color.White))
    ∧ (∃ r, Scale IntConv.amd64 (checker 1 10 1) 10 1 0 = Except.ok r
        ∧ r.Bounds = (checker 1 10 1).Bounds
        ∧ (∀ x y : Int, 0 ≤ x → x < 10 → r.At x y = (checker 1 10 1).At x 0)
        ∧ (∀ x y : Int, 10 ≤ x → x < 9007199254740992 → r.At x y = color.White)) :=
  ⟨(Scale_identity_below_2_53 IntConv.amd64 (checker 2 10 10) 10 10 rfl (by decide)
      (by decide) (by decide)).1 (by decide) (by decide),
   (Scale_identity_below_2_53 IntConv.amd64 (checker 1 10 1) 10 1 rfl (by decide)
      (by decide) (by decide)).2 (by decide)⟩


/-! ### The relative error of a rounding -/

theorem round_rel (q : ℚ) (h1 : (2 : ℚ) ^ (-1022 : Int) ≤ q) (h2 : q < (2 : ℚ) ^ (53 : Int)) :
    ∃ r : ℚ, round q = float64.fin r
      ∧ q * (1 - 1 / 9007199254740992) ≤ r ∧ r ≤ q * (1 + 1 / 9007199254740992) := by
  have hq : 0 < q := lt_of_lt_of_le (by positivity) h1
  obtain ⟨t, b1, -, r1, -⟩ := round_small q h1 h2
  have p52n : (2 : ℚ) ^ (52 : ℕ) = 4503599627370496 := by norm_num
  rw [p52n] at b1
  have hT : (0 : ℚ) < (2 : ℚ) ^ t := by positivity
  have hm := abs_roundHalfEven_sub_le (q * (2 : ℚ) ^ t)
  rw [abs_le] at hm
  obtain ⟨m1, m2⟩ := hm
  generalize (roundHalfEven (q * (2 : ℚ) ^ t) : ℚ) = m at *
  generalize (2 : ℚ) ^ t = T at *
  refine ⟨m / T, r1, ?_, ?_⟩
  · rw [le_div_iff₀ hT]
    nlinarith
  · rw [div_le_iff₀ hT]
    nlinarith

/-- Two roundings in a row: a quotient by a rounded quotient. -/
theorem two_roundings (F f y y2 E k : ℚ) (hF : 0 < F) (hk : 0 < k)
    (h1 : F * (1 - 1 / 9007199254740992) ≤ f) (h2 : f ≤ F * (1 + 1 / 9007199254740992))
    (hy : y * f = k) (hE : E * F = k)
    (h3 : y * (1 - 1 / 9007199254740992) ≤ y2) (h4 : y2 ≤ y * (1 + 1 / 9007199254740992)) :
    E * (1 - 3 / 9007199254740992) ≤ y2 ∧ y2 ≤ E * (1 + 3 / 9007199254740992) := by
  have hf : 0 < f := lt_of_lt_of_le (by nlinarith) h1
  have hy0 : 0 < y := by
    by_contra hc
    push_neg at hc
    nlinarith
  have hE0 : 0 < E := by
    by_contra hc
    push_neg at hc
    nlinarith
  have A : y * (1 - 1 / 9007199254740992) ≤ E := by
    have := mul_le_mul_of_nonneg_left h1 hy0.le
    by_contra hc
    push_neg at hc
    nlinarith
  have B : E ≤ y * (1 + 1 / 9007199254740992) := by
    have := mul_le_mul_of_nonneg_left h2 hy0.le
    by_contra hc
    push_neg at hc
    nlinarith
  constructor
  · nlinarith
  · nlinarith


/-- The rounded factor of `scale1DCode` is within one part in `2^53` of the
exact quotient. -/
theorem factor_rel (a ow : Int) (ha0 : 0 < a) (ha : a < 33554432)
    (hw0 : 0 < ow) (hw : ow < 33554432) :
    ∃ f : ℚ, div (ofInt a) (ofInt ow) = float64.fin f
      ∧ (a : ℚ) / (ow : ℚ) * (1 - 1 / 9007199254740992) ≤ f
      ∧ f ≤ (a : ℚ) / (ow : ℚ) * (1 + 1 / 9007199254740992) := by
  have ha' : (1 : ℚ) ≤ (a : ℚ) := by exact_mod_cast (show (1 : Int) ≤ a by omega)
  have hw' : (1 : ℚ) ≤ (ow : ℚ) := by exact_mod_cast (show (1 : Int) ≤ ow by omega)
  have ha2 : (a : ℚ) < 33554432 := by exact_mod_cast ha
  have hw2 : (ow : ℚ) < 33554432 := by exact_mod_cast hw
  have hne : (ow : ℚ) ≠ 0 := by linarith
  rw [ofInt_exact a (by omega) (by omega), ofInt_exact ow (by omega) (by omega)]
  simp only [div, float64.div, if_neg hne]
  have h1 : (2 : ℚ) ^ (-1022 : Int) ≤ (a : ℚ) / (ow : ℚ) := by
    have h53 : (2 : ℚ) ^ (-1022 : Int) ≤ (2 : ℚ) ^ (-25 : Int) :=
      zpow_le_zpow_right₀ (by norm_num) (by norm_num)
    have h53' : (2 : ℚ) ^ (-25 : Int) = 1 / 33554432 := by norm_num
    rw [h53'] at h53
    have : (1 : ℚ) / 33554432 ≤ (a : ℚ) / (ow : ℚ) := by
      rw [le_div_iff₀ (by linarith)]
      nlinarith
    linarith
  have h2 : (a : ℚ) / (ow : ℚ) < (2 : ℚ) ^ (53 : Int) := by
    have p53 : (2 : ℚ) ^ (53 : Int) = 9007199254740992 := by norm_num
    rw [p53, div_lt_iff₀ (by linarith)]
    nlinarith
  obtain ⟨r, e, b1, b2⟩ := round_rel _ h1 h2
  exact ⟨r, e, b1, b2⟩

/-- Error of the index quotient: with an integer `k` and a factor `f` within one rounding
of `a / ow`, the rounded `k / f` times `a` is within `1 / 2` of `k * ow`. -/
theorem index_bounds (k a ow : Int) (f : ℚ)
    (hk0 : 0 < k) (hk : k < 33554432) (ha0 : 0 < a) (ha : a < 33554432)
    (hw0 : 0 < ow) (hw : ow < 33554432)
    (hf1 : (a : ℚ) / (ow : ℚ) * (1 - 1 / 9007199254740992) ≤ f)
    (hf2 : f ≤ (a : ℚ) / (ow : ℚ) * (1 + 1 / 9007199254740992)) :
    ∃ y2 : ℚ, div (ofInt k) (float64.fin f) = float64.fin y2
      ∧ ((k * ow : Int) : ℚ) - 1 / 2 < y2 * (a : ℚ)
      ∧ y2 * (a : ℚ) < ((k * ow : Int) : ℚ) + 1 / 2 := by
  have hk' : (1 : ℚ) ≤ (k : ℚ) := by exact_mod_cast (show (1 : Int) ≤ k by omega)
  have ha' : (1 : ℚ) ≤ (a : ℚ) := by exact_mod_cast (show (1 : Int) ≤ a by omega)
  have hw' : (1 : ℚ) ≤ (ow : ℚ) := by exact_mod_cast (show (1 : Int) ≤ ow by omega)
  have hk2 : (k : ℚ) < 33554432 := by exact_mod_cast hk
  have ha2 : (a : ℚ) < 33554432 := by exact_mod_cast ha
  have hw2 : (ow : ℚ) < 33554432 := by exact_mod_cast hw
  have ha0q : (0 : ℚ) ≤ (a : ℚ) := le_trans zero_le_one ha'
  have hF : 0 < (a : ℚ) / (ow : ℚ) :=
    div_pos (lt_of_lt_of_le zero_lt_one ha') (lt_of_lt_of_le zero_lt_one hw')
  have hFlo : (1 : ℚ) / 33554432 ≤ (a : ℚ) / (ow : ℚ) := by
    rw [le_div_iff₀ (lt_of_lt_of_le zero_lt_one hw')]
    linarith only [ha', hw2]
  have hFhi : (a : ℚ) / (ow : ℚ) < 33554432 := by
    rw [div_lt_iff₀ (lt_of_lt_of_le zero_lt_one hw')]
    nlinarith only [ha2, hw']
  have hflo : (1 : ℚ) / 67108864 ≤ f := by linarith only [hFlo, hf1]
  have hfhi : f ≤ 67108864 := by linarith only [hFhi, hf2]
  have hf0 : 0 < f := lt_of_lt_of_le (by norm_num) hflo
  -- the exact quotient that is rounded
  have hy : (k : ℚ) / f * f = (k : ℚ) := div_mul_cancel₀ _ hf0.ne'
  have hE : (k : ℚ) * (ow : ℚ) / (a : ℚ) * ((a : ℚ) / (ow : ℚ)) = (k : ℚ) := by
    have h1 : (a : ℚ) ≠ 0 := (lt_of_lt_of_le zero_lt_one ha').ne'
    have h2 : (ow : ℚ) ≠ 0 := (lt_of_lt_of_le zero_lt_one hw').ne'
    field_simp
  have hEa : (k : ℚ) * (ow : ℚ) / (a : ℚ) * (a : ℚ) = (k : ℚ) * (ow : ℚ) :=
    div_mul_cancel₀ _ (lt_of_lt_of_le zero_lt_one ha').ne'
  have hkow : (k : ℚ) * (ow : ℚ) < 1125899906842624 := by
    nlinarith only [hk', hk2, hw', hw2]
  have hkow0 : (0 : ℚ) < (k : ℚ) * (ow : ℚ) :=
    mul_pos (lt_of_lt_of_le zero_lt_one hk') (lt_of_lt_of_le zero_lt_one hw')
  have hq1 : (1 : ℚ) / 67108864 ≤ (k : ℚ) / f := by
    rw [le_div_iff₀ hf0]
    linarith only [hfhi, hk']
  have hq2 : (k : ℚ) / f < 9007199254740992 := by
    rw [div_lt_iff₀ hf0]
    linarith only [hflo, hk2]
  have h1y : (2 : ℚ) ^ (-1022 : Int) ≤ (k : ℚ) / f := by
    have h53 : (2 : ℚ) ^ (-1022 : Int) ≤ (2 : ℚ) ^ (-26 : Int) :=
      zpow_le_zpow_right₀ (by norm_num) (by norm_num)
    have h53' : (2 : ℚ) ^ (-26 : Int) = 1 / 67108864 := by norm_num
    rw [h53'] at h53
    exact le_trans h53 hq1
  have h2y : (k : ℚ) / f < (2 : ℚ) ^ (53 : Int) := by
    have p53 : (2 : ℚ) ^ (53 : Int) = 9007199254740992 := by norm_num
    rw [p53]
    exact hq2
  obtain ⟨y2, e, b1, b2⟩ := round_rel _ h1y h2y
  clear h1y h2y
  have hdiv : div (ofInt k) (float64.fin f) = float64.fin y2 := by
    rw [ofInt_exact k (by omega) (by omega)]
    simp only [div, float64.div, if_neg hf0.ne']
    exact e
  obtain ⟨c1, c2⟩ := two_roundings _ f _ y2 ((k : ℚ) * (ow : ℚ) / (a : ℚ)) (k : ℚ) hF
    (lt_of_lt_of_le zero_lt_one hk') hf1 hf2 hy hE b1 b2
  have hN : ((k * ow : Int) : ℚ) = (k : ℚ) * (ow : ℚ) := by push_cast; ring
  refine ⟨y2, hdiv, ?_, ?_⟩
  · have h := mul_le_mul_of_nonneg_right c1 ha0q
    have e3 : (k : ℚ) * (ow : ℚ) / (a : ℚ) * (1 - 3 / 9007199254740992) * (a : ℚ)
        = (k : ℚ) * (ow : ℚ) * (1 - 3 / 9007199254740992) := by
      rw [mul_right_comm, hEa]
    rw [e3] at h
    rw [hN]
    linarith only [h, hkow, hkow0]
  · have h := mul_le_mul_of_nonneg_right c2 ha0q
    have e3 : (k : ℚ) * (ow : ℚ) / (a : ℚ) * (1 + 3 / 9007199254740992) * (a : ℚ)
        = (k : ℚ) * (ow : ℚ) * (1 + 3 / 9007199254740992) := by
      rw [mul_right_comm, hEa]
    rw [e3] at h
    rw [hN]
    linarith only [h, hkow, hkow0]

/-- Truncation of a value whose product with `a` is within `1 / 2` of the integer `N`:
it is `N / a` when `a` does not divide `N`, and `N / a` or one less when it does. -/
theorem index_of_bounds (impl : IntConv) (N a : Int) (y2 : ℚ)
    (hN0 : 0 < N) (hNlt : N < 1125899906842624) (ha0 : 0 < a)
    (d1 : (N : ℚ) - 1 / 2 < y2 * (a : ℚ)) (d2 : y2 * (a : ℚ) < (N : ℚ) + 1 / 2) :
    (N % a ≠ 0 → toInt impl (float64.fin y2) = N / a)
    ∧ (N % a = 0 →
        toInt impl (float64.fin y2) = N / a ∨ toInt impl (float64.fin y2) = N / a - 1) := by
  have ha0q : (0 : ℚ) ≤ (a : ℚ) := by exact_mod_cast ha0.le
  have hdm : a * (N / a) + N % a = N := Int.ediv_add_emod N a
  have hrem0 : 0 ≤ N % a := Int.emod_nonneg _ ha0.ne'
  have hrem1 : N % a < a := Int.emod_lt_of_pos _ ha0
  have hn0 : 0 ≤ N / a := Int.ediv_nonneg hN0.le ha0.le
  have hnle : N / a ≤ N := Int.ediv_le_self a hN0.le
  have hdmq : (a : ℚ) * ((N / a : Int) : ℚ) + ((N % a : Int) : ℚ) = (N : ℚ) := by
    exact_mod_cast hdm
  have hremq0 : (0 : ℚ) ≤ ((N % a : Int) : ℚ) := by exact_mod_cast hrem0
  have hremq1 : ((N % a : Int) : ℚ) + 1 ≤ (a : ℚ) := by
    exact_mod_cast (show N % a + 1 ≤ a by omega)
  constructor
  · intro hrem
    have hremq : (1 : ℚ) ≤ ((N % a : Int) : ℚ) := by
      exact_mod_cast (show 1 ≤ N % a by omega)
    apply toInt_of_trunc impl y2 _ _ (by unfold MinInt64; omega) (by unfold MaxInt64; omega)
    apply trunc_of_mem y2 _ hn0
    · by_contra hc
      push_neg at hc
      have h := mul_le_mul_of_nonneg_right hc.le ha0q
      linarith only [h, d1, hdmq, hremq]
    · by_contra hc
      push_neg at hc
      have h := mul_le_mul_of_nonneg_right hc ha0q
      linarith only [h, d2, hdmq, hremq1]
  · intro hrem
    have hremq : ((N % a : Int) : ℚ) = 0 := by exact_mod_cast hrem
    have hn1 : 1 ≤ N / a := by
      by_contra hc
      have h0 : N / a = 0 := by omega
      rw [h0, hrem] at hdm
      omega
    have ha1 : (1 : ℚ) ≤ (a : ℚ) := by exact_mod_cast (show (1 : Int) ≤ a by omega)
    have up : y2 < ((N / a : Int) : ℚ) + 1 := by
      by_contra hc
      push_neg at hc
      have h := mul_le_mul_of_nonneg_right hc ha0q
      linarith only [h, d2, hdmq, hremq, ha1]
    have lo : ((N / a - 1 : Int) : ℚ) ≤ y2 := by
      push_cast
      by_contra hc
      push_neg at hc
      have h := mul_le_mul_of_nonneg_right hc.le ha0q
      linarith only [h, d1, hdmq, hremq, ha1]
    rcases le_or_lt ((N / a : Int) : ℚ) y2 with hge | hlt
    · left
      apply toInt_of_trunc impl y2 _ _ (by unfold MinInt64; omega) (by unfold MaxInt64; omega)
      exact trunc_of_mem y2 _ hn0 hge up
    · right
      apply toInt_of_trunc impl y2 _ _ (by unfold MinInt64; omega) (by unfold MaxInt64; omega)
      apply trunc_of_mem y2 _ (by omega) lo
      push_cast
      linarith only [hlt]

/-- Index computed by the one-dimensional sampler from an integer `k` and a factor `f` that
is within one rounding of `a / ow`: it is `k * ow / a` when `a` does not divide `k * ow`,
and `k * ow / a` or one less when it does. -/
theorem index_of_factor (impl : IntConv) (k a ow : Int) (f : ℚ)
    (hk0 : 0 < k) (hk : k < 33554432) (ha0 : 0 < a) (ha : a < 33554432)
    (hw0 : 0 < ow) (hw : ow < 33554432)
    (hf1 : (a : ℚ) / (ow : ℚ) * (1 - 1 / 9007199254740992) ≤ f)
    (hf2 : f ≤ (a : ℚ) / (ow : ℚ) * (1 + 1 / 9007199254740992)) :
    ((k * ow) % a ≠ 0 → toInt impl (div (ofInt k) (float64.fin f)) = k * ow / a)
    ∧ ((k * ow) % a = 0 →
        toInt impl (div (ofInt k) (float64.fin f)) = k * ow / a
        ∨ toInt impl (div (ofInt k) (float64.fin f)) = k * ow / a - 1) := by
  obtain ⟨y2, hdiv, d1, d2⟩ := index_bounds k a ow f hk0 hk ha0 ha hw0 hw hf1 hf2
  have hN0 : 0 < k * ow := mul_pos hk0 hw0
  have hNlt : k * ow < 1125899906842624 := by nlinarith
  rw [hdiv]
  exact index_of_bounds impl (k * ow) a y2 hN0 hNlt ha0 d1 d2


/-! ### The factor and the index of the machine `scale1DCode` -/

/-- The rounding of a quotient that is not positive is not positive. -/
theorem round_nonpos (q : ℚ) (hq : q ≤ 0) : float64.le (round q) (float64.fin 0) = true := by
  unfold round
  by_cases h0 : q = 0
  · rw [if_pos h0]
    simp [float64.le]
  · rw [if_neg h0]
    have hneg : ¬ (0 < q) := not_lt.2 hq
    simp only [if_neg hneg]
    split
    · rfl
    · have hr : (0 : ℚ) ≤ (roundHalfEven (|q| / (2 : ℚ) ^ ulpExp |q|) : ℚ)
          * (2 : ℚ) ^ ulpExp |q| := by
        apply mul_nonneg
        · have h1 : (0 : Int) ≤ roundHalfEven (|q| / (2 : ℚ) ^ ulpExp |q|) :=
            le_roundHalfEven _ 0 (by
              push_cast
              exact div_nonneg (abs_nonneg q) (zpow_nonneg (by norm_num) _))
          exact_mod_cast h1
        · exact zpow_nonneg (by norm_num) _
      simp only [float64.le, decide_eq_true_eq]
      linarith

/-- A factor that `scale1DCode` accepts comes from a positive net width. -/
theorem factor1D_pos_of_ok (width offset orgWidth : Int)
    (hw : 0 < orgWidth) (hw2 : orgWidth < 33554432)
    (ha1 : -33554432 < width - 2 * offset) (ha2 : width - 2 * offset < 33554432)
    (h : float64.le (factor1D width offset orgWidth) (float64.fin 0) = false) :
    0 < width - 2 * offset := by
  by_contra hc
  push_neg at hc
  have hw' : (orgWidth : ℚ) ≠ 0 := by exact_mod_cast hw.ne'
  have wa : wrap (width - wrap (2 * offset)) = width - 2 * offset := by
    rw [wrap_sub_wrap, wrap_of_range _ (by unfold MinInt64; omega) (by unfold MaxInt64; omega)]
  unfold factor1D at h
  rw [wa, ofInt_exact _ (by omega) (by omega), ofInt_exact _ (by omega) (by omega)] at h
  simp only [div, float64.div, if_neg hw'] at h
  have hq : ((width - 2 * offset : Int) : ℚ) / (orgWidth : ℚ) ≤ 0 :=
    div_nonpos_of_nonpos_of_nonneg (by exact_mod_cast hc) (by exact_mod_cast hw.le)
  have := round_nonpos _ hq
  rw [this] at h
  exact absurd h (by simp)

/-- The factor of the machine `scale1DCode` is within one part in `2^53` of the exact
quotient. -/
theorem factor1D_rel (width offset orgWidth : Int)
    (hw : 0 < orgWidth) (hw2 : orgWidth < 33554432)
    (ha1 : 0 < width - 2 * offset) (ha2 : width - 2 * offset < 33554432) :
    ∃ f : ℚ, factor1D width offset orgWidth = float64.fin f
      ∧ ((width - 2 * offset : Int) : ℚ) / (orgWidth : ℚ) * (1 - 1 / 9007199254740992) ≤ f
      ∧ f ≤ ((width - 2 * offset : Int) : ℚ) / (orgWidth : ℚ) * (1 + 1 / 9007199254740992) := by
  have wa : wrap (width - wrap (2 * offset)) = width - 2 * offset := by
    rw [wrap_sub_wrap, wrap_of_range _ (by unfold MinInt64; omega) (by unfold MaxInt64; omega)]
  unfold factor1D
  rw [wa]
  exact factor_rel _ _ ha1 ha2 hw hw2

/-- The source column that the machine `scale1DCode` computes for the destination column
`offset + k`, with `0 ≤ k`: it is `k * orgWidth / (width - 2 * offset)`, except that it may
be one less at a `k > 0` where that quotient is an integer, when `orgWidth` does not divide
`width - 2 * offset`. -/
theorem index1D (impl : IntConv) (width offset orgWidth k : Int)
    (hw : 0 < orgWidth) (hw2 : orgWidth < 33554432)
    (ha1 : 0 < width - 2 * offset) (ha2 : width - 2 * offset < 33554432)
    (hk0 : 0 ≤ k) (hk : k < 33554432) :
    toInt impl (div (ofInt (wrap k)) (factor1D width offset orgWidth))
        = k * orgWidth / (width - 2 * offset)
    ∨ (0 < k ∧ (k * orgWidth) % (width - 2 * offset) = 0
        ∧ (width - 2 * offset) % orgWidth ≠ 0
        ∧ toInt impl (div (ofInt (wrap k)) (factor1D width offset orgWidth))
            = k * orgWidth / (width - 2 * offset) - 1) := by
  by_cases hdvd : (width - 2 * offset) % orgWidth = 0
  · left
    obtain ⟨c, hc⟩ := Int.dvd_of_emod_eq_zero hdvd
    have hc' : width - 2 * offset = c * orgWidth := by rw [hc, mul_comm]
    have hc0 : 0 < c := by
      by_contra hn
      push_neg at hn
      have : c * orgWidth ≤ 0 := mul_nonpos_of_nonpos_of_nonneg hn hw.le
      omega
    have hcle : c ≤ c * orgWidth := le_mul_of_one_le_right hc0.le (by omega)
    rw [factor1D_integer width offset orgWidth c hw (by omega) (by omega) (by omega) hc'
      (by omega) (by omega),
      toInt_div_integer impl k c (by omega) (by omega) hc0 (by omega),
      Int.tdiv_eq_ediv hk0 hc0.le, hc', Int.mul_ediv_mul_of_pos_left _ _ hw]
  · obtain ⟨f, hf, hf1, hf2⟩ := factor1D_rel width offset orgWidth hw hw2 ha1 ha2
    rw [hf, wrap_of_range k (by unfold MinInt64; omega) (by unfold MaxInt64; omega)]
    rcases hk0.eq_or_lt with h0 | hpos
    · left
      subst h0
      have hf0 : f ≠ 0 := by
        have hF : 0 < ((width - 2 * offset : Int) : ℚ) / (orgWidth : ℚ) :=
          div_pos (by exact_mod_cast ha1) (by exact_mod_cast hw)
        have : 0 < f := lt_of_lt_of_le (mul_pos hF (by norm_num)) hf1
        exact this.ne'
      rw [ofInt_exact 0 (by decide) (by decide)]
      simp only [div, float64.div, if_neg hf0, Int.cast_zero, zero_div, round_zero, zero_mul,
        Int.zero_ediv]
      exact toInt_of_trunc impl 0 0 (by decide) (by decide) (by decide)
    · obtain ⟨h1, h2⟩ := index_of_factor impl k (width - 2 * offset) orgWidth f hpos hk
        ha1 ha2 hw hw2 hf1 hf2
      by_cases hrem : (k * orgWidth) % (width - 2 * offset) = 0
      · rcases h2 hrem with e | e
        · left; exact e
        · right; exact ⟨hpos, hrem, hdvd, e⟩
      · left; exact h1 hrem

/-- The closure of the machine `scale1DCode` at a column that is not left of the
offset. -/
theorem sample1D_of_le (impl : IntConv) (offset : Int) (factor : float64)
    (orgWidth x y : Int) (hx : offset ≤ x) :
    sample1D impl offset factor orgWidth x y
      = if orgWidth ≤ toInt impl (div (ofInt (wrap (x - offset))) factor) then Sample.white
        else Sample.source (toInt impl (div (ofInt (wrap (x - offset))) factor)) 0 := by
  simp only [sample1D]
  rw [if_neg (by omega)]

theorem scale1DCode_machine_At (impl : IntConv) (bc : Barcode) (width height offset : Int)
    (r : Barcode) (h : scale1DCode impl bc width height offset = Except.ok r) (x y : Int) :
    r.At x y = (sample1D impl offset
        (factor1D width offset (wrap (bc.Bounds.Max.X - bc.Bounds.Min.X)))
        (wrap (bc.Bounds.Max.X - bc.Bounds.Min.X)) x y).color bc := by
  rw [(scale1DCode_machine_ok impl bc width height offset r h).2, newScaledBC_At]


/-! ### Two roundings at the factor `9 / 7` -/

/-- The binary64 number nearest to `9 / 7` is `5790342378047781 / 2^52`, above
`9 / 7`. -/
theorem round_9_7 :
    round ((9 : ℚ) / 7) = float64.fin (5790342378047781 / 4503599627370496) := by
  have h := round_eval ((9 : ℚ) / 7) 0 5790342378047781 (by norm_num) (by norm_num)
    (by norm_num) (by norm_num)
    (by
      rw [roundHalfEven_up _ 5790342378047780 (by norm_num) (by norm_num)]
      decide)
    (by norm_num)
  rw [h]
  norm_num

/-- The quotient `9 / (5790342378047781 / 2^52)` is below 7 and rounds to
`7881299347898367 / 2^50`, the binary64 number before 7. -/
theorem round_9_div_factor :
    round ((9 : ℚ) / (5790342378047781 / 4503599627370496))
      = float64.fin (7881299347898367 / 1125899906842624) := by
  have h := round_eval ((9 : ℚ) / (5790342378047781 / 4503599627370496)) 2 7881299347898367
    (by norm_num) (by norm_num) (by norm_num) (by norm_num)
    (roundHalfEven_down _ 7881299347898367 (by norm_num) (by norm_num))
    (by norm_num)
  rw [h]
  norm_num

theorem factor1D_11_1_7 :
    factor1D 11 1 7 = float64.fin (5790342378047781 / 4503599627370496) := by
  unfold factor1D
  rw [show wrap (11 - wrap (2 * 1)) = 9 from by decide,
    ofInt_exact 9 (by decide) (by decide), ofInt_exact 7 (by decide) (by decide)]
  simp only [div, float64.div]
  rw [if_neg (by norm_num)]
  have e : ((9 : Int) : ℚ) / ((7 : Int) : ℚ) = (9 : ℚ) / 7 := by norm_num
  show round (((9 : Int) : ℚ) / ((7 : Int) : ℚ)) = _
  rw [e, round_9_7]

theorem factor1D_18_0_14 :
    factor1D 18 0 14 = float64.fin (5790342378047781 / 4503599627370496) := by
  unfold factor1D
  rw [show wrap (18 - wrap (2 * 0)) = 18 from by decide,
    ofInt_exact 18 (by decide) (by decide), ofInt_exact 14 (by decide) (by decide)]
  simp only [div, float64.div]
  rw [if_neg (by norm_num)]
  have e : ((18 : Int) : ℚ) / ((14 : Int) : ℚ) = (9 : ℚ) / 7 := by norm_num
  show round (((18 : Int) : ℚ) / ((14 : Int) : ℚ)) = _
  rw [e, round_9_7]

/-- With the factor `float64(9) / float64(7)`, the ninth column after the offset maps to
the source column 6, not 7. -/
theorem index_9_factor (impl : IntConv) :
    toInt impl (div (ofInt (wrap 9)) (float64.fin (5790342378047781 / 4503599627370496)))
      = 6 := by
  rw [show wrap 9 = 9 from by decide, ofInt_exact 9 (by decide) (by decide)]
  simp only [div, float64.div]
  rw [if_neg (by norm_num)]
  have e : ((9 : Int) : ℚ) = (9 : ℚ) := by norm_num
  show toInt impl (round (((9 : Int) : ℚ) / (5790342378047781 / 4503599627370496))) = 6
  rw [e, round_9_div_factor]
  apply toInt_of_trunc impl _ 6 _ (by decide) (by decide)
  exact trunc_of_mem _ 6 (by decide) (by norm_num) (by norm_num)

/-! ## C17: the sampling of `scale1DCode` and its left and right border -/

/-- C17 (counterexample): the 1D checker of width 7 scaled to width 11 with offset 1
succeeds, and at `x = 10 = width - offset` the result is not white: it is the source's
`At(6, 0)`, black.  And the 1D checker of width 14 scaled to width 18 with offset 0
succeeds, and at `x = 9` the result is the source's `At(6, 0)`, black, while
`⌊(9 - 0) * 14 / (18 - 2 * 0)⌋ = 7` and the source's `At(7, 0)` is white.  In both the
factor `float64(9) / float64(7)` is rounded up, so that `float64(9) / factor` is below
7. -/
theorem scale1DCode_rounds_below_the_column :
    (∃ r, scale1DCode IntConv.amd64 (checker 1 7 1) 11 1 1 = Except.ok r
        ∧ r.At 10 0 = (checker 1 7 1).At 6 0
        ∧ r.At 10 0 ≠ color.White)
    ∧ (∃ r, scale1DCode IntConv.amd64 (checker 1 14 1) 18 1 0 = Except.ok r
        ∧ r.At 9 0 = (checker 1 14 1).At 6 0
        ∧ ⌊(((9 - 0) * 14 : Int) : ℚ) / ((18 - 2 * 0 : Int) : ℚ)⌋ = 7
        ∧ r.At 9 0 ≠ (checker 1 14 1).At 7 0) := by
  have hX7 : wrap ((checker 1 7 1).Bounds.Max.X - (checker 1 7 1).Bounds.Min.X) = 7 := by
    decide
  have hX14 : wrap ((checker 1 14 1).Bounds.Max.X - (checker 1 14 1).Bounds.Min.X) = 14 := by
    decide
  have hle7 : float64.le (factor1D 11 1
      (wrap ((checker 1 7 1).Bounds.Max.X - (checker 1 7 1).Bounds.Min.X)))
      (float64.fin 0) = false := by
    rw [hX7, factor1D_11_1_7]
    simp only [float64.le, decide_eq_false_iff_not, not_le]
    norm_num
  have hle14 : float64.le (factor1D 18 0
      (wrap ((checker 1 14 1).Bounds.Max.X - (checker 1 14 1).Bounds.Min.X)))
      (float64.fin 0) = false := by
    rw [hX14, factor1D_18_0_14]
    simp only [float64.le, decide_eq_false_iff_not, not_le]
    norm_num
  have hs7 : sample1D IntConv.amd64 1 (float64.fin (5790342378047781 / 4503599627370496)) 7
      10 0 = Sample.source 6 0 := by
    rw [sample1D_of_le _ _ _ _ _ _ (by decide), show (10 : Int) - 1 = 9 from by decide,
      index_9_factor, if_neg (by decide)]
  have hs14 : sample1D IntConv.amd64 0 (float64.fin (5790342378047781 / 4503599627370496)) 14
      9 0 = Sample.source 6 0 := by
    rw [sample1D_of_le _ _ _ _ _ _ (by decide), show (9 : Int) - 0 = 9 from by decide,
      index_9_factor, if_neg (by decide)]
  constructor
  · rw [scale1DCode_machine_of_not_le _ _ _ _ _ hle7]
    refine ⟨_, rfl, ?_, ?_⟩
    · rw [newScaledBC_At, hX7, factor1D_11_1_7, hs7]
      rfl
    · rw [newScaledBC_At, hX7, factor1D_11_1_7, hs7]
      decide
  · rw [scale1DCode_machine_of_not_le _ _ _ _ _ hle14]
    refine ⟨_, rfl, ?_, ?_, ?_⟩
    · rw [newScaledBC_At, hX14, factor1D_18_0_14, hs14]
      rfl
    · rw [floor_intCast_div _ _ (by decide)]
      decide
    · rw [newScaledBC_At, hX14, factor1D_18_0_14, hs14]
      decide


/-- C17 (amended): for every successful 1D scale with `0 < orgWidth < 2^25` and
`-2^25 < width - 2 * offset < 2^25`, write `q` for
`(x - offset) * orgWidth / (width - 2 * offset)`.  For every `x` with
`offset ≤ x < width - offset`, `⌊q⌋` is in `[0, orgWidth)` and `At(x, y)` is the source's
`At(⌊q⌋, 0)` whenever `x = offset`, or `q` is not an integer, or `orgWidth` divides
`width - 2 * offset`; at the remaining `x` of that range, where `q` is a positive integer,
`At(x, y)` is the source's `At(q, 0)` or the source's `At(q - 1, 0)`.  `At(x, y)` is white
for every `x < offset` and for every `x > width - offset` with `x - offset < 2^25`; at
`x = width - offset` it is white when `orgWidth` divides `width - 2 * offset`, and
otherwise white or the source's `At(orgWidth - 1, 0)`. -/
theorem scale1DCode_sampling_below_2_25 (impl : IntConv) (bc : Barcode)
    (width height offset : Int) (r : Barcode)
    (h : scale1DCode impl bc width height offset = Except.ok r)
    (hw : 0 < bc.Bounds.Max.X - bc.Bounds.Min.X)
    (hw2 : bc.Bounds.Max.X - bc.Bounds.Min.X < 33554432)
    (ha1 : -33554432 < width - 2 * offset) (ha2 : width - 2 * offset < 33554432) :
    (∀ x y : Int, offset ≤ x → x < width - offset →
      (x = offset
        ∨ ((x - offset) * (bc.Bounds.Max.X - bc.Bounds.Min.X)) % (width - 2 * offset) ≠ 0
        ∨ (width - 2 * offset) % (bc.Bounds.Max.X - bc.Bounds.Min.X) = 0) →
      0 ≤ ⌊(((x - offset) * (bc.Bounds.Max.X - bc.Bounds.Min.X) : Int) : ℚ)
              / ((width - 2 * offset : Int) : ℚ)⌋
      ∧ ⌊(((x - offset) * (bc.Bounds.Max.X - bc.Bounds.Min.X) : Int) : ℚ)
              / ((width - 2 * offset : Int) : ℚ)⌋ < bc.Bounds.Max.X - bc.Bounds.Min.X
      ∧ r.At x y
          = bc.At ⌊(((x - offset) * (bc.Bounds.Max.X - bc.Bounds.Min.X) : Int) : ℚ)
              / ((width - 2 * offset : Int) : ℚ)⌋ 0)
    ∧ (∀ x y : Int, offset ≤ x → x < width - offset →
      r.At x y
          = bc.At ⌊(((x - offset) * (bc.Bounds.Max.X - bc.Bounds.Min.X) : Int) : ℚ)
              / ((width - 2 * offset : Int) : ℚ)⌋ 0
      ∨ (0 < ⌊(((x - offset) * (bc.Bounds.Max.X - bc.Bounds.Min.X) : Int) : ℚ)
              / ((width - 2 * offset : Int) : ℚ)⌋
          ∧ r.At x y
            = bc.At (⌊(((x - offset) * (bc.Bounds.Max.X - bc.Bounds.Min.X) : Int) : ℚ)
              / ((width - 2 * offset : Int) : ℚ)⌋ - 1) 0))
    ∧ (∀ x y : Int, x < offset → r.At x y = color.White)
    ∧ (∀ x y : Int, width - offset < x → x - offset < 33554432 → r.At x y = color.White)
    ∧ (∀ y : Int, r.At (width - offset) y = color.White
        ∨ ((width - 2 * offset) % (bc.Bounds.Max.X - bc.Bounds.Min.X) ≠ 0
            ∧ r.At (width - offset) y = bc.At (bc.Bounds.Max.X - bc.Bounds.Min.X - 1) 0)) := by
  have hX : wrap (bc.Bounds.Max.X - bc.Bounds.Min.X) = bc.Bounds.Max.X - bc.Bounds.Min.X :=
    wrap_of_range _ (by unfold MinInt64; omega) (by unfold MaxInt64; omega)
  have hAt := scale1DCode_machine_At impl bc width height offset r h
  have hle := (scale1DCode_machine_ok impl bc width height offset r h).1
  rw [hX] at hAt hle
  generalize bc.Bounds.Max.X - bc.Bounds.Min.X = ow at *
  have ha := factor1D_pos_of_ok width offset ow hw hw2 ha1 ha2 hle
  generalize hA : width - 2 * offset = a at *
  -- the computed source column
  have hidx : ∀ k : Int, 0 ≤ k → k < 33554432 →
      toInt impl (div (ofInt (wrap k)) (factor1D width offset ow)) = k * ow / a
      ∨ (0 < k ∧ (k * ow) % a = 0 ∧ a % ow ≠ 0
          ∧ toInt impl (div (ofInt (wrap k)) (factor1D width offset ow)) = k * ow / a - 1) := by
    intro k hk0 hk
    have := index1D impl width offset ow k hw hw2 (by omega) (by omega) hk0 hk
    rw [hA] at this
    exact this
  have hdm : ∀ k : Int, a * (k * ow / a) + (k * ow) % a = k * ow :=
    fun k => Int.ediv_add_emod (k * ow) a
  have hq0 : ∀ k : Int, 0 ≤ k → 0 ≤ k * ow / a :=
    fun k hk => Int.ediv_nonneg (mul_nonneg hk hw.le) ha.le
  have hqlt : ∀ k : Int, k < a → k * ow / a < ow := by
    intro k hk
    rw [Int.ediv_lt_iff_lt_mul ha]
    nlinarith
  have hqge : ∀ k : Int, a ≤ k → ow ≤ k * ow / a := by
    intro k hk
    rw [Int.le_ediv_iff_mul_le ha]
    nlinarith
  -- at a positive multiple the quotient is positive
  have hqpos : ∀ k : Int, 0 < k → (k * ow) % a = 0 → 0 < k * ow / a := by
    intro k hk hrem
    have h1 := hdm k
    rw [hrem] at h1
    have h2 : 0 < k * ow := mul_pos hk hw
    by_contra hc
    have h3 : k * ow / a ≤ 0 := by omega
    have h4 : a * (k * ow / a) ≤ 0 := mul_nonpos_of_nonneg_of_nonpos ha.le h3
    omega
  refine ⟨?_, ?_, ?_, ?_, ?_⟩
  · intro x y hx hx2 hcase
    rw [floor_intCast_div _ _ ha]
    have hk0 : 0 ≤ x - offset := by omega
    have hka : x - offset < a := by omega
    refine ⟨hq0 _ hk0, hqlt _ hka, ?_⟩
    have e : toInt impl (div (ofInt (wrap (x - offset))) (factor1D width offset ow))
        = (x - offset) * ow / a := by
      rcases hidx (x - offset) hk0 (by omega) with e | ⟨hpos, hrem, hnd, _⟩
      · exact e
      · rcases hcase with c | c | c
        · omega
        · exact absurd hrem c
        · exact absurd c hnd
    rw [hAt, sample1D_of_le _ _ _ _ _ _ hx, e, if_neg (not_le.2 (hqlt _ hka))]
    rfl
  · intro x y hx hx2
    rw [floor_intCast_div _ _ ha]
    have hk0 : 0 ≤ x - offset := by omega
    have hka : x - offset < a := by omega
    have hlt := hqlt _ hka
    rcases hidx (x - offset) hk0 (by omega) with e | ⟨hpos, hrem, _, e⟩
    · left
      rw [hAt, sample1D_of_le _ _ _ _ _ _ hx, e, if_neg (not_le.2 hlt)]
      rfl
    · right
      refine ⟨hqpos _ hpos hrem, ?_⟩
      rw [hAt, sample1D_of_le _ _ _ _ _ _ hx, e, if_neg (by omega)]
      rfl
  · intro x y hx
    rw [hAt]
    simp only [sample1D]
    rw [if_pos hx]
    rfl
  · intro x y hx hx2
    have hk0 : 0 ≤ x - offset := by omega
    have hge : ow ≤ toInt impl (div (ofInt (wrap (x - offset))) (factor1D width offset ow)) := by
      rcases hidx (x - offset) hk0 hx2 with e | ⟨hpos, hrem, _, e⟩
      · rw [e]
        exact hqge _ (by omega)
      · rw [e]
        have h1 := hdm (x - offset)
        rw [hrem] at h1
        have h2 : a * ow < (x - offset) * ow := by nlinarith
        have h3 : ow < (x - offset) * ow / a := by
          by_contra hc
          push_neg at hc
          have : a * ((x - offset) * ow / a) ≤ a * ow := mul_le_mul_of_nonneg_left hc ha.le
          omega
        omega
    rw [hAt, sample1D_of_le _ _ _ _ _ _ (by omega), if_pos hge]
    rfl
  · intro y
    have hxo : width - offset - offset = a := by omega
    have hq : a * ow / a = ow := Int.mul_ediv_cancel_left ow ha.ne'
    rcases hidx a ha.le ha2 with e | ⟨_, _, hnd, e⟩
    · left
      rw [hAt, sample1D_of_le _ _ _ _ _ _ (by omega), hxo, e, hq, if_pos le_rfl]
      rfl
    · right
      refine ⟨hnd, ?_⟩
      rw [hAt, sample1D_of_le _ _ _ _ _ _ (by omega), hxo, e, hq, if_neg (by omega)]
      rfl


theorem scale1DCode_checker_11 :
    scale1DCode IntConv.amd64 (checker 1 7 1) 11 1 1 = Except.ok scaledBars11 := by
  have hX7 : wrap ((checker 1 7 1).Bounds.Max.X - (checker 1 7 1).Bounds.Min.X) = 7 := by
    decide
  have hle7 : float64.le (factor1D 11 1
      (wrap ((checker 1 7 1).Bounds.Max.X - (checker 1 7 1).Bounds.Min.X)))
      (float64.fin 0) = false := by
    rw [hX7, factor1D_11_1_7]
    simp only [float64.le, decide_eq_false_iff_not, not_le]
    norm_num
  rw [scale1DCode_machine_of_not_le _ _ _ _ _ hle7, hX7]
  rfl

/-- C17 (witness): the 1D checker of width 7 scaled to width 11 with offset 1:
`At(3, 0)` is the source's `At(1, 0)`, as `(3 - 1) * 7 / 9` is not an integer, `At(0, 0)`
is white and `At(11, 0)` is white. -/
theorem scale1DCode_sampling_below_2_25_witness :
    scaledBars11.At 3 0 = (checker 1 7 1).At 1 0
    ∧ scaledBars11.At 0 0 = color.White
    ∧ scaledBars11.At 11 0 = color.White :=
  ⟨by
    have h := ((scale1DCode_sampling_below_2_25 IntConv.amd64 (checker 1 7 1) 11 1 1
      scaledBars11 scale1DCode_checker_11 (by decide) (by decide) (by decide) (by decide)).1
      3 0 (by decide) (by decide) (Or.inr (Or.inl (by decide)))).2.2
    rw [h, floor_intCast_div _ _ (by decide)]
    decide,
   (scale1DCode_sampling_below_2_25 IntConv.amd64 (checker 1 7 1) 11 1 1
      scaledBars11 scale1DCode_checker_11 (by decide) (by decide) (by decide)
      (by decide)).2.2.1 0 0 (by decide),
   (scale1DCode_sampling_below_2_25 IntConv.amd64 (checker 1 7 1) 11 1 1
      scaledBars11 scale1DCode_checker_11 (by decide) (by decide) (by decide)
      (by decide)).2.2.2.1 11 0 (by decide) (by decide)⟩


/-! ### Where the columns of a source column begin -/

/-- The first destination column, counted from the offset, whose computed source column
is at least `s`.  The computed column `I k` is `k * ow / a`, or one less at a `k > 0` where
that quotient is an integer; so the first column is `⌈s * a / ow⌉`, or the next one when
`s * a / ow` is an integer. -/
theorem column_start (I : Int → Int) (a ow s B : Int) (ha : 0 < a) (hw : 0 < ow)
    (haB : a < B)
    (hI : ∀ k : Int, 0 ≤ k → k < B →
      I k = k * ow / a
      ∨ (0 < k ∧ (k * ow) % a = 0 ∧ a % ow ≠ 0 ∧ I k = k * ow / a - 1))
    (hs : s ≤ ow) :
    ∃ b : Int,
      (b = ⌈(s : ℚ) * ((a : ℚ) / (ow : ℚ))⌉
        ∨ (b = ⌈(s : ℚ) * ((a : ℚ) / (ow : ℚ))⌉ + 1 ∧ (s * a) % ow = 0 ∧ a % ow ≠ 0))
      ∧ ∀ k : Int, 0 ≤ k → k < B → (s ≤ I k ↔ b ≤ k) := by
  have hcle : ∀ k : Int, ⌈(s : ℚ) * ((a : ℚ) / (ow : ℚ))⌉ ≤ k ↔ s * a ≤ k * ow :=
    fun k => ceil_mul_quotient_le_iff s k a ow hw
  generalize ⌈(s : ℚ) * ((a : ℚ) / (ow : ℚ))⌉ = c at *
  have hdm : ∀ k : Int, a * (k * ow / a) + (k * ow) % a = k * ow :=
    fun k => Int.ediv_add_emod _ _
  have hIle : ∀ k : Int, 0 ≤ k → k < B → I k ≤ k * ow / a := by
    intro k h0 hB
    rcases hI k h0 hB with e | ⟨_, _, _, e⟩ <;> omega
  have hIge : ∀ k : Int, 0 ≤ k → k < B → s * a < k * ow → s ≤ I k := by
    intro k h0 hB hlt
    have h1 : s ≤ k * ow / a := (Int.le_ediv_iff_mul_le ha).2 hlt.le
    rcases hI k h0 hB with e | ⟨_, hrem, _, e⟩
    · omega
    · have h2 := hdm k
      rw [hrem] at h2
      have h3 : s < k * ow / a := by
        by_contra hc
        push_neg at hc
        have h4 := mul_le_mul_of_nonneg_left hc ha.le
        have h5 : a * s = s * a := mul_comm a s
        omega
      omega
  have hIlt : ∀ k : Int, 0 ≤ k → k < B → k * ow < s * a → I k < s := by
    intro k h0 hB hlt
    have h1 := (Int.ediv_lt_iff_lt_mul ha).2 hlt
    have h2 := hIle k h0 hB
    omega
  have hclt : ∀ k : Int, k * ow < s * a → k < c := by
    intro k hlt
    by_contra hc
    push_neg at hc
    have := (hcle k).1 hc
    omega
  by_cases hex : 0 < s ∧ (s * a) % ow = 0 ∧ I (s * a / ow) = s - 1
  · obtain ⟨hspos, hrem, hIk⟩ := hex
    have hks : s * a / ow * ow = s * a := by
      have h1 := Int.ediv_add_emod (s * a) ow
      rw [hrem] at h1
      have h2 : ow * (s * a / ow) = s * a / ow * ow := mul_comm _ _
      omega
    generalize s * a / ow = ks at *
    have hsa : 0 < s * a := mul_pos hspos ha
    have hks0 : 0 < ks := by
      by_contra hc
      push_neg at hc
      have := mul_nonpos_of_nonpos_of_nonneg hc hw.le
      omega
    have hksa : ks ≤ a := by
      by_contra hc
      push_neg at hc
      have h1 : a * ow < ks * ow := mul_lt_mul_of_pos_right hc hw
      have h2 : s * a ≤ ow * a := mul_le_mul_of_nonneg_right hs ha.le
      have h3 : ow * a = a * ow := mul_comm _ _
      omega
    have hcks : c = ks := by
      apply le_antisymm ((hcle ks).2 hks.ge)
      by_contra hc
      push_neg at hc
      have h1 : (ks - 1) * ow < s * a := by
        have : (ks - 1) * ow = ks * ow - ow := by ring
        omega
      have := hclt (ks - 1) h1
      omega
    have hq : ks * ow / a = s := by
      rw [hks]
      exact Int.mul_ediv_cancel s ha.ne'
    have hnd : a % ow ≠ 0 := by
      rcases hI ks hks0.le (by omega) with e | ⟨_, _, hnd, _⟩
      · omega
      · exact hnd
    refine ⟨c + 1, Or.inr ⟨rfl, hrem, hnd⟩, ?_⟩
    intro k h0 hB
    rcases lt_trichotomy (k * ow) (s * a) with hlt | heq | hgt
    · have h1 := hIlt k h0 hB hlt
      have h2 := hclt k hlt
      constructor <;> intro <;> omega
    · have hk : k = ks := by
        have : k * ow = ks * ow := by omega
        exact mul_right_cancel₀ hw.ne' this
      subst hk
      constructor <;> intro <;> omega
    · have h1 := hIge k h0 hB hgt
      have h2 : ks < k := by
        by_contra hc
        push_neg at hc
        have := mul_le_mul_of_nonneg_right hc hw.le
        omega
      constructor <;> intro <;> omega
  · refine ⟨c, Or.inl rfl, ?_⟩
    intro k h0 hB
    rcases lt_trichotomy (k * ow) (s * a) with hlt | heq | hgt
    · have h1 := hIlt k h0 hB hlt
      have h2 := hclt k hlt
      constructor <;> intro <;> omega
    · have hck : c ≤ k := (hcle k).2 heq.ge
      have hsI : s ≤ I k := by
        have hq : k * ow / a = s := by
          rw [heq]
          exact Int.mul_ediv_cancel s ha.ne'
        rcases hI k h0 hB with e | ⟨hpos, _, _, e⟩
        · omega
        · exfalso
          apply hex
          have hsk : s * a / ow = k := by
            rw [← heq]
            exact Int.mul_ediv_cancel k hw.ne'
          have hspos : 0 < s := by
            by_contra hc
            push_neg at hc
            have h1 : 0 < k * ow := mul_pos hpos hw
            have h2 := mul_nonpos_of_nonpos_of_nonneg hc ha.le
            omega
          refine ⟨hspos, ?_, ?_⟩
          · rw [← heq]
            exact Int.mul_emod_left k ow
          · rw [hsk]
            omega
      exact ⟨fun _ => hck, fun _ => hsI⟩
    · have h1 := hIge k h0 hB hgt
      have h2 : c ≤ k := (hcle k).2 hgt.le
      exact ⟨fun _ => h2, fun _ => h1⟩

/-- The number of columns between the first column of `s` and the first column of
`s + 1` is `⌊a / ow⌋` or `⌈a / ow⌉`. -/
theorem column_count (a ow s b1 b2 : Int) (hw : 0 < ow)
    (h1 : b1 = ⌈(s : ℚ) * ((a : ℚ) / (ow : ℚ))⌉
      ∨ (b1 = ⌈(s : ℚ) * ((a : ℚ) / (ow : ℚ))⌉ + 1 ∧ (s * a) % ow = 0 ∧ a % ow ≠ 0))
    (h2 : b2 = ⌈((s + 1 : Int) : ℚ) * ((a : ℚ) / (ow : ℚ))⌉
      ∨ (b2 = ⌈((s + 1 : Int) : ℚ) * ((a : ℚ) / (ow : ℚ))⌉ + 1
          ∧ ((s + 1) * a) % ow = 0 ∧ a % ow ≠ 0)) :
    b2 - b1 = ⌊(a : ℚ) / (ow : ℚ)⌋ ∨ b2 - b1 = ⌈(a : ℚ) / (ow : ℚ)⌉ := by
  have hw' : (ow : ℚ) ≠ 0 := by exact_mod_cast hw.ne'
  have e : ((s + 1 : Int) : ℚ) * ((a : ℚ) / (ow : ℚ))
      = (s : ℚ) * ((a : ℚ) / (ow : ℚ)) + (a : ℚ) / (ow : ℚ) := by
    push_cast; ring
  rw [e] at h2
  have hstep := ceil_step ((s : ℚ) * ((a : ℚ) / (ow : ℚ))) ((a : ℚ) / (ow : ℚ))
  -- a quotient that is not an integer
  have hfrac : a % ow ≠ 0 → ⌈(a : ℚ) / (ow : ℚ)⌉ = ⌊(a : ℚ) / (ow : ℚ)⌋ + 1 := by
    intro hnd
    have h3 : ⌈(a : ℚ) / (ow : ℚ)⌉ ≤ ⌊(a : ℚ) / (ow : ℚ)⌋ + 1 := Int.ceil_le_floor_add_one _
    have h4 : ⌊(a : ℚ) / (ow : ℚ)⌋ < ⌈(a : ℚ) / (ow : ℚ)⌉ := by
      by_contra hc
      push_neg at hc
      have h5 : (a : ℚ) / (ow : ℚ) ≤ (⌊(a : ℚ) / (ow : ℚ)⌋ : ℚ) :=
        le_trans (Int.le_ceil _) (by exact_mod_cast hc)
      have h6 : (⌊(a : ℚ) / (ow : ℚ)⌋ : ℚ) = (a : ℚ) / (ow : ℚ) :=
        le_antisymm (Int.floor_le _) h5
      rw [floor_intCast_div a ow hw, eq_div_iff hw'] at h6
      have h7 : a / ow * ow = a := by exact_mod_cast h6
      have h8 := Int.ediv_add_emod a ow
      have h9 : ow * (a / ow) = a / ow * ow := mul_comm _ _
      omega
    omega
  -- a product that is an integer
  have hint : ∀ t : Int, (t * a) % ow = 0 →
      (t : ℚ) * ((a : ℚ) / (ow : ℚ)) = ((t * a / ow : Int) : ℚ) := by
    intro t hrem
    have h3 := Int.ediv_add_emod (t * a) ow
    rw [hrem] at h3
    have h4 : ((t * a / ow : Int) : ℚ) * (ow : ℚ) = (t : ℚ) * (a : ℚ) := by
      have : t * a / ow * ow = t * a := by
        have h9 : ow * (t * a / ow) = t * a / ow * ow := mul_comm _ _
        omega
      exact_mod_cast this
    rw [← mul_div_assoc, div_eq_iff hw', h4]
  rcases h1 with r1 | ⟨r1, hrem1, hnd⟩
  · rcases h2 with r2 | ⟨r2, hrem2, hnd⟩
    · rw [r1, r2]
      exact hstep
    · -- `(s + 1) * a / ow` is an integer
      right
      have h3 := hint (s + 1) hrem2
      rw [e] at h3
      have h4 : (s : ℚ) * ((a : ℚ) / (ow : ℚ))
          = (((s + 1) * a / ow : Int) : ℚ) - (a : ℚ) / (ow : ℚ) := by linarith
      have h5 : ⌈(s : ℚ) * ((a : ℚ) / (ow : ℚ))⌉
          = (s + 1) * a / ow - ⌊(a : ℚ) / (ow : ℚ)⌋ := by
        rw [h4, sub_eq_add_neg, add_comm, Int.ceil_add_int, Int.ceil_neg]
        ring
      have h6 : ⌈(s : ℚ) * ((a : ℚ) / (ow : ℚ)) + (a : ℚ) / (ow : ℚ)⌉ = (s + 1) * a / ow := by
        rw [h3, Int.ceil_intCast]
      have h7 := hfrac hnd
      omega
  · rcases h2 with r2 | ⟨r2, hrem2, _⟩
    · -- `s * a / ow` is an integer
      left
      have h3 := hint s hrem1
      have h5 : ⌈(s : ℚ) * ((a : ℚ) / (ow : ℚ))⌉ = s * a / ow := by
        rw [h3, Int.ceil_intCast]
      have h6 : ⌈(s : ℚ) * ((a : ℚ) / (ow : ℚ)) + (a : ℚ) / (ow : ℚ)⌉
          = s * a / ow + ⌈(a : ℚ) / (ow : ℚ)⌉ := by
        rw [h3, add_comm, Int.ceil_add_int, add_comm]
      have h7 := hfrac hnd
      omega
    · rw [r1, r2]
      rcases hstep with h | h
      · left; omega
      · right; omega


/-! ### Roundings at `-2^63` -/

/-- The rounding of `-q` is the negative of the rounding of `q`. -/
theorem round_neg_of_pos (q r : ℚ) (hq : 0 < q) (h : round q = float64.fin r) :
    round (-q) = float64.fin (-r) := by
  unfold round at h ⊢
  rw [if_neg hq.ne'] at h
  rw [if_neg (neg_ne_zero.2 hq.ne')]
  simp only [abs_neg, if_pos hq, if_neg (show ¬ (0 < -q) by linarith)] at h ⊢
  split at h
  · exact absurd h (by simp)
  · rename_i hlt
    rw [if_neg hlt]
    injection h with h'
    rw [h']

theorem round_neg_2_63 :
    round (-9223372036854775808 : ℚ) = float64.fin (-9223372036854775808) :=
  round_neg_of_pos _ _ (by norm_num) round_2_63

/-- At the column `x = 9223372036854775807` with offset `-1` the difference `x - offset`
wraps around to `-9223372036854775808`, and with the factor 1 that is the computed source
column. -/
theorem index_wrapped (impl : IntConv) :
    toInt impl (div (ofInt (wrap (9223372036854775807 - -1))) (float64.fin 1))
      = -9223372036854775808 := by
  rw [show wrap (9223372036854775807 - -1) = -9223372036854775808 from by decide]
  have e : ((-9223372036854775808 : Int) : ℚ) = (-9223372036854775808 : ℚ) := by norm_num
  have hd : div (ofInt (-9223372036854775808)) (float64.fin 1)
      = float64.fin (-9223372036854775808) := by
    unfold ofInt
    rw [e, round_neg_2_63]
    simp only [div, float64.div]
    rw [if_neg (by norm_num)]
    simp only [div_one]
    exact round_neg_2_63
  rw [hd]
  exact toInt_of_trunc impl _ _ (by rfl) (by decide) (by decide)

/-- On the amd64 port the column `x = 9223372036854775807` with offset 0 and factor 1
has the computed source column `-9223372036854775808`. -/
theorem index_MaxInt64_amd64 :
    toInt IntConv.amd64 (div (ofInt (wrap (9223372036854775807 - 0))) (float64.fin 1))
      = -9223372036854775808 := by
  have hd : div (float64.fin 9223372036854775808) (float64.fin 1)
      = float64.fin 9223372036854775808 := by
    simp only [div, float64.div]
    rw [if_neg (by norm_num)]
    simp only [div_one]
    exact round_2_63
  rw [show wrap (9223372036854775807 - 0) = 9223372036854775807 from by decide,
    ofInt_MaxInt64, hd, toInt_2_63_amd64]

/-- The column at the offset has the computed source column 0, with the factor 1. -/
theorem index_zero (impl : IntConv) :
    toInt impl (div (ofInt (wrap 0)) (float64.fin 1)) = 0 := by
  have := toInt_div_integer impl 0 1 (by decide) (by decide) (by decide) (by decide)
  simpa using this


/-! ## C18: order and multiplicity of the columns (1D) -/

/-- C18 (counterexample): the map from the destination column to the source column is
not non-decreasing over all `int` columns.  The 1D checker of width 10 scaled to width 10
with offset 0 succeeds on the amd64 port; the column 0 maps to the source column 0, and
the later column `9223372036854775807` to the source column `-9223372036854775808`, as
`float64(x)` is `2^63`, which no `int` represents.  And the same checker scaled to width 8
with offset `-1` succeeds, with the conversions of any port; the column `-1 = offset`
maps to the source column 0, and the later column `9223372036854775807` to the source
column `-9223372036854775808`, as `x - offset` wraps around. -/
theorem column_order_fails :
    (∃ r, scale1DCode IntConv.amd64 (checker 1 10 1) 10 1 0 = Except.ok r
        ∧ (∀ x y : Int, r.At x y
            = (sample1D IntConv.amd64 0 (factor1D 10 0 10) 10 x y).color (checker 1 10 1))
        ∧ sample1D IntConv.amd64 0 (factor1D 10 0 10) 10 0 0 = Sample.source 0 0
        ∧ sample1D IntConv.amd64 0 (factor1D 10 0 10) 10 9223372036854775807 0
            = Sample.source (-9223372036854775808) 0)
    ∧ (∃ r, scale1DCode IntConv.arm64 (checker 1 10 1) 8 1 (-1) = Except.ok r
        ∧ (∀ x y : Int, r.At x y
            = (sample1D IntConv.arm64 (-1) (factor1D 8 (-1) 10) 10 x y).color (checker 1 10 1))
        ∧ sample1D IntConv.arm64 (-1) (factor1D 8 (-1) 10) 10 (-1) 0 = Sample.source 0 0
        ∧ sample1D IntConv.arm64 (-1) (factor1D 8 (-1) 10) 10 9223372036854775807 0
            = Sample.source (-9223372036854775808) 0) := by
  have hX : wrap ((checker 1 10 1).Bounds.Max.X - (checker 1 10 1).Bounds.Min.X) = 10 := by
    decide
  have hf0 : factor1D 10 0 10 = float64.fin 1 := by
    have := factor1D_integer 10 0 10 1 (by decide) (by decide) (by decide) (by decide)
      (by decide) (by decide) (by decide)
    simpa using this
  have hf1 : factor1D 8 (-1) 10 = float64.fin 1 := by
    have := factor1D_integer 8 (-1) 10 1 (by decide) (by decide) (by decide) (by decide)
      (by decide) (by decide) (by decide)
    simpa using this
  have hle0 : float64.le (factor1D 10 0
      (wrap ((checker 1 10 1).Bounds.Max.X - (checker 1 10 1).Bounds.Min.X)))
      (float64.fin 0) = false := by
    rw [hX, hf0]
    simp [float64.le]
  have hle1 : float64.le (factor1D 8 (-1)
      (wrap ((checker 1 10 1).Bounds.Max.X - (checker 1 10 1).Bounds.Min.X)))
      (float64.fin 0) = false := by
    rw [hX, hf1]
    simp [float64.le]
  constructor
  · rw [scale1DCode_machine_of_not_le _ _ _ _ _ hle0]
    refine ⟨_, rfl, ?_, ?_, ?_⟩
    · intro x y
      rw [newScaledBC_At, hX]
    · rw [hf0, sample1D_of_le _ _ _ _ _ _ (by decide), show (0 : Int) - 0 = 0 from by decide,
        index_zero, if_neg (by decide)]
    · rw [hf0, sample1D_of_le _ _ _ _ _ _ (by decide), index_MaxInt64_amd64,
        if_neg (by decide)]
  · rw [scale1DCode_machine_of_not_le _ _ _ _ _ hle1]
    refine ⟨_, rfl, ?_, ?_, ?_⟩
    · intro x y
      rw [newScaledBC_At, hX]
    · rw [hf1, sample1D_of_le _ _ _ _ _ _ (by decide),
        show (-1 : Int) - -1 = 0 from by decide, index_zero, if_neg (by decide)]
    · rw [hf1, sample1D_of_le _ _ _ _ _ _ (by decide), index_wrapped, if_neg (by decide)]


/-- C18 (amended): for every successful 1D scale with `0 < orgWidth < 2^25` and
`-2^25 < width - 2 * offset < 2^25`, with `F` the exact rational
`(width - 2 * offset) / orgWidth`: `At` of the result is the colour that the closure
computes; on the columns `x` with `offset ≤ x < offset + 2^25` the map from the
destination column to the source column is non-decreasing; for every source column `sx`
of `[0, orgWidth)` the columns `x < offset + 2^25` that show it are the consecutive
columns from `offset + L` up to, and without, `offset + R`, for some `0 ≤ L` and
`R ≤ 2^25` with `R - L = ⌊F⌋` or `R - L = ⌈F⌉`; and when `width - 2 * offset ≥ orgWidth`
every source column is shown in some destination column of `[offset, width - offset)`. -/
theorem scale1DCode_order_below_2_25 (impl : IntConv) (bc : Barcode)
    (width height offset : Int) (r : Barcode)
    (h : scale1DCode impl bc width height offset = Except.ok r)
    (hw : 0 < bc.Bounds.Max.X - bc.Bounds.Min.X)
    (hw2 : bc.Bounds.Max.X - bc.Bounds.Min.X < 33554432)
    (ha1 : -33554432 < width - 2 * offset) (ha2 : width - 2 * offset < 33554432) :
    (∀ x y : Int, r.At x y
      = (sample1D impl offset (factor1D width offset (bc.Bounds.Max.X - bc.Bounds.Min.X))
          (bc.Bounds.Max.X - bc.Bounds.Min.X) x y).color bc)
    ∧ (∀ x1 x2 : Int, offset ≤ x1 → x1 ≤ x2 → x2 - offset < 33554432 →
      toInt impl (div (ofInt (wrap (x1 - offset)))
          (factor1D width offset (bc.Bounds.Max.X - bc.Bounds.Min.X)))
        ≤ toInt impl (div (ofInt (wrap (x2 - offset)))
          (factor1D width offset (bc.Bounds.Max.X - bc.Bounds.Min.X))))
    ∧ (∀ sx : Int, 0 ≤ sx → sx < bc.Bounds.Max.X - bc.Bounds.Min.X →
        ∃ L R : Int, 0 ≤ L ∧ R ≤ 33554432
          ∧ (∀ x y : Int, x - offset < 33554432 →
              (sample1D impl offset
                  (factor1D width offset (bc.Bounds.Max.X - bc.Bounds.Min.X))
                  (bc.Bounds.Max.X - bc.Bounds.Min.X) x y = Sample.source sx 0
                ↔ (offset + L ≤ x ∧ x < offset + R)))
          ∧ (R - L = ⌊((width - 2 * offset : Int) : ℚ)
                        / ((bc.Bounds.Max.X - bc.Bounds.Min.X : Int) : ℚ)⌋
              ∨ R - L = ⌈((width - 2 * offset : Int) : ℚ)
                        / ((bc.Bounds.Max.X - bc.Bounds.Min.X : Int) : ℚ)⌉))
    ∧ (bc.Bounds.Max.X - bc.Bounds.Min.X ≤ width - 2 * offset →
        ∀ sx : Int, 0 ≤ sx → sx < bc.Bounds.Max.X - bc.Bounds.Min.X →
          ∃ x : Int, offset ≤ x ∧ x < width - offset ∧ ∀ y : Int, r.At x y = bc.At sx 0) := by
  have hX : wrap (bc.Bounds.Max.X - bc.Bounds.Min.X) = bc.Bounds.Max.X - bc.Bounds.Min.X :=
    wrap_of_range _ (by unfold MinInt64; omega) (by unfold MaxInt64; omega)
  have hAt := scale1DCode_machine_At impl bc width height offset r h
  have hle := (scale1DCode_machine_ok impl bc width height offset r h).1
  rw [hX] at hAt hle
  generalize bc.Bounds.Max.X - bc.Bounds.Min.X = ow at *
  have ha := factor1D_pos_of_ok width offset ow hw hw2 ha1 ha2 hle
  generalize hA : width - 2 * offset = a at *
  -- the computed source column
  have hidx : ∀ k : Int, 0 ≤ k → k < 33554432 →
      toInt impl (div (ofInt (wrap k)) (factor1D width offset ow)) = k * ow / a
      ∨ (0 < k ∧ (k * ow) % a = 0 ∧ a % ow ≠ 0
          ∧ toInt impl (div (ofInt (wrap k)) (factor1D width offset ow)) = k * ow / a - 1) := by
    intro k hk0 hk
    have := index1D impl width offset ow k hw hw2 (by omega) (by omega) hk0 hk
    rw [hA] at this
    exact this
  generalize hI : (fun k : Int => toInt impl (div (ofInt (wrap k)) (factor1D width offset ow)))
    = I at *
  have hIk : ∀ k : Int, toInt impl (div (ofInt (wrap k)) (factor1D width offset ow)) = I k := by
    intro k
    rw [← hI]
  simp only [hIk] at hidx
  have hsample : ∀ x y : Int, offset ≤ x →
      sample1D impl offset (factor1D width offset ow) ow x y
        = if ow ≤ I (x - offset) then Sample.white else Sample.source (I (x - offset)) 0 := by
    intro x y hx
    rw [sample1D_of_le _ _ _ _ _ _ hx, hIk]
  have hdm : ∀ k : Int, a * (k * ow / a) + (k * ow) % a = k * ow :=
    fun k => Int.ediv_add_emod (k * ow) a
  -- the first column of each source column
  have hstart : ∀ s : Int, s ≤ ow → ∃ b : Int,
      (b = ⌈(s : ℚ) * ((a : ℚ) / (ow : ℚ))⌉
        ∨ (b = ⌈(s : ℚ) * ((a : ℚ) / (ow : ℚ))⌉ + 1 ∧ (s * a) % ow = 0 ∧ a % ow ≠ 0))
      ∧ ∀ k : Int, 0 ≤ k → k < 33554432 → (s ≤ I k ↔ b ≤ k) :=
    fun s hs => column_start I a ow s 33554432 ha hw ha2 hidx hs
  -- the ceiling `⌈s * a / ow⌉` lies in `[0, a]`
  have hceil0 : ∀ s : Int, 0 ≤ s → 0 ≤ ⌈(s : ℚ) * ((a : ℚ) / (ow : ℚ))⌉ := by
    intro s hs
    apply Int.ceil_nonneg
    apply mul_nonneg (by exact_mod_cast hs)
    exact div_nonneg (by exact_mod_cast ha.le) (by exact_mod_cast hw.le)
  have hceila : ∀ s : Int, s ≤ ow → ⌈(s : ℚ) * ((a : ℚ) / (ow : ℚ))⌉ ≤ a := by
    intro s hs
    rw [ceil_mul_quotient_le_iff s a a ow hw, mul_comm a ow]
    exact mul_le_mul_of_nonneg_right hs ha.le
  -- the columns of one source column
  have hcols : ∀ s : Int, 0 ≤ s → s < ow → ∀ b1 b2 : Int, 0 ≤ b1 →
      (∀ k : Int, 0 ≤ k → k < 33554432 → (s ≤ I k ↔ b1 ≤ k)) →
      (∀ k : Int, 0 ≤ k → k < 33554432 → (s + 1 ≤ I k ↔ b2 ≤ k)) →
      ∀ x y : Int, x - offset < 33554432 →
        (sample1D impl offset (factor1D width offset ow) ow x y = Sample.source s 0
          ↔ (offset + b1 ≤ x ∧ x < offset + b2)) := by
    intro s hs0 hs b1 b2 hb1 e1 e2 x y hx2
    by_cases hx : x < offset
    · have hwhite : sample1D impl offset (factor1D width offset ow) ow x y = Sample.white := by
        simp only [sample1D]
        rw [if_pos hx]
      rw [hwhite]
      constructor
      · intro hc; exact absurd hc (by simp)
      · rintro ⟨h1, _⟩; omega
    · have hx' : offset ≤ x := by omega
      have q1 := e1 (x - offset) (by omega) hx2
      have q2 := e2 (x - offset) (by omega) hx2
      rw [hsample x y hx']
      constructor
      · intro hc
        split at hc
        · exact absurd hc (by simp)
        · have e : I (x - offset) = s := by injection hc
          have p1 := q1.1 (by omega)
          have p2 : ¬ (b2 ≤ x - offset) := fun hb => by
            have := q2.2 hb
            omega
          constructor <;> omega
      · rintro ⟨h1, h2⟩
        have p1 := q1.2 (by omega)
        have p2 : ¬ (s + 1 ≤ I (x - offset)) := fun hb => by
          have := q2.1 hb
          omega
        have e : I (x - offset) = s := by omega
        rw [e, if_neg (by omega)]
  refine ⟨hAt, ?_, ?_, ?_⟩
  · intro x1 x2 hx1 hx12 hx2
    rw [hIk, hIk]
    have hk1 : 0 ≤ x1 - offset := by omega
    have hk2 : 0 ≤ x2 - offset := by omega
    rcases (show x1 - offset = x2 - offset ∨ x1 - offset < x2 - offset by omega) with e | hlt
    · rw [e]
    · have hN : (x1 - offset) * ow < (x2 - offset) * ow := mul_lt_mul_of_pos_right hlt hw
      have h1 : I (x1 - offset) ≤ (x1 - offset) * ow / a := by
        rcases hidx (x1 - offset) hk1 (by omega) with e | ⟨_, _, _, e⟩ <;> omega
      rcases hidx (x2 - offset) hk2 hx2 with e | ⟨_, hrem, _, e⟩
      · have := Int.ediv_le_ediv ha hN.le
        omega
      · have h2 := hdm (x2 - offset)
        rw [hrem] at h2
        have h3 : (x1 - offset) * ow / a < (x2 - offset) * ow / a := by
          rw [Int.ediv_lt_iff_lt_mul ha]
          have : (x2 - offset) * ow / a * a = a * ((x2 - offset) * ow / a) := mul_comm _ _
          omega
        omega
  · intro sx hs0 hs
    obtain ⟨b1, hb1, e1⟩ := hstart sx hs.le
    obtain ⟨b2, hb2, e2⟩ := hstart (sx + 1) (by omega)
    have c0 := hceil0 sx hs0
    have c1 := hceila (sx + 1) (by omega)
    have hb10 : 0 ≤ b1 := by
      rcases hb1 with e | ⟨e, _, _⟩ <;> omega
    have hb2a : b2 ≤ 33554432 := by
      rcases hb2 with e | ⟨e, _, _⟩ <;> omega
    refine ⟨b1, b2, hb10, hb2a, hcols sx hs0 hs b1 b2 hb10 e1 e2, ?_⟩
    exact column_count a ow sx b1 b2 hw hb1 hb2
  · intro hge sx hs0 hs
    obtain ⟨b1, hb1, e1⟩ := hstart sx hs.le
    obtain ⟨b2, hb2, e2⟩ := hstart (sx + 1) (by omega)
    have c0 := hceil0 sx hs0
    have hb10 : 0 ≤ b1 := by
      rcases hb1 with e | ⟨e, _, _⟩ <;> omega
    -- the last column of the symbol shows the last source column
    have hlast : ow - 1 ≤ I (a - 1) := by
      have hq : ow - 1 ≤ (a - 1) * ow / a := by
        rw [Int.le_ediv_iff_mul_le ha]
        have e3 : (ow - 1) * a = a * ow - a := by ring
        have e4 : (a - 1) * ow = a * ow - ow := by ring
        omega
      have hq2 : (a - 1) * ow / a < ow := by
        rw [Int.ediv_lt_iff_lt_mul ha]
        have e4 : (a - 1) * ow = a * ow - ow := by ring
        have e5 : ow * a = a * ow := mul_comm _ _
        omega
      rcases hidx (a - 1) (by omega) (by omega) with e | ⟨_, hrem, hnd, e⟩
      · omega
      · exfalso
        have h2 := hdm (a - 1)
        rw [hrem] at h2
        have e6 : (a - 1) * ow / a = ow - 1 := by omega
        rw [e6] at h2
        have e3 : a * (ow - 1) = a * ow - a := by ring
        have e4 : (a - 1) * ow = a * ow - ow := by ring
        have e7 : a = ow := by omega
        apply hnd
        rw [e7]
        exact Int.emod_self
    have hb1a : b1 ≤ a - 1 := (e1 (a - 1) (by omega) (by omega)).1 (by omega)
    -- the count is positive
    have hcount := column_count a ow sx b1 b2 hw hb1 hb2
    have hF1 : (1 : ℚ) ≤ (a : ℚ) / (ow : ℚ) := by
      have hw' : (0 : ℚ) < (ow : ℚ) := by exact_mod_cast hw
      rw [le_div_iff₀ hw', one_mul]
      exact_mod_cast hge
    have hfl : 1 ≤ ⌊(a : ℚ) / (ow : ℚ)⌋ := Int.le_floor.2 (by exact_mod_cast hF1)
    have hcl : 1 ≤ ⌈(a : ℚ) / (ow : ℚ)⌉ := le_trans hfl (Int.floor_le_ceil _)
    have hb12 : b1 < b2 := by
      rcases hcount with e | e <;> omega
    have hx := (hcols sx hs0 hs b1 b2 hb10 e1 e2 (offset + b1) 0 (by omega)).2
      ⟨le_rfl, by omega⟩
    refine ⟨offset + b1, by omega, by omega, ?_⟩
    intro y
    have hy : sample1D impl offset (factor1D width offset ow) ow (offset + b1) y
        = Sample.source sx 0 := hx
    rw [hAt, hy]
    rfl


/-- C18 (witness): the 1D checker of width 7 scaled to width 11 with offset 1: the source
column 3 is shown in some column of `[1, 10)`. -/
theorem scale1DCode_order_below_2_25_witness :
    ∃ x : Int, 1 ≤ x ∧ x < 11 - 1 ∧ ∀ y : Int, scaledBars11.At x y = (checker 1 7 1).At 3 0 :=
  (scale1DCode_order_below_2_25 IntConv.amd64 (checker 1 7 1) 11 1 1 scaledBars11
    scale1DCode_checker_11 (by decide) (by decide) (by decide) (by decide)).2.2.2
    (by decide) 3 (by decide) (by decide)


/-! ## The two embeddings of `scale2DCode` agree below `2^53` -/

/-- For a source of positive extents, with all operands below `2^53`, the machine
`scale2DCode` and the `scale2DCode` of exact arithmetic fail together, with the same
message, and succeed together; the two results have the same bounds and the same colour
at every pixel `(x, y)` for which `x - offset` and `y - offset` are `int` values. -/
theorem scale2DCode_agrees (impl : IntConv) (bc : Barcode) (width height offset : Int)
    (hw : 0 < bc.Bounds.Max.X - bc.Bounds.Min.X)
    (hw2 : bc.Bounds.Max.X - bc.Bounds.Min.X < 9007199254740992)
    (hh : 0 < bc.Bounds.Max.Y - bc.Bounds.Min.Y)
    (hh2 : bc.Bounds.Max.Y - bc.Bounds.Min.Y < 9007199254740992)
    (ha1 : -9007199254740992 < width - 2 * offset)
    (ha2 : width - 2 * offset < 9007199254740992)
    (hb1 : -9007199254740992 < height - 2 * offset)
    (hb2 : height - 2 * offset < 9007199254740992) :
    (∀ e : String, scale2DCode impl bc width height offset = Except.error e
        ↔ barcode.scale2DCode impl bc width height offset = Except.error e)
    ∧ (∀ r : Barcode, scale2DCode impl bc width height offset = Except.ok r →
        ∃ r0 : Barcode, barcode.scale2DCode impl bc width height offset = Except.ok r0
          ∧ r0.Bounds = r.Bounds
          ∧ ∀ x y : Int, MinInt64 ≤ x - offset → x - offset ≤ MaxInt64 →
              MinInt64 ≤ y - offset → y - offset ≤ MaxInt64 → r0.At x y = r.At x y) := by
  have hX : wrap (bc.Bounds.Max.X - bc.Bounds.Min.X) = bc.Bounds.Max.X - bc.Bounds.Min.X :=
    wrap_of_range _ (by unfold MinInt64; omega) (by unfold MaxInt64; omega)
  have hY : wrap (bc.Bounds.Max.Y - bc.Bounds.Min.Y) = bc.Bounds.Max.Y - bc.Bounds.Min.Y :=
    wrap_of_range _ (by unfold MinInt64; omega) (by unfold MaxInt64; omega)
  have hf := factor2D_eq_exact impl width height offset _ _ hw hw2 hh hh2 ha1 ha2 hb1 hb2
  by_cases hpos : 0 < barcode.factor2D impl width height offset
      (bc.Bounds.Max.X - bc.Bounds.Min.X) (bc.Bounds.Max.Y - bc.Bounds.Min.Y)
  · have h1 := scale2DCode_machine_of_pos impl bc width height offset
      (by rw [hX, hY, hf]; exact hpos)
    have h2 := barcode.scale2DCode_of_pos impl bc width height offset hpos
    constructor
    · intro e
      rw [h1, h2]
      constructor <;> intro hc <;> exact absurd hc (by simp)
    · intro r hr
      rw [h1] at hr
      have hr' := (Except.ok.inj hr).symm
      refine ⟨_, h2, ?_, ?_⟩
      · rw [hr', newScaledBC_Bounds, newScaledBC_Bounds]
      · intro x y hx1 hx2 hy1 hy2
        rw [hr', newScaledBC_At, newScaledBC_At, hX, hY, hf,
          sample2D_machine_eq _ _ _ _ _ _ hx1 hx2 hy1 hy2]
  · have hle : barcode.factor2D impl width height offset
        (bc.Bounds.Max.X - bc.Bounds.Min.X) (bc.Bounds.Max.Y - bc.Bounds.Min.Y) ≤ 0 := by
      omega
    have h1 := scale2DCode_machine_of_nonpos impl bc width height offset
      (by rw [hX, hY, hf]; exact hle)
    have h2 := barcode.scale2DCode_of_nonpos impl bc width height offset hle
    rw [hX, hY] at h1
    constructor
    · intro e
      rw [h1, h2]
    · intro r hr
      rw [h1] at hr
      exact absurd hr (by simp)

/-! ## The failing inputs of C4 and C8, in machine arithmetic -/

/-- The binary64 number `1/2` is the quotient `float64(5) / float64(10)`. -/
theorem factor1D_5_0_10 : factor1D 5 0 10 = float64.fin (1 / 2) := by
  unfold factor1D
  rw [show wrap (5 - wrap (2 * 0)) = 5 from by decide,
    ofInt_exact 5 (by decide) (by decide), ofInt_exact 10 (by decide) (by decide)]
  simp only [div, float64.div]
  rw [if_neg (by norm_num)]
  have e : ((5 : Int) : ℚ) / ((10 : Int) : ℚ) = (1 : ℚ) / 2 := by norm_num
  show round (((5 : Int) : ℚ) / ((10 : Int) : ℚ)) = _
  rw [e]
  have h := round_eval ((1 : ℚ) / 2) (-1) 4503599627370496 (by norm_num) (by norm_num)
    (by norm_num) (by norm_num)
    (roundHalfEven_down _ 4503599627370496 (by norm_num) (by norm_num))
    (by norm_num)
  rw [h]
  norm_num

/-- With the factor `1/2` the column `k` maps to the source column `2 * k`. -/
theorem index_half (impl : IntConv) (k : Int) (hk0 : 0 ≤ k) (hk : k < 4503599627370496) :
    toInt impl (div (ofInt (wrap k)) (float64.fin (1 / 2))) = 2 * k := by
  rw [wrap_of_range k (by unfold MinInt64; omega) (by unfold MaxInt64; omega),
    ofInt_exact k (by omega) (by omega)]
  simp only [div, float64.div]
  rw [if_neg (by norm_num)]
  have e : (k : ℚ) / (1 / 2) = ((2 * k : Int) : ℚ) := by
    push_cast
    ring
  have h := ofInt_exact (2 * k) (by omega) (by omega)
  unfold ofInt at h
  show toInt impl (round ((k : ℚ) / (1 / 2))) = 2 * k
  rw [e, h]
  apply toInt_of_trunc impl _ _ _ (by unfold MinInt64; omega) (by unfold MaxInt64; omega)
  exact trunc_of_mem _ _ (by omega) le_rfl (by linarith)

/-- The machine `scale1DCode` accepts the width 5 for a source of width 10, as the
`scale1DCode` of exact arithmetic does: the factor `1/2` is a binary64 number, and the
column `x` of the result shows the source column `2 * x`. -/
theorem scale1DCode_machine_accepts_shrinking :
    ∃ r, scale1DCode IntConv.amd64 (checker 1 10 1) 5 1 0 = Except.ok r
      ∧ r.At 0 0 = (checker 1 10 1).At 0 0
      ∧ r.At 1 0 = (checker 1 10 1).At 2 0
      ∧ r.At 4 0 = (checker 1 10 1).At 8 0 := by
  have hX : wrap ((checker 1 10 1).Bounds.Max.X - (checker 1 10 1).Bounds.Min.X) = 10 := by
    decide
  have hle : float64.le (factor1D 5 0
      (wrap ((checker 1 10 1).Bounds.Max.X - (checker 1 10 1).Bounds.Min.X)))
      (float64.fin 0) = false := by
    rw [hX, factor1D_5_0_10]
    simp only [float64.le, decide_eq_false_iff_not, not_le]
    norm_num
  rw [scale1DCode_machine_of_not_le _ _ _ _ _ hle]
  refine ⟨_, rfl, ?_, ?_, ?_⟩
  · rw [newScaledBC_At, hX, factor1D_5_0_10, sample1D_of_le _ _ _ _ _ _ (by decide),
      show (0 : Int) - 0 = 0 from by decide, index_half _ 0 (by decide) (by decide),
      if_neg (by decide)]
    rfl
  · rw [newScaledBC_At, hX, factor1D_5_0_10, sample1D_of_le _ _ _ _ _ _ (by decide),
      show (1 : Int) - 0 = 1 from by decide, index_half _ 1 (by decide) (by decide),
      if_neg (by decide)]
    rfl
  · rw [newScaledBC_At, hX, factor1D_5_0_10, sample1D_of_le _ _ _ _ _ _ (by decide),
      show (4 : Int) - 0 = 4 from by decide, index_half _ 4 (by decide) (by decide),
      if_neg (by decide)]
    rfl

/-- The machine `Scale` of a 1D symbol of width 0 to width 0 succeeds, as the `Scale` of
exact arithmetic does: the factor is `0/0 = NaN`, and `At(0,0)` of the result reads the
source at `int(NaN)`, on amd64 `-9223372036854775808`. -/
theorem scale1DCode_machine_NaN_reads_outside :
    factor1D 0 0 (wrap ((checker 1 0 1).Bounds.Max.X - (checker 1 0 1).Bounds.Min.X))
      = float64.nan
    ∧ ∃ r, Scale IntConv.amd64 (checker 1 0 1) 0 1 0 = Except.ok r
      ∧ r.At 0 0 = (checker 1 0 1).At (-9223372036854775808) 0
      ∧ r.At 0 0 ≠ color.White := by
  have hX : wrap ((checker 1 0 1).Bounds.Max.X - (checker 1 0 1).Bounds.Min.X) = 0 := by
    decide
  have hf : factor1D 0 0 0 = float64.nan := by
    unfold factor1D
    rw [show wrap (0 - wrap (2 * 0)) = 0 from by decide, ofInt_exact 0 (by decide) (by decide)]
    simp [div, float64.div]
  have hle : float64.le (factor1D 0 0
      (wrap ((checker 1 0 1).Bounds.Max.X - (checker 1 0 1).Bounds.Min.X)))
      (float64.fin 0) = false := by
    rw [hX, hf]
    rfl
  have hs : sample1D IntConv.amd64 0 float64.nan 0 0 0
      = Sample.source (-9223372036854775808) 0 := by
    rw [sample1D_of_le _ _ _ _ _ _ (by decide), show wrap (0 - 0) = 0 from by decide,
      ofInt_exact 0 (by decide) (by decide)]
    simp [div, float64.div, toInt, IntConv.amd64]
  have hS : Scale IntConv.amd64 (checker 1 0 1) 0 1 0
      = scale1DCode IntConv.amd64 (checker 1 0 1) 0 1 0 := by
    unfold Scale
    rw [if_pos (by decide)]
  refine ⟨by rw [hX, hf], ?_⟩
  rw [hS, scale1DCode_machine_of_not_le _ _ _ _ _ hle]
  refine ⟨_, rfl, ?_, ?_⟩
  · rw [newScaledBC_At, hX, hf, hs]
    rfl
  · rw [newScaledBC_At, hX, hf, hs]
    decide

end machine

end barcode
